import Mathlib

/-!
Verification development for the file-system task board
(`task_manager.py`, `notifications.py`).

The embedding works over explicit character lists (`Chars := List Char`).
Documents are the exact strings the Python code builds; the regex-based
parsing of the original is translated into explicit first-occurrence
searches with the same semantics on all inputs.  File reading is modelled
by passing the file's content; `datetime.now()` is modelled by an explicit
`now` argument.
-/

namespace TaskBoard

abbrev Chars := List Char

/-- Characters removed by Python `str.strip()` (ASCII whitespace). -/
def pyWs (c : Char) : Bool :=
  c = ' ' || c = '\t' || c = '\n' || c = '\r' || c = '\x0b' || c = '\x0c'

/-- Python `str.strip()`. -/
def pyStrip (l : Chars) : Chars :=
  ((l.dropWhile pyWs).reverse.dropWhile pyWs).reverse

/-- Does `l` start with pattern `p`? -/
def hasPre (p l : Chars) : Bool := decide (l.take p.length = p)

/-- Does `l` end with pattern `p`? -/
def hasSfx (p l : Chars) : Bool := decide (l.reverse.take p.length = p.reverse)

/-- Index of the first occurrence of pattern `p` in `l` (Python `str.find`,
`re.search` on a literal pattern), `none` when absent. -/
def findSub (p : Chars) : Chars → Option Nat
  | [] => if p = [] then some 0 else none
  | c :: cs =>
    if (c :: cs).take p.length = p then some 0
    else (findSub p (cs)).map (· + 1)

/-- Does pattern `p` occur in `l`? -/
def occursIn (p l : Chars) : Bool := (findSub p l).isSome

/-- Split at the first occurrence of `p`: the part before and the part after. -/
def splitFirst (p l : Chars) : Option (Chars × Chars) :=
  (findSub p l).map fun i => (l.take i, l.drop (i + p.length))

/-- Number of non-overlapping occurrences of `p` in `l`, scanning left to
right (Python `str.count`), fuel-indexed. -/
def countOccF (fuel : Nat) (p l : Chars) : Nat :=
  match fuel with
  | 0 => 0
  | f + 1 =>
    match findSub p l with
    | none => 0
    | some i => 1 + countOccF f p (l.drop (i + p.length))

def countOcc (p l : Chars) : Nat := countOccF (l.length + 1) p l

/-- Python `str.replace`: replace every non-overlapping occurrence of `p`
by `r`, scanning left to right; replacement text is not rescanned. -/
def pyReplaceF (fuel : Nat) (p r l : Chars) : Chars :=
  match fuel with
  | 0 => l
  | f + 1 =>
    match findSub p l with
    | none => l
    | some i => l.take i ++ r ++ pyReplaceF f p r (l.drop (i + p.length))

def pyReplace (p r l : Chars) : Chars := pyReplaceF (l.length + 1) p r l

/-- Python `str.split('\n')`. -/
def splitNL : Chars → List Chars
  | [] => [[]]
  | c :: cs =>
    if c = '\n' then [] :: splitNL cs
    else
      match splitNL cs with
      | [] => [[c]]
      | h :: t => (c :: h) :: t

/-- Python `'\n'.join`. -/
def joinNL : List Chars → Chars
  | [] => []
  | [l] => l
  | l :: ls => l ++ '\n' :: joinNL ls

/-- Generic separator join (used for `json.dumps` comma separation). -/
def intercal (sep : Chars) : List Chars → Chars
  | [] => []
  | [x] => x
  | x :: xs => x ++ sep ++ intercal sep xs

/-- JSON string escaping as in `json.dumps`, restricted to the quote and
backslash escapes; escaping of control and non-ASCII characters is not
modelled (the well-formedness predicates below keep list elements inside
this fragment). -/
def jsonEsc : Chars → Chars
  | [] => []
  | c :: cs =>
    if c = '"' || c = '\\' then '\\' :: c :: jsonEsc cs else c :: jsonEsc cs

def jsonQuote (s : String) : Chars := '"' :: (jsonEsc s.data ++ ['"'])

/-- The serialization `json.dumps` gives a list of strings. -/
def jsonDumps (l : List String) : Chars :=
  '[' :: (intercal ", ".data (l.map jsonQuote) ++ [']'])

def jsonWsChar (c : Char) : Bool := c = ' ' || c = '\t' || c = '\n' || c = '\r'

def jsonSkipWs (l : Chars) : Chars := l.dropWhile jsonWsChar

/-- Body of a JSON string literal, after the opening quote; only the `\"`
and `\\` escapes of the fragment are accepted. -/
def jsonStrBody (fuel : Nat) (acc : Chars) (l : Chars) : Option (Chars × Chars) :=
  match fuel with
  | 0 => none
  | f + 1 =>
    match l with
    | [] => none
    | c :: rest =>
      if c = '"' then some (acc.reverse, rest)
      else if c = '\\' then
        match rest with
        | [] => none
        | c2 :: rest2 =>
          if c2 = '"' || c2 = '\\' then jsonStrBody f (c2 :: acc) rest2
          else none
      else jsonStrBody f (c :: acc) rest

def jsonStrLit (l : Chars) : Option (String × Chars) :=
  match jsonSkipWs l with
  | [] => none
  | c :: rest =>
    if c = '"' then
      (jsonStrBody (rest.length + 1) [] rest).map fun p => (⟨p.1⟩, p.2)
    else none

def jsonListRest (fuel : Nat) (acc : List String) (l : Chars) :
    Option (List String × Chars) :=
  match fuel with
  | 0 => none
  | f + 1 =>
    match jsonSkipWs l with
    | [] => none
    | c :: rest =>
      if c = ']' then some (acc.reverse, rest)
      else if c = ',' then
        match jsonStrLit rest with
        | some (s, r) => jsonListRest f (s :: acc) r
        | none => none
      else none

/-- Fragment of `json.loads` that parses a JSON array of strings; any other
document makes it fail (which models a `json.loads` exception for invalid
JSON, and is a deliberate model restriction for valid non-string-list JSON,
which the untyped Python object model would accept). -/
def jsonLoads (l : Chars) : Option (List String) :=
  match jsonSkipWs l with
  | [] => none
  | c :: rest =>
    if c = '[' then
      match jsonSkipWs rest with
      | [] => none
      | c2 :: r2 =>
        if c2 = ']' then (if jsonSkipWs r2 = [] then some [] else none)
        else
          match jsonStrLit rest with
          | some (s, r) =>
            match jsonListRest (r.length + 1) [s] r with
            | some (elems, r2) =>
              if jsonSkipWs r2 = [] then some elems else none
            | none => none
          | none => none
    else none

/-! ## The Task data model (`task_manager.py`, class `Task`) -/

structure Comment where
  timestamp : String
  agent : String
  message : String
deriving DecidableEq, Repr

structure Task where
  id : String
  title : String
  description : String
  status : String := "inbox"
  priority : String := "P2"
  assigned : List String := []
  subscribers : List String := []
  tags : List String := []
  created : String
  updated : String
  prd : Option String := none
  plan : Option String := none
  pr : Option String := none
  thread : List Comment := []
deriving DecidableEq, Repr

/-- Error taxonomy; the Python code raises `ValueError` with distinct
messages, modelled as distinct constructors. -/
inductive Err where
  | malformed
  | badJson
  | modelGap
  | invalidStatus (s : String)
  | notFound (id : String)
deriving DecidableEq, Repr

/-- Truthiness of an optional string field (`if self.prd:`). -/
def truthy : Option String → Bool
  | none => false
  | some s => decide (s ≠ "")

/-- One `key: value` frontmatter line. -/
def fmLine (k : String) (v : Chars) : Chars := k.data ++ (": ".data ++ v)

/-- The frontmatter `key: value` lines of `to_markdown`, in source
order; the three optional links appear only when truthy. -/
def fmItems (t : Task) : List Chars :=
  [fmLine "id" t.id.data, fmLine "title" t.title.data,
   fmLine "status" t.status.data, fmLine "priority" t.priority.data,
   fmLine "created" t.created.data, fmLine "updated" t.updated.data,
   fmLine "assigned" (jsonDumps t.assigned),
   fmLine "subscribers" (jsonDumps t.subscribers),
   fmLine "tags" (jsonDumps t.tags)]
  ++ (if truthy t.prd then [fmLine "prd" (t.prd.getD "").data] else [])
  ++ (if truthy t.plan then [fmLine "plan" (t.plan.getD "").data] else [])
  ++ (if truthy t.pr then [fmLine "pr" (t.pr.getD "").data] else [])

/-- The comment-header line of one thread comment. -/
def hdrLine (c : Comment) : Chars :=
  "### ".data ++ (c.timestamp.data ++ (" - ".data ++ c.agent.data))

/-- The three items each thread comment contributes. -/
def commentItems (cs : List Comment) : List Chars :=
  cs.flatMap fun c => [hdrLine c, c.message.data, []]

/-- The same comment blocks as `commentItems`, as newline-free lines
(multi-line messages split). -/
def commentLines (cs : List Comment) : List Chars :=
  cs.flatMap fun c => [hdrLine c] ++ splitNL c.message.data ++ [[]]

/-- The `## Thread` section items (empty when the thread is empty). -/
def threadItems (t : Task) : List Chars :=
  if t.thread = [] then [] else
    ["## Thread".data, []] ++ commentItems t.thread

/-- The body items of `to_markdown`; the description and each comment
message are single items (they may contain newlines). -/
def bodyItems (t : Task) : List Chars :=
  [[], '#' :: (' ' :: t.title.data), [], "## Description".data,
   t.description.data, []]
  ++ threadItems t

/-- The lines/items that `Task.to_markdown` joins with `'\n'`. -/
def Task.mdItems (t : Task) : List Chars :=
  ["---".data] ++ fmItems t ++ ["---".data] ++ bodyItems t

/-- `Task.to_markdown`. -/
def Task.to_markdown (t : Task) : String := ⟨joinNL t.mdItems⟩

/-! ## Decoding (`Task.from_markdown`); the regexes of the source are
translated into explicit first-occurrence searches with identical
semantics. -/

inductive FmVal where
  | str (s : String)
  | list (l : List String)
deriving DecidableEq, Repr

/-- Parse one frontmatter line: skipped when it has no colon; split at the
first colon, both sides stripped; a value starting with `[` goes through
`json.loads` (whose exception propagates). -/
def parseFmLine (line : Chars) : Except Err (Option (String × FmVal)) :=
  match splitFirst [':'] line with
  | none => .ok none
  | some (k, v) =>
    let k := pyStrip k
    let v := pyStrip v
    if hasPre ['['] v then
      match jsonLoads v with
      | some l => .ok (some (⟨k⟩, .list l))
      | none => .error .badJson
    else .ok (some (⟨k⟩, .str ⟨v⟩))

def parseFm : List Chars → Except Err (List (String × FmVal))
  | [] => .ok []
  | l :: ls =>
    match parseFmLine l with
    | .error e => .error e
    | .ok e =>
      match parseFm ls with
      | .error e2 => .error e2
      | .ok rest =>
        match e with
        | none => .ok rest
        | some kv => .ok (kv :: rest)

/-- The association list `parseFm` produces on `fmItems`. -/
def fmAssoc (t : Task) : List (String × FmVal) :=
  [("id", .str t.id), ("title", .str t.title), ("status", .str t.status),
   ("priority", .str t.priority), ("created", .str t.created),
   ("updated", .str t.updated), ("assigned", .list t.assigned),
   ("subscribers", .list t.subscribers), ("tags", .list t.tags)]
  ++ (if truthy t.prd then [("prd", FmVal.str (t.prd.getD ""))] else [])
  ++ (if truthy t.plan then [("plan", FmVal.str (t.plan.getD ""))] else [])
  ++ (if truthy t.pr then [("pr", FmVal.str (t.pr.getD ""))] else [])

/-- Lookup in the parsed frontmatter; later lines overwrite earlier ones
(Python dict assignment). -/
def fmGet (fm : List (String × FmVal)) (k : String) : Option FmVal :=
  (fm.reverse.find? fun p => p.1 == k).map (·.2)

/-- Character class `[\d\-:T]` of the comment-header regex. -/
def tsChar (c : Char) : Bool := c.isDigit || c = '-' || c = ':' || c = 'T'

/-- Continuation of the comment-header pattern after the timestamp run. -/
def matchHdrAg (ts r2 : Chars) : Option (Chars × Chars × Chars) :=
  if ts ≠ [] ∧ hasPre " - ".data r2 then
    let r3 := r2.drop 3
    let ag := r3.takeWhile (fun c => c ≠ '\n')
    let r4 := r3.drop ag.length
    if ag ≠ [] ∧ hasPre ['\n'] r4 then some (ts, ag, r4.drop 1) else none
  else none

/-- One attempt of the comment-header pattern
`### ([\d\-:T]+) - ([^\n]+)\n` at the current position; on success returns
the timestamp, the agent and the remaining text. -/
def matchHdr (l : Chars) : Option (Chars × Chars × Chars) :=
  if hasPre "### ".data l then
    let r1 := l.drop 4
    matchHdrAg (r1.takeWhile tsChar) (r1.drop (r1.takeWhile tsChar).length)
  else none

/-- Length of the non-greedy comment body `(.*?)(?=\n### |\Z)`. -/
def bodyEnd (l : Chars) : Nat := (findSub "\n### ".data l).getD l.length

/-- The left-to-right non-overlapping scan `re.findall` performs for
comment blocks; the lookahead is not consumed. -/
def scanComments (fuel : Nat) (l : Chars) : List Comment :=
  match fuel with
  | 0 => []
  | f + 1 =>
    match matchHdr l with
    | some (ts, ag, body) =>
      let q := bodyEnd body
      { timestamp := ⟨ts⟩, agent := ⟨ag⟩, message := ⟨pyStrip (body.take q)⟩ }
        :: scanComments f (body.drop q)
    | none =>
      match l with
      | [] => []
      | _ :: rest => scanComments f rest

/-- Typed read of a scalar frontmatter field.  When the stored value parsed
as a JSON list the untyped Python object would carry a list in a string
field; that is outside the typed model and reported as `modelGap`. -/
def getScalar (fm : List (String × FmVal)) (k dflt : String) : Except Err String :=
  match fmGet fm k with
  | none => .ok dflt
  | some (.str s) => .ok s
  | some (.list _) => .error .modelGap

/-- Typed read of a list-valued frontmatter field (same model restriction
in the string case). -/
def getListF (fm : List (String × FmVal)) (k : String) : Except Err (List String) :=
  match fmGet fm k with
  | none => .ok []
  | some (.list l) => .ok l
  | some (.str _) => .error .modelGap

/-- Typed read of an optional link field. -/
def getOpt (fm : List (String × FmVal)) (k : String) : Except Err (Option String) :=
  match fmGet fm k with
  | none => .ok none
  | some (.str s) => .ok (some s)
  | some (.list _) => .error .modelGap

/-- The typed field reads of `from_markdown` (Python reads the dict and the
dataclass constructor takes the values). -/
def buildTask (fm : List (String × FmVal)) (descr : Chars)
    (thread : List Comment) : Except Err Task := do
  let id ← getScalar fm "id" ""
  let title ← getScalar fm "title" ""
  let status ← getScalar fm "status" "inbox"
  let priority ← getScalar fm "priority" "P2"
  let assigned ← getListF fm "assigned"
  let subscribers ← getListF fm "subscribers"
  let tags ← getListF fm "tags"
  let created ← getScalar fm "created" ""
  let updated ← getScalar fm "updated" ""
  let prd ← getOpt fm "prd"
  let plan ← getOpt fm "plan"
  let pr ← getOpt fm "pr"
  .ok { id := id, title := title, description := ⟨descr⟩, status := status,
        priority := priority, assigned := assigned,
        subscribers := subscribers, tags := tags, created := created,
        updated := updated, prd := prd, plan := plan, pr := pr,
        thread := thread }

/-- The thread of `from_markdown`: the comment scan after the first
`## Thread\n\n` (empty when absent). -/
def decodeThread (body : Chars) : List Comment :=
  match findSub "## Thread\n\n".data body with
  | none => []
  | some j =>
    let tt := body.drop (j + 11)
    scanComments tt.length tt

/-- The description of `from_markdown`: after the first `## Description\n`,
up to the first `\n## ` lookahead, stripped. -/
def decodeDescr (body : Chars) : Chars :=
  match findSub "## Description\n".data body with
  | none => ([] : Chars)
  | some j =>
    let raw := body.drop (j + 15)
    pyStrip (raw.take ((findSub "\n## ".data raw).getD raw.length))

/-- Decoding after the frontmatter split. -/
def decodeBody (fmText body : Chars) : Except Err Task :=
  match parseFm (splitNL fmText) with
  | .error e => .error e
  | .ok fm => buildTask fm (decodeDescr body) (decodeThread body)

/-- `Task.from_markdown`, on the file's content.  Mirrors the source: split
the frontmatter at the first `\n---\n` after the opening `---\n`; parse
`key: value` lines; extract the thread after the first `## Thread\n\n`; the
description after the first `## Description\n` up to the first `\n## `
lookahead, stripped. -/
def decodeChars (content : Chars) : Except Err Task :=
  if hasPre "---\n".data content then
    match findSub "\n---\n".data (content.drop 4) with
    | none => .error .malformed
    | some i =>
      decodeBody ((content.drop 4).take i) ((content.drop 4).drop (i + 5))
  else .error .malformed

/-- `Task.from_markdown`; reading the file is modelled by passing its
content. -/
def Task.from_markdown (s : String) : Except Err Task := decodeChars s.data

def exceptToSum {ε α : Type} : Except ε α → ε ⊕ α
  | .error e => .inl e
  | .ok a => .inr a

instance {ε α : Type} [DecidableEq ε] [DecidableEq α] : DecidableEq (Except ε α) :=
  fun x y =>
    decidable_of_iff (exceptToSum x = exceptToSum y)
      (by cases x <;> cases y <;> simp [exceptToSum])

/-! ## Task store (`task_manager.py`, class `TaskManager`) -/

/-- The ten valid status directories, in the order the code scans them. -/
def statuses : List String :=
  ["inbox", "in-discovery", "in-planning", "ready-to-build", "in-progress",
   "ready-for-testing", "in-qa", "ready-to-deploy", "deployed", "blocked"]

/-- Store state: one directory listing per status (in `os.listdir` order,
which the operating system does not sort), the content of
`notifications.md` when that file exists, and the activity-log lines. -/
structure State where
  tasks : String → List (String × String)
  notif : Option String
  log : List String

def emptyState : State := { tasks := fun _ => [], notif := none, log := [] }

def dirHas (d : List (String × String)) (fn : String) : Bool :=
  d.any fun p => p.1 == fn

/-- Writing a file: overwrite in place, or add to the directory listing. -/
def upsert (d : List (String × String)) (fn content : String) :
    List (String × String) :=
  if dirHas d fn then d.map fun p => if p.1 == fn then (fn, content) else p
  else d ++ [(fn, content)]

def writeF (s : State) (st fn content : String) : State :=
  { s with tasks := fun st' =>
      if st' = st then upsert (s.tasks st') fn content else s.tasks st' }

def removeF (s : State) (st fn : String) : State :=
  { s with tasks := fun st' =>
      if st' = st then (s.tasks st').filter (fun p => p.1 != fn)
      else s.tasks st' }

def readF (s : State) (st fn : String) : Option String :=
  ((s.tasks st).find? fun p => p.1 == fn).map (·.2)

def fileExists (s : State) (st fn : String) : Bool := dirHas (s.tasks st) fn

def taskFileName (id : String) : String := id ++ ".md"

/-- `TaskManager._find_task_file`, returning the status directory in which
the id's file was found first (scan in `statuses` order). -/
def findTaskDir (s : State) (id : String) : Option String :=
  statuses.find? fun st => fileExists s st (taskFileName id)

/-- `TaskManager.find_task`. -/
def find_task (s : State) (id : String) : Except Err (Option Task) :=
  match findTaskDir s id with
  | none => .ok none
  | some st =>
    match readF s st (taskFileName id) with
    | none => .ok none
    | some doc => (Task.from_markdown doc).map some

/-- Value of Python `int()` on a digit string (with optional sign); the
whitespace tolerance of `int` is not modelled, task file names carry
none. -/
def digitsVal (l : Chars) : Option Nat :=
  if l ≠ [] ∧ l.all Char.isDigit then
    some (l.foldl (fun a c => a * 10 + (c.toNat - 48)) 0)
  else none

def pyInt : Chars → Option Int
  | '-' :: ds => (digitsVal ds).map fun n => -(n : Int)
  | '+' :: ds => (digitsVal ds).map fun n => (n : Int)
  | ds => (digitsVal ds).map fun n => (n : Int)

/-- Numeric read `int(filename[5:8])` of `_generate_task_id`, applied to
names that start with `task-` and end with `.md`; `ValueError` means the
file is skipped (`none`). -/
def idNum (fn : String) : Option Int :=
  if hasPre "task-".data fn.data ∧ hasSfx ".md".data fn.data then
    pyInt ((fn.data.drop 5).take 3)
  else none

/-- The running maximum of `_generate_task_id` (initial value 0). -/
def maxTaskNum (s : State) : Int :=
  statuses.foldl (fun m st =>
    (s.tasks st).foldl (fun m' p =>
      match idNum p.1 with
      | some n => max m' n
      | none => m') m) 0

/-- Python `f"{n:03d}"` for the positive numbers the generator produces
(zero-padded to at least three digits). -/
def pad3 (n : Int) : String :=
  let s := toString n
  ⟨List.replicate (3 - s.length) '0' ++ s.data⟩

/-- `TaskManager._generate_task_id`. -/
def generate_task_id (s : State) : String := "task-" ++ pad3 (maxTaskNum s + 1)

/-- `TaskManager.create_task` (`datetime.now()` is the explicit `now`;
the two default-factory calls for `created` and `updated` are modelled as
the same instant). -/
def create_task (s : State) (now title descr priority : String)
    (tags : List String) : Task × State :=
  let id := generate_task_id s
  let t : Task := { id := id, title := title, description := descr,
                    priority := priority, tags := tags,
                    created := now, updated := now }
  let s := writeF s "inbox" (taskFileName id) t.to_markdown
  (t, { s with log := s.log ++
        [now ++ " | system | Created task " ++ id ++ ": " ++ title] })

/-- Explicit model of the `**updates` keyword arguments of `update_task`:
at most one value per known Task field, plus the list of unknown names
(for which `hasattr` is false, so the code skips them).  Dynamic `setattr`
with a value of the wrong type is outside the typed model. -/
structure TaskUpdates where
  id : Option String := none
  title : Option String := none
  description : Option String := none
  status : Option String := none
  priority : Option String := none
  assigned : Option (List String) := none
  subscribers : Option (List String) := none
  tags : Option (List String) := none
  created : Option String := none
  updated : Option String := none
  prd : Option (Option String) := none
  plan : Option (Option String) := none
  pr : Option (Option String) := none
  thread : Option (List Comment) := none
  unknownKeys : List String := []

/-- The `setattr` loop of `update_task` for known fields. -/
def applySet (t : Task) (u : TaskUpdates) : Task :=
  { id := u.id.getD t.id, title := u.title.getD t.title,
    description := u.description.getD t.description,
    status := u.status.getD t.status, priority := u.priority.getD t.priority,
    assigned := u.assigned.getD t.assigned,
    subscribers := u.subscribers.getD t.subscribers,
    tags := u.tags.getD t.tags, created := u.created.getD t.created,
    updated := u.updated.getD t.updated, prd := u.prd.getD t.prd,
    plan := u.plan.getD t.plan, pr := u.pr.getD t.pr,
    thread := u.thread.getD t.thread }

/-- `TaskManager.update_task`. -/
def update_task (s : State) (now id : String) (u : TaskUpdates) :
    Except Err Task × State :=
  match findTaskDir s id with
  | none => (.error (.notFound id), s)
  | some st =>
    match readF s st (taskFileName id) with
    | none => (.error (.notFound id), s)
    | some doc =>
      match Task.from_markdown doc with
      | .error e => (.error e, s)
      | .ok t =>
        let t1 := applySet t u
        let t2 := { t1 with updated := now }
        (.ok t2, writeF s st (taskFileName id) t2.to_markdown)

/-- `TaskManager.move_task`: validity check first, then lookup, then write
to the new directory, then remove the old file, then log. -/
def move_task (s : State) (now id newStatus : String) :
    Except Err Task × State :=
  if newStatus ∈ statuses then
    match findTaskDir s id with
    | none => (.error (.notFound id), s)
    | some st0 =>
      match readF s st0 (taskFileName id) with
      | none => (.error (.notFound id), s)
      | some doc =>
        match Task.from_markdown doc with
        | .error e => (.error e, s)
        | .ok t =>
          let oldStatus := t.status
          let t1 := { t with status := newStatus, updated := now }
          let s1 := writeF s newStatus (taskFileName id) t1.to_markdown
          let s2 := removeF s1 st0 (taskFileName id)
          (.ok t1, { s2 with log := s2.log ++
            [now ++ " | system | Moved " ++ id ++ " from " ++ oldStatus
              ++ " to " ++ newStatus] })
  else (.error (.invalidStatus newStatus), s)

/-- Python `message[:100]` plus the conditional ellipsis. -/
def truncMsg (msg : String) : Chars :=
  msg.data.take 100 ++ (if 100 < msg.data.length then "...".data else [])

/-- Python `s[:16]`. -/
def take16 (s : String) : String := ⟨s.data.take 16⟩

/-- One notification block of `_notify_subscribers` (the f-string verbatim,
including its leading newline and the two trailing newlines). -/
def notifBlock (now : String) (t : Task) (commenter msg ag : String) : Chars :=
  "\n### @".data ++ ag.data
  ++ "\nFrom: ".data ++ commenter.data ++ " (".data ++ t.id.data ++ ")".data
  ++ "\nMessage: ".data ++ truncMsg msg
  ++ "\nTime: ".data ++ (take16 now).data
  ++ "\nLink: workspace/tasks/".data ++ t.status.data ++ "/".data
  ++ t.id.data ++ ".md\n\n".data

/-- Default content used by `_notify_subscribers` when `notifications.md`
does not exist (note: no `## Delivered` section). -/
def defaultLedger : String := "# Notifications\n\n## Pending\n\n"

/-- `TaskManager._notify_subscribers`: for each subscriber other than the
commenter, `str.replace` splices a block after every occurrence of
`## Pending\n\n`; nothing is written when there is nobody to notify. -/
def notify_subscribers (s : State) (now : String) (t : Task)
    (commenter msg : String) : State :=
  let toNotify := t.subscribers.filter fun a => a != commenter
  if toNotify = [] then s
  else
    let content := (s.notif.getD defaultLedger).data
    let content := toNotify.foldl (fun c ag =>
      pyReplace "## Pending\n\n".data
        ("## Pending\n\n".data ++ notifBlock now t commenter msg ag) c) content
    { s with notif := some ⟨content⟩ }

/-- The task value `add_comment` writes back: the appended comment, the
commenter auto-subscribed when absent, and the bumped `updated`. -/
def acTask (t : Task) (now agent msg : String) : Task :=
  let c : Comment := { timestamp := take16 now, agent := agent,
                       message := msg }
  let t1 := { t with thread := t.thread ++ [c] }
  let t2 := if agent ∈ t1.subscribers then t1
            else { t1 with subscribers := t1.subscribers ++ [agent] }
  { t2 with updated := now }

/-- `TaskManager.add_comment`: append the comment, auto-subscribe the
commenter, bump `updated`, write back, log, notify. -/
def add_comment (s : State) (now id agent msg : String) :
    Except Err Task × State :=
  match findTaskDir s id with
  | none => (.error (.notFound id), s)
  | some st =>
    match readF s st (taskFileName id) with
    | none => (.error (.notFound id), s)
    | some doc =>
      match Task.from_markdown doc with
      | .error e => (.error e, s)
      | .ok t =>
        let t3 := acTask t now agent msg
        let s1 := writeF s st (taskFileName id) t3.to_markdown
        let s2 := { s1 with log := s1.log ++
          [now ++ " | " ++ agent ++ " | Commented on " ++ id] }
        let s3 := notify_subscribers s2 now t3 agent msg
        (.ok t3, s3)

/-- The in-memory mutation of `assign_task`: append to `assigned` when
absent, and only then auto-subscribe when absent. -/
def asTask (t : Task) (agent : String) : Task :=
  if agent ∈ t.assigned then t
  else
    let ta := { t with assigned := t.assigned ++ [agent] }
    if agent ∈ ta.subscribers then ta
    else { ta with subscribers := ta.subscribers ++ [agent] }

/-- `TaskManager.assign_task` (idempotent append plus auto-subscribe;
persists through `update_task`, which re-reads the file). -/
def assign_task (s : State) (now id agent : String) :
    Except Err Task × State :=
  match find_task s id with
  | .error e => (.error e, s)
  | .ok none => (.error (.notFound id), s)
  | .ok (some t) =>
    let t1 := asTask t agent
    update_task s now id
      { assigned := some t1.assigned, subscribers := some t1.subscribers }

/-- One directory of the `find_mentions` scan: files ending in `.md` whose
raw text contains the pattern, decoded (decoding failures propagate). -/
def mentionsDir (pat : Chars) : List (String × String) → Except Err (List Task)
  | [] => .ok []
  | (fn, doc) :: rest =>
    if hasSfx ".md".data fn.data then
      if occursIn pat doc.data then do
        let t ← Task.from_markdown doc
        let ts ← mentionsDir pat rest
        .ok (t :: ts)
      else mentionsDir pat rest
    else mentionsDir pat rest

def mentionsAll (s : State) (pat : Chars) : List String → Except Err (List Task)
  | [] => .ok []
  | st :: sts => do
    let a ← mentionsDir pat (s.tasks st)
    let b ← mentionsAll s pat sts
    .ok (a ++ b)

/-- `TaskManager.find_mentions`: substring scan for `@agent` over all
status directories. -/
def find_mentions (s : State) (agent : String) : Except Err (List Task) :=
  mentionsAll s ('@' :: agent.data) statuses

/-- Phase 1 of `find_work` over one directory: first task whose `assigned`
contains the role (every `.md` file is decoded along the way). -/
def scanAssignedDir (role : String) :
    List (String × String) → Except Err (Option Task)
  | [] => .ok none
  | (fn, doc) :: rest =>
    if hasSfx ".md".data fn.data then do
      let t ← Task.from_markdown doc
      if role ∈ t.assigned then .ok (some t) else scanAssignedDir role rest
    else scanAssignedDir role rest

def scanAssigned (s : State) (role : String) :
    List String → Except Err (Option Task)
  | [] => .ok none
  | st :: sts => do
    match ← scanAssignedDir role (s.tasks st) with
    | some t => .ok (some t)
    | none => scanAssigned s role sts

/-- The fixed role-to-status table of `find_work`. -/
def status_map : List (String × String) :=
  [("pm", "inbox"), ("architect", "in-planning"),
   ("engineer", "ready-to-build"), ("qa", "ready-for-testing"),
   ("security", "in-progress"), ("devops", "ready-to-deploy")]

/-- Phase 3 of `find_work`: first task with an empty `assigned` list in the
mapped directory. -/
def scanUnassignedDir : List (String × String) → Except Err (Option Task)
  | [] => .ok none
  | (fn, doc) :: rest =>
    if hasSfx ".md".data fn.data then do
      let t ← Task.from_markdown doc
      if t.assigned = [] then .ok (some t) else scanUnassignedDir rest
    else scanUnassignedDir rest

/-- `TaskManager.find_work`: assigned tasks first, then `@role` mentions,
then the first unassigned task in the role's mapped directory. -/
def find_work (s : State) (role : String) : Except Err (Option Task) := do
  match ← scanAssigned s role statuses with
  | some t => .ok (some t)
  | none =>
    let ms ← find_mentions s role
    match ms with
    | t :: _ => .ok (some t)
    | [] =>
      match (status_map.find? fun p => p.1 == role).map (·.2) with
      | none => .ok none
      | some target => scanUnassignedDir (s.tasks target)

/-! ## Notification ledger (`notifications.py`, class `NotificationManager`) -/

/-- Content written by `_ensure_file_exists` for a fresh ledger. -/
def freshLedger : String := "# Notifications\n\n## Pending\n\n## Delivered\n\n"

/-- `NotificationManager._ensure_file_exists`. -/
def ensure_file_exists (s : State) : State :=
  match s.notif with
  | none => { s with notif := some freshLedger }
  | some _ => s

/-- Parsed notification dictionary; each field is present only when its
regex search matched. -/
structure PyNotif where
  fromAgent : Option String := none
  task_id : Option String := none
  message : Option String := none
  time : Option String := none
  link : Option String := none
deriving DecidableEq, Repr

/-- Behaviour of `re.search` for patterns of the form `pre(CAP+)`: start
positions are tried left to right and one matches only when the literal
`pre` is followed by at least one capture character. -/
def searchCapture (pre : Chars) (ok : Char → Bool) : Chars → Option Chars
  | [] => none
  | c :: cs =>
    if hasPre pre (c :: cs) ∧ ((c :: cs).drop pre.length).takeWhile ok ≠ [] then
      some (((c :: cs).drop pre.length).takeWhile ok)
    else searchCapture pre ok cs

/-- Behaviour of `re.search(r'\(([^)]+)\)')`: first parenthesis with a
non-empty capture that is closed. -/
def searchParen : Chars → Option Chars
  | [] => none
  | '(' :: cs =>
    let cap := cs.takeWhile fun d => d ≠ ')'
    if cap ≠ [] ∧ hasPre [')'] (cs.drop cap.length) then some cap
    else searchParen cs
  | _ :: cs => searchParen cs

/-- The per-block field extraction of `get_notifications` (`task_id` is
the only field the code does not strip). -/
def parseNotifBlock (m : Chars) : PyNotif :=
  { fromAgent := (searchCapture "From: ".data
      (fun c => c != '\n' && c != '(') m).map fun x => ⟨pyStrip x⟩
    task_id := (searchParen m).map fun x => ⟨x⟩
    message := (searchCapture "Message: ".data (fun c => c != '\n') m).map
      fun x => ⟨pyStrip x⟩
    time := (searchCapture "Time: ".data (fun c => c != '\n') m).map
      fun x => ⟨pyStrip x⟩
    link := (searchCapture "Link: ".data (fun c => c != '\n') m).map
      fun x => ⟨pyStrip x⟩ }

def isEmptyN (n : PyNotif) : Bool :=
  n.fromAgent.isNone && n.task_id.isNone && n.message.isNone
    && n.time.isNone && n.link.isNone

/-- End of the non-greedy block body `(.*?)(?=\n### @|\n## |\Z)`. -/
def blockEnd (l : Chars) : Nat :=
  min ((findSub "\n### @".data l).getD l.length)
      ((findSub "\n## ".data l).getD l.length)

/-- The `re.findall` scan for an agent's blocks (`hdr` is
`### @agent\n`); returns the capture after each header.  The lookahead is
not consumed. -/
def scanAgentBlocks (fuel : Nat) (hdr l : Chars) : List Chars :=
  match fuel with
  | 0 => []
  | f + 1 =>
    if hasPre hdr l then
      let body := l.drop hdr.length
      let q := blockEnd body
      body.take q :: scanAgentBlocks f hdr (body.drop q)
    else
      match l with
      | [] => []
      | _ :: rest => scanAgentBlocks f hdr rest

/-- The `## Pending\n\n(.*?)## Delivered` search shared by
`get_notifications` and `mark_delivered`: region between the first
`## Pending\n\n` and the first `## Delivered` after it. -/
def pendingMatch (content : Chars) : Option (Chars × Chars) :=
  match splitFirst "## Pending\n\n".data content with
  | none => none
  | some (_, tail) => splitFirst "## Delivered".data tail

/-- `NotificationManager.get_notifications` on the ledger content. -/
def get_notifications (content agent : String) : List PyNotif :=
  match pendingMatch content.data with
  | none => []
  | some (region, _) =>
    (((scanAgentBlocks region.length
        ("### @".data ++ agent.data ++ ['\n']) region).map
      parseNotifBlock).filter fun n => !(isEmptyN n))

/-- `NotificationManager.mark_delivered` on the ledger content.  The found
blocks are removed from the pending region by `str.replace` (all
occurrences), stamped, and put at the head of the Delivered section; note
that the reconstruction drops everything before `## Pending`. -/
def mark_delivered (now content agent : String) : String :=
  match pendingMatch content.data with
  | none => content
  | some (region, _) =>
    let hdr := "### @".data ++ agent.data ++ ['\n']
    let blocks := (scanAgentBlocks region.length hdr region).map
      fun b => hdr ++ b
    if blocks = [] then content
    else
      let pending := blocks.foldl (fun pc b => pyReplace b [] pc) region
      let stamped := blocks.map
        fun b => b ++ ("Delivered: ".data ++ ((take16 now).data ++ ['\n']))
      let delivered :=
        match splitFirst "## Delivered\n\n".data content.data with
        | none => []
        | some (_, d) => d
      ⟨"## Pending\n\n".data ++ pending ++ "## Delivered".data
        ++ "\n\n".data ++ stamped.flatten ++ delivered⟩

/-- State-level `mark_delivered` (a missing ledger file is a no-op). -/
def mark_deliveredS (s : State) (now agent : String) : State :=
  match s.notif with
  | none => s
  | some c => { s with notif := some (mark_delivered now c agent) }

/-! ## Well-formedness predicates

Shapes of field values under which the hand-rolled format is injective;
they exclude collisions between free text and the structural markers of
the record format, and keep values inside the modelled fragment of
`json.dumps`. -/

def nlFree (l : Chars) : Prop := '\n' ∉ l

def stripInv (l : Chars) : Prop := pyStrip l = l

/-- A scalar frontmatter value round-trips when it is newline-free,
strip-invariant and does not look like a JSON array. -/
def valOk (s : String) : Prop :=
  nlFree s.data ∧ stripInv s.data ∧ hasPre "[".data s.data = false

/-- Printable ASCII, the fragment of `json.dumps` escaping modelled
here. -/
def elemChar (c : Char) : Prop := 32 ≤ c.toNat ∧ c.toNat ≤ 126

def elemOk (s : String) : Prop := ∀ c ∈ s.data, elemChar c

/-- Title constraints: also no collision of the `# <title>` heading line
with the section headers. -/
def titleOk (s : String) : Prop :=
  valOk s ∧ hasSfx "## Description".data ('#' :: (' ' :: s.data)) = false
    ∧ hasSfx "## Thread".data ('#' :: (' ' :: s.data)) = false

/-- Description lines must not start a section or fake a thread header. -/
def descLineOk (l : Chars) : Prop :=
  hasPre "## ".data l = false ∧ hasSfx "## Thread".data l = false

def descOk (s : String) : Prop :=
  stripInv s.data ∧ ∀ l ∈ splitNL s.data, descLineOk l

/-- Comment-message lines must not look like comment headers. -/
def msgOk (s : String) : Prop :=
  stripInv s.data ∧ ∀ l ∈ splitNL s.data, hasPre "### ".data l = false

def tsOk (s : String) : Prop := s.data ≠ [] ∧ ∀ c ∈ s.data, tsChar c = true

def agentLineOk (s : String) : Prop := s.data ≠ [] ∧ nlFree s.data

def commentOk (c : Comment) : Prop :=
  tsOk c.timestamp ∧ agentLineOk c.agent ∧ msgOk c.message

def optOk : Option String → Prop
  | none => True
  | some s => s ≠ "" ∧ valOk s

/-- Well-formed task: the shapes under which the codec round-trips. -/
def WTask (t : Task) : Prop :=
  valOk t.id ∧ titleOk t.title ∧ descOk t.description ∧ valOk t.status
  ∧ valOk t.priority ∧ valOk t.created ∧ valOk t.updated
  ∧ (∀ a ∈ t.assigned, elemOk a) ∧ (∀ a ∈ t.subscribers, elemOk a)
  ∧ (∀ a ∈ t.tags, elemOk a)
  ∧ optOk t.prd ∧ optOk t.plan ∧ optOk t.pr
  ∧ ∀ c ∈ t.thread, commentOk c

/-- Agent names as the fan-out analysis needs them: non-empty printable
ASCII. -/
def agentOk (s : String) : Prop := s ≠ "" ∧ elemOk s

def nowOk (now : String) : Prop := valOk now ∧ tsOk (take16 now)

instance (l : Chars) : Decidable (nlFree l) :=
  inferInstanceAs (Decidable ('\n' ∉ l))

instance (l : Chars) : Decidable (stripInv l) :=
  inferInstanceAs (Decidable (pyStrip l = l))

instance (s : String) : Decidable (valOk s) :=
  inferInstanceAs (Decidable (_ ∧ _ ∧ _))

instance (c : Char) : Decidable (elemChar c) :=
  inferInstanceAs (Decidable (_ ∧ _))

instance (s : String) : Decidable (elemOk s) :=
  inferInstanceAs (Decidable (∀ c ∈ s.data, elemChar c))

instance (s : String) : Decidable (titleOk s) :=
  inferInstanceAs (Decidable (_ ∧ _ ∧ _))

instance (l : Chars) : Decidable (descLineOk l) :=
  inferInstanceAs (Decidable (_ ∧ _))

instance (s : String) : Decidable (descOk s) :=
  inferInstanceAs (Decidable (_ ∧ ∀ l ∈ splitNL s.data, descLineOk l))

instance (s : String) : Decidable (msgOk s) :=
  inferInstanceAs (Decidable (_ ∧ ∀ l ∈ splitNL s.data, _ = false))

instance (s : String) : Decidable (tsOk s) :=
  inferInstanceAs (Decidable (_ ∧ ∀ c ∈ s.data, _ = true))

instance (s : String) : Decidable (agentLineOk s) :=
  inferInstanceAs (Decidable (_ ∧ _))

instance (c : Comment) : Decidable (commentOk c) :=
  inferInstanceAs (Decidable (_ ∧ _ ∧ _))

instance (o : Option String) : Decidable (optOk o) :=
  match o with
  | none => inferInstanceAs (Decidable True)
  | some _ => inferInstanceAs (Decidable (_ ∧ _))

instance (t : Task) : Decidable (WTask t) := by
  unfold WTask; infer_instance

instance (s : String) : Decidable (agentOk s) :=
  inferInstanceAs (Decidable (_ ∧ _))

instance (now : String) : Decidable (nowOk now) :=
  inferInstanceAs (Decidable (_ ∧ _))

/-! ## Specification-side definitions

These follow the words of the claims (not the code) and exist only to be
compared with the translated code. -/

/-- Specification-side reading of "numeric suffix" of a task file name:
the full digit string between `task-` and `.md`. -/
def numSuffix (fn : String) : Option Nat :=
  if hasPre "task-".data fn.data ∧ hasSfx ".md".data fn.data then
    digitsVal ((fn.data.drop 5).take (fn.data.length - 8))
  else none

/-- Specification-side "maximum numeric suffix among all existing task
files" (0 when there are none). -/
def maxNumSuffixSpec (s : State) : Nat :=
  statuses.foldl (fun m st =>
    (s.tasks st).foldl (fun m' p =>
      match numSuffix p.1 with
      | some n => max m' n
      | none => m') m) 0

/-- A store is canonical when every `task-*.md` file has an exactly
three-digit numeric part (all names the generator itself produces before
task 1000). -/
def canonicalStore (s : State) : Prop :=
  ∀ st ∈ statuses, ∀ p ∈ s.tasks st,
    hasPre "task-".data p.1.data = true → hasSfx ".md".data p.1.data = true →
      p.1.data.length = 11 ∧ ∀ c ∈ (p.1.data.drop 5).take 3, c.isDigit = true

/-- The numeric value the generator's scan attributes to a file name
(0 for names it skips). -/
def gVal (fn : String) : Int :=
  match idNum fn with
  | some n => n
  | none => 0

/-- The inner fold step of `maxTaskNum`. -/
def dstep (m : Int) (p : String × String) : Int :=
  match idNum p.1 with
  | some n => max m n
  | none => m

/-- The outer fold step of `maxTaskNum`. -/
def sstep (s : State) (m : Int) (st : String) : Int :=
  (s.tasks st).foldl dstep m

/-- The ids the spec promises for `n` creates after a maximum of `k`. -/
def idList (k n : Nat) : List String :=
  (List.range n).map fun i => "task-" ++ pad3 ((k + i + 1 : Nat) : Int)

/-- A store holding a single four-digit task file. -/
def C2s : State :=
  { tasks := fun st => if st = "inbox" then [("task-1000.md", "x")] else [],
    notif := none, log := [] }

/-! ## Operation sequences for the id-monotonicity claim -/

inductive OpCM where
  | createOp (now title descr priority : String) (tags : List String)
  | moveOp (now id newStatus : String)
deriving Repr

def stepCM (s : State) : OpCM → State
  | .createOp now ti d p tg => (create_task s now ti d p tg).2
  | .moveOp now id st => (move_task s now id st).2

def runCM (s : State) : List OpCM → State
  | [] => s
  | op :: ops => runCM (stepCM s op) ops

/-- Ids returned by the create operations of a sequence, in order. -/
def createdIds (s : State) : List OpCM → List String
  | [] => []
  | .createOp now ti d p tg :: ops =>
    (create_task s now ti d p tg).1.id
      :: createdIds (stepCM s (.createOp now ti d p tg)) ops
  | .moveOp now id st :: ops => createdIds (stepCM s (.moveOp now id st)) ops

/-- A move is proper when it targets a valid status different from the
directory currently holding the task (when the target equals the current
directory the code's write-then-remove deletes the record). -/
def properMove (s : State) : OpCM → Prop
  | .createOp _ _ _ _ _ => True
  | .moveOp _ id st => st ∈ statuses ∧ findTaskDir s id ≠ some st

def SeqOk (s : State) : List OpCM → Prop
  | [] => True
  | op :: ops => properMove s op ∧ SeqOk (stepCM s op) ops

def countCreates : List OpCM → Nat
  | [] => 0
  | .createOp _ _ _ _ _ :: ops => countCreates ops + 1
  | .moveOp _ _ _ :: ops => countCreates ops

/-! ## Operation sequences for the auto-subscribe claim -/

inductive OpCS where
  | commentOp (now id agent msg : String)
  | assignOp (now id agent : String)
deriving Repr

def stepCS (s : State) : OpCS → State
  | .commentOp now id ag msg => (add_comment s now id ag msg).2
  | .assignOp now id ag => (assign_task s now id ag).2

def runCS (s : State) : List OpCS → State
  | [] => s
  | op :: ops => runCS (stepCS s op) ops

def benignOp : OpCS → Prop
  | .commentOp now _ ag msg => nowOk now ∧ agentOk ag ∧ msgOk msg
  | .assignOp now _ ag => nowOk now ∧ agentOk ag

/-- Record-level invariant: the stored document decodes to a well-formed
task whose assigned agents and comment authors are all subscribers. -/
def TaskInv (t : Task) : Prop :=
  WTask t ∧ (∀ a ∈ t.assigned, a ∈ t.subscribers)
    ∧ (∀ c ∈ t.thread, c.agent ∈ t.subscribers)

instance (t : Task) : Decidable (TaskInv t) := by
  unfold TaskInv; infer_instance

def recInvB (doc : String) : Bool :=
  match Task.from_markdown doc with
  | .ok t => decide (TaskInv t)
  | .error _ => false

def StoreInv (s : State) : Prop :=
  ∀ st ∈ statuses, ∀ p ∈ s.tasks st, recInvB p.2 = true

/-! ## Specification-side description of the `find_work` fallback chain -/

instance : Inhabited Task :=
  ⟨{ id := "", title := "", description := "", created := "", updated := "" }⟩

/-- All `.md` files in scan order: statuses in list order, each directory
in listing order. -/
def allMdFiles (s : State) : List (String × String × String) :=
  statuses.flatMap fun st =>
    ((s.tasks st).filter fun p => hasSfx ".md".data p.1.data).map
      fun p => (st, p.1, p.2)

/-- Decode of a record, for stores where every record is known to
decode. -/
def decOr (doc : String) : Task :=
  match Task.from_markdown doc with
  | .ok t => t
  | .error _ => default

/-- Every `.md` record of the store decodes. -/
def AllDecode (s : State) : Prop :=
  ∀ st ∈ statuses, ∀ p ∈ s.tasks st,
    hasSfx ".md".data p.1.data = true →
      Task.from_markdown p.2 = .ok (decOr p.2)

instance (s : State) : Decidable (AllDecode s) := by
  unfold AllDecode; infer_instance

/-- Declarative fallback chain: first task (in scan order) with
`role ∈ assigned`; else first task whose raw text mentions `@role`; else
the first unassigned task of the role's mapped directory; else none. -/
def findWorkSpec (s : State) (role : String) : Option Task :=
  match (allMdFiles s).find? fun f => decide (role ∈ (decOr f.2.2).assigned) with
  | some f => some (decOr f.2.2)
  | none =>
    match (allMdFiles s).find? fun f => occursIn ('@' :: role.data) f.2.2.data with
    | some f => some (decOr f.2.2)
    | none =>
      match (status_map.find? fun p => p.1 == role).map (·.2) with
      | none => none
      | some target =>
        match ((s.tasks target).filter fun p =>
            hasSfx ".md".data p.1.data).find? fun p =>
              decide ((decOr p.2).assigned = []) with
        | some p => some (decOr p.2)
        | none => none

/-- Lexicographic string order on code points (Python string `<=`). -/
def chLe : Chars → Chars → Bool
  | [], _ => true
  | _ :: _, [] => false
  | a :: as, b :: bs =>
    if a.toNat < b.toNat then true
    else if a.toNat = b.toNat then chLe as bs
    else false

/-- Insertion into a list sorted by file name. -/
def insertByName (a : String × String) :
    List (String × String) → List (String × String)
  | [] => [a]
  | b :: bs =>
    if chLe a.1.data b.1.data then a :: b :: bs else b :: insertByName a bs

/-- Insertion sort of a directory listing by file name. -/
def sortDir : List (String × String) → List (String × String)
  | [] => []
  | a :: as => insertByName a (sortDir as)

/-- The same store with every directory listing sorted by file name (the
claim's "filename order" reading). -/
def sortState (s : State) : State :=
  { s with tasks := fun st => sortDir (s.tasks st) }

/-- The claim's description of `find_work`: the fallback chain with
filenames in sorted order. -/
def findWorkClaim (s : State) (role : String) : Option Task :=
  findWorkSpec (sortState s) role

/-! ## Ledger observers used by the notification claims -/

/-- The Pending section of a ledger document as the claims read it: text
after the first `## Pending\n\n`, up to the first `## Delivered` after it
(to the end when there is no Delivered header). -/
def pendingRegion (content : Chars) : Chars :=
  match splitFirst "## Pending\n\n".data content with
  | none => []
  | some (_, tail) =>
    tail.take ((findSub "## Delivered".data tail).getD tail.length)

/-- Number of entries for `ag` in the Pending section: occurrences of the
entry header `### @ag` followed by a newline. -/
def pendingCount (content : Option String) (ag : String) : Nat :=
  match content with
  | none => 0
  | some c => countOcc ("### @".data ++ (ag.data ++ ['\n'])) (pendingRegion c.data)

/-- Does the agent have pending entries, in the sense `mark_delivered`
checks: a block header occurrence inside the matched pending region? -/
def hasPendingEntries (content agent : String) : Bool :=
  match pendingMatch content.data with
  | none => false
  | some (region, _) =>
    occursIn ("### @".data ++ (agent.data ++ ['\n'])) region

/-- Specification-side data-model invariants of a single task (§3 of the
specification): id format `task-NNN`, closed status and priority enums,
`updated ≥ created`, and the auto-subscribe invariant.  (The remaining §3
invariants are store-level or history-level, not per-task.) -/
def DataModelInv (t : Task) : Prop :=
  hasPre "task-".data t.id.data = true ∧ t.id.data.length = 8
  ∧ (∀ c ∈ t.id.data.drop 5, c.isDigit = true)
  ∧ t.status ∈ statuses ∧ t.priority ∈ ["P0", "P1", "P2", "P3"]
  ∧ chLe t.created.data t.updated.data = true
  ∧ (∀ a ∈ t.assigned, a ∈ t.subscribers)
  ∧ (∀ c ∈ t.thread, c.agent ∈ t.subscribers)

instance (t : Task) : Decidable (DataModelInv t) := by
  unfold DataModelInv; infer_instance

/-! ## Concrete inputs for the claim witnesses and counterexamples -/

/-- A task meeting all §3 data-model invariants whose comment message
imitates a thread header. -/
def C1cex : Task :=
  { id := "task-001", title := "Login", description := "Implement OAuth",
    status := "inbox", priority := "P2", assigned := [],
    subscribers := ["alice"], tags := [],
    created := "2026-01-01T00:00", updated := "2026-01-01T00:00",
    thread := [{ timestamp := "2026-01-01T00:00", agent := "alice",
                 message := "done\n\n### 1 - fake\nops" }] }

/-- A well-formed task exercising every field kind. -/
def C1wit : Task :=
  { id := "task-001", title := "Login", description := "Implement OAuth",
    status := "inbox", priority := "P2", assigned := ["bob"],
    subscribers := ["bob", "alice"], tags := ["auth"],
    created := "2026-01-01T00:00", updated := "2026-01-01T00:00",
    prd := some "docs/prd.md",
    thread := [{ timestamp := "2026-01-01T00:00", agent := "alice",
                 message := "started" }] }

/-- A well-formed task stored for the move-exclusivity claim. -/
def C3t : Task :=
  { id := "task-001", title := "Ship it", description := "Deploy the fix",
    status := "inbox", priority := "P1", assigned := ["bob"],
    subscribers := ["bob"], tags := [],
    created := "2026-01-01T00:00", updated := "2026-01-01T00:00" }

/-- A store holding exactly `C3t`, in `inbox`. -/
def C3s : State :=
  { tasks := fun st =>
      if st = "inbox" then [("task-001.md", Task.to_markdown C3t)] else [],
    notif := none, log := [] }

/-- An adversarial ledger whose duplicate entry texts misdirect the
`str.replace`-based removal of `mark_delivered`. -/
def C7cex : String :=
  "## Pending\n\n### @a\nX\n### @a\nY### @a\nX## Delivered\n\n"

/-- Recipient task of the fresh-ledger fan-out. -/
def C10t : Task :=
  { id := "task-001", title := "T", description := "D",
    status := "inbox", priority := "P2", subscribers := ["b"],
    created := "2026-01-01T00:00", updated := "2026-01-01T00:00" }

/-- A store without a notification ledger file. -/
def C10s : State := { tasks := fun _ => [], notif := none, log := [] }

/-- A comment message that embeds a Delivered header. -/
def C10msg : String := "x\n## Delivered\ny"

/-- The comment value `add_comment` appends. -/
def cmt (now agent msg : String) : Comment :=
  { timestamp := take16 now, agent := agent, message := msg }

/-- The task value `assign_task` writes back through `update_task`. -/
def asWritten (t : Task) (now agent : String) : Task :=
  { applySet t { assigned := some (asTask t agent).assigned, subscribers := some (asTask t agent).subscribers } with updated := now }

instance (op : OpCS) : Decidable (benignOp op) := by
  cases op <;> (unfold benignOp; infer_instance)

/-- A stored task for the phantom-author counterexample. -/
def C6t : Task :=
  { id := "task-001", title := "T", description := "D",
    status := "inbox", priority := "P2", subscribers := ["alice"],
    created := "2026-01-01T00:00", updated := "2026-01-01T00:00" }

def C6s : State :=
  { tasks := fun st =>
      if st = "inbox" then [("task-001.md", Task.to_markdown C6t)] else [],
    notif := none, log := [] }

/-- A comment message imitating a thread header. -/
def C6msg : String := "ok\n\n### 1 - eve\nhack"

/-- A stored task whose assignee is not subscribed. -/
def C6bt : Task :=
  { id := "task-001", title := "T", description := "D",
    status := "inbox", priority := "P2", assigned := ["bob"],
    created := "2026-01-01T00:00", updated := "2026-01-01T00:00" }

def C6bs : State :=
  { tasks := fun st =>
      if st = "inbox" then [("task-001.md", Task.to_markdown C6bt)] else [],
    notif := none, log := [] }

/-- Two tasks assigned to the same role, listed out of name order. -/
def C9t1 : Task :=
  { id := "task-001", title := "T1", description := "D",
    status := "inbox", priority := "P2", assigned := ["engineer"],
    subscribers := ["engineer"],
    created := "2026-01-01T00:00", updated := "2026-01-01T00:00" }

def C9t2 : Task :=
  { id := "task-002", title := "T2", description := "D",
    status := "inbox", priority := "P2", assigned := ["engineer"],
    subscribers := ["engineer"],
    created := "2026-01-01T00:00", updated := "2026-01-01T00:00" }

def C9s : State :=
  { tasks := fun st =>
      if st = "inbox" then
        [("task-002.md", Task.to_markdown C9t2),
         ("task-001.md", Task.to_markdown C9t1)]
      else [],
    notif := none, log := [] }

/-- Sufficient condition for a spliced segment never to create a new
occurrence of `p`: no position of `b` starts an occurrence of `p`, and no
nonempty suffix of `b` is a prefix of `p` (so no occurrence crosses the
right boundary of `b` either). -/
def noSpawn (p b : Chars) : Bool :=
  (List.range b.length).all fun i =>
    !(hasPre p (b.drop i)) && !(hasPre (b.drop i) p)

/-- A stored task with two subscribers, for the fan-out claims. -/
def C5t : Task :=
  { id := "task-001", title := "T", description := "D",
    status := "inbox", priority := "P2", subscribers := ["b", "c"],
    created := "2026-01-01T00:00", updated := "2026-01-01T00:00" }

def C5s : State :=
  { tasks := fun st =>
      if st = "inbox" then [("task-001.md", Task.to_markdown C5t)] else [],
    notif := none, log := [] }

/-- A comment message that is itself the Pending header. -/
def C5msg : String := "## Pending\n\n"

/-- A stored task for the benign fan-out witness. -/
def C5wt : Task :=
  { id := "task-001", title := "T", description := "D",
    status := "inbox", priority := "P2",
    subscribers := ["alice", "bob"],
    created := "2026-01-01T00:00", updated := "2026-01-01T00:00" }

def C5ws : State :=
  { tasks := fun st =>
      if st = "inbox" then [("task-001.md", Task.to_markdown C5wt)] else [],
    notif := none, log := [] }

/-! ## Basic lemmas about the string helpers -/

theorem hasPre_iff {p l : Chars} : hasPre p l = true ↔ l.take p.length = p := by
  simp [hasPre]

theorem hasPre_length {p l : Chars} (h : hasPre p l = true) :
    p.length ≤ l.length := by
  rw [hasPre_iff] at h
  have h2 := congrArg List.length h
  simp only [List.length_take] at h2
  omega

theorem hasPre_append {p l : Chars} (r : Chars) (h : hasPre p l = true) :
    hasPre p (l ++ r) = true := by
  rw [hasPre_iff] at h ⊢
  rw [List.take_append_of_le_length (hasPre_length (hasPre_iff.2 h))]
  exact h

theorem hasPre_append_eq {p l : Chars} (r : Chars) (hlen : p.length ≤ l.length) :
    hasPre p (l ++ r) = hasPre p l := by
  simp only [hasPre, List.take_append_of_le_length hlen]

theorem hasPre_cons {c : Char} {p l : Chars} :
    hasPre (c :: p) (c :: l) = hasPre p l := by
  simp [hasPre]

theorem hasPre_split {p q l : Chars} :
    hasPre (p ++ q) l = true ↔
      hasPre p l = true ∧ hasPre q (l.drop p.length) = true := by
  simp only [hasPre_iff]
  have hsplit : l.take (p ++ q).length
      = l.take p.length ++ (l.drop p.length).take q.length := by
    rw [List.length_append, List.take_add]
  constructor
  · intro h
    rw [hsplit] at h
    have hlen : (l.take p.length).length = p.length := by
      have hlen2 := congrArg List.length h
      simp only [List.length_append, List.length_take] at hlen2
      simp only [List.length_take]
      omega
    exact List.append_inj h hlen
  · rintro ⟨h1, h2⟩
    rw [hsplit, h1, h2]

theorem findSub_nil_pat (l : Chars) : findSub [] l = some 0 := by
  cases l <;> simp [findSub]

theorem findSub_cons (p : Chars) (c : Char) (cs : Chars) :
    findSub p (c :: cs) =
      if (c :: cs).take p.length = p then some 0
      else (findSub p cs).map (· + 1) := rfl

theorem findSub_spec {p l : Chars} {i : Nat} (h : findSub p l = some i) :
    hasPre p (l.drop i) = true ∧ ∀ j, j < i → hasPre p (l.drop j) = false := by
  induction l generalizing i with
  | nil =>
    by_cases hp : p = ([] : Chars)
    · subst hp
      obtain rfl : i = 0 := by simpa [findSub] using h.symm
      exact ⟨by simp [hasPre], fun j hj => absurd hj (Nat.not_lt_zero j)⟩
    · simp [findSub, hp] at h
  | cons c cs ih =>
    rw [findSub_cons] at h
    by_cases hc : (c :: cs).take p.length = p
    · rw [if_pos hc, Option.some.injEq] at h
      subst h
      exact ⟨by simpa [hasPre] using hc, fun j hj => absurd hj (Nat.not_lt_zero j)⟩
    · rw [if_neg hc] at h
      match h2 : findSub p cs with
      | none => rw [h2] at h; exact absurd h (by simp)
      | some i' =>
        rw [h2] at h
        simp only [Option.map_some', Option.some.injEq] at h
        subst h
        obtain ⟨ha, hb⟩ := ih h2
        refine ⟨ha, fun j hj => ?_⟩
        match j with
        | 0 => simpa [hasPre] using hc
        | j' + 1 => exact hb j' (by omega)

theorem findSub_le_length {p l : Chars} {i : Nat} (h : findSub p l = some i) :
    i ≤ l.length := by
  induction l generalizing i with
  | nil =>
    by_cases hp : p = ([] : Chars)
    · obtain rfl : i = 0 := by simpa [findSub, hp] using h.symm
      simp
    · simp [findSub, hp] at h
  | cons c cs ih =>
    rw [findSub_cons] at h
    by_cases hc : (c :: cs).take p.length = p
    · rw [if_pos hc, Option.some.injEq] at h
      omega
    · rw [if_neg hc] at h
      match h2 : findSub p cs with
      | none => rw [h2] at h; exact absurd h (by simp)
      | some i' =>
        rw [h2] at h
        simp only [Option.map_some', Option.some.injEq] at h
        subst h
        have := ih h2
        simp only [List.length_cons]
        omega

theorem findSub_bound {p l : Chars} {i : Nat} (h : findSub p l = some i) :
    i + p.length ≤ l.length := by
  have h2 := hasPre_length (findSub_spec h).1
  simp only [List.length_drop] at h2
  have h3 := findSub_le_length h
  omega

theorem findSub_none {p l : Chars} (h : findSub p l = none) :
    ∀ j, hasPre p (l.drop j) = false := by
  induction l with
  | nil =>
    intro j
    by_cases hp : p = ([] : Chars)
    · simp [findSub, hp] at h
    · simp only [List.drop_nil, hasPre, List.take_nil]
      simpa using fun hc => hp (by simpa using hc.symm)
  | cons c cs ih =>
    intro j
    rw [findSub_cons] at h
    by_cases hc : (c :: cs).take p.length = p
    · rw [if_pos hc] at h; exact absurd h (by simp)
    · rw [if_neg hc] at h
      match h2 : findSub p cs with
      | some i' => rw [h2] at h; exact absurd h (by simp)
      | none =>
        match j with
        | 0 => simpa [hasPre] using hc
        | j' + 1 => exact ih h2 j'

theorem findSub_min {p l : Chars} {j : Nat} (h : hasPre p (l.drop j) = true) :
    ∃ i, findSub p l = some i ∧ i ≤ j := by
  match h2 : findSub p l with
  | none => exact absurd h (by simp [findSub_none h2 j])
  | some i =>
    refine ⟨i, rfl, ?_⟩
    by_contra hlt
    have := (findSub_spec h2).2 j (by omega)
    rw [h] at this
    exact absurd this (by simp)

theorem findSub_append_right {p : Chars} (a b : Chars)
    (h : ∀ t, t <:+ a → t ≠ [] → hasPre p (t ++ b) = false) :
    findSub p (a ++ b) = (findSub p b).map (· + a.length) := by
  induction a with
  | nil =>
    simp only [List.nil_append, List.length_nil]
    cases findSub p b <;> simp
  | cons c a' ih =>
    have hfull : hasPre p ((c :: a') ++ b) = false :=
      h (c :: a') (List.suffix_refl _) (by simp)
    have step : findSub p ((c :: a') ++ b)
        = (findSub p (a' ++ b)).map (· + 1) := by
      rw [List.cons_append, findSub_cons, if_neg]
      intro hc
      rw [← List.cons_append] at hc
      rw [hasPre_iff.2 hc] at hfull
      exact absurd hfull (by simp)
    rw [step, ih]
    · cases findSub p b
      · simp
      · simp only [Option.map_some', Option.some.injEq, List.length_cons]
        omega
    · intro t ht hne
      exact h t (ht.trans (List.suffix_cons c a')) hne

theorem findSub_append_left {p a : Chars} (b : Chars) {i : Nat}
    (h : findSub p a = some i) : findSub p (a ++ b) = some i := by
  induction a generalizing i with
  | nil =>
    unfold findSub at h
    by_cases hp : p = ([] : Chars)
    · subst hp
      rw [if_pos rfl, Option.some.injEq] at h
      subst h
      exact findSub_nil_pat b
    · rw [if_neg hp] at h; exact absurd h (by simp)
  | cons c a' ih =>
    rw [findSub_cons] at h
    rw [List.cons_append, findSub_cons]
    by_cases hc : (c :: a').take p.length = p
    · rw [if_pos hc, Option.some.injEq] at h
      subst h
      rw [if_pos]
      have hlen : p.length ≤ (c :: a').length := by
        have h3 := congrArg List.length hc
        simp only [List.length_take] at h3
        omega
      rw [← List.cons_append, List.take_append_of_le_length hlen]
      exact hc
    · rw [if_neg hc] at h
      match h2 : findSub p a' with
      | none => rw [h2] at h; exact absurd h (by simp)
      | some i' =>
        rw [h2] at h
        simp only [Option.map_some', Option.some.injEq] at h
        subst h
        have hb : findSub p (a' ++ b) = some i' := ih h2
        have hbound := findSub_bound h2
        rw [if_neg, hb]
        · rfl
        · rw [← List.cons_append,
            List.take_append_of_le_length (by simp only [List.length_cons]; omega)]
          exact hc

theorem elemChar_ne_nl {c : Char} (h : elemChar c) : ¬ c = '\n' := by
  intro he
  subst he
  exact absurd h (by decide)

theorem elemOk_nlFree {s : String} (h : elemOk s) : nlFree s.data :=
  fun hm => elemChar_ne_nl (h '\n' hm) rfl

/-! ## Lines, joins and splits -/

theorem joinNL_cons {x : Chars} {xs : List Chars} (h : xs ≠ []) :
    joinNL (x :: xs) = x ++ '\n' :: joinNL xs := by
  cases xs with
  | nil => exact absurd rfl h
  | cons y ys => rfl

theorem joinNL_append {xs ys : List Chars} (hx : xs ≠ []) (hy : ys ≠ []) :
    joinNL (xs ++ ys) = joinNL xs ++ '\n' :: joinNL ys := by
  induction xs with
  | nil => exact absurd rfl hx
  | cons x xs' ih =>
    cases xs' with
    | nil =>
      rw [List.singleton_append, joinNL_cons hy]
      rfl
    | cons x2 xs2 =>
      rw [List.cons_append, joinNL_cons (by simp), joinNL_cons (by simp),
        ih (by simp)]
      simp

theorem suffix_append_cases {t a c : Chars} (h : t <:+ a ++ c) :
    t <:+ c ∨ ∃ u, u <:+ a ∧ u ≠ [] ∧ t = u ++ c := by
  induction a generalizing t with
  | nil => exact Or.inl (by simpa using h)
  | cons c0 a' ih =>
    rw [List.cons_append, List.suffix_cons_iff] at h
    rcases h with h | h
    · exact Or.inr ⟨c0 :: a', List.suffix_refl _, by simp, by simpa using h⟩
    · rcases ih h with h2 | ⟨u, hu, hne, rfl⟩
      · exact Or.inl h2
      · exact Or.inr ⟨u, hu.trans (List.suffix_cons c0 a'), hne, rfl⟩

theorem suffix_joinNL {t : Chars} {ls : List Chars} (hne : ls ≠ [])
    (h : t <:+ joinNL ls) :
    ∃ u y ls2, u <:+ y ∧ (y :: ls2) <:+ ls ∧ t = joinNL (u :: ls2) := by
  induction ls generalizing t with
  | nil => exact absurd rfl hne
  | cons x xs ih =>
    cases xs with
    | nil => exact ⟨t, x, [], by simpa using h, List.suffix_refl _, rfl⟩
    | cons x2 xs2 =>
      rw [joinNL_cons (by simp)] at h
      rcases suffix_append_cases h with h2 | ⟨u, hu, _, rfl⟩
      · rw [List.suffix_cons_iff] at h2
        rcases h2 with h3 | h3
        · refine ⟨[], x, x2 :: xs2, List.nil_suffix, List.suffix_refl _, ?_⟩
          rw [joinNL_cons (by simp), h3]
          rfl
        · obtain ⟨u, y, ls2, h4, h5, h6⟩ := ih (by simp) h3
          exact ⟨u, y, ls2, h4, h5.trans (List.suffix_cons x (x2 :: xs2)), h6⟩
      · exact ⟨u, x, x2 :: xs2, hu, List.suffix_refl _,
          (joinNL_cons (by simp)).symm⟩

theorem nlFree_suffix {u y : Chars} (h : u <:+ y) (hy : nlFree y) : nlFree u :=
  fun hm => hy (h.mem hm)

/-- A marker line `w` followed by a newline can only match at a line whose
text is exactly `w` (newline-free lines). -/
theorem hasPre_marker_line {w y : Chars} {ls : List Chars}
    (hw : nlFree w) (hy : nlFree y)
    (h : hasPre (w ++ ['\n']) (joinNL (y :: ls)) = true) : y = w := by
  cases ls with
  | nil =>
    have hlen := hasPre_length h
    rw [hasPre_iff] at h
    have hmem : '\n' ∈ y := by
      have : '\n' ∈ (joinNL [y]).take (w ++ ['\n']).length := by
        rw [h]; simp
      exact List.take_subset _ _ this
    exact absurd hmem hy
  | cons y2 ys =>
    rw [joinNL_cons (by simp), hasPre_iff,
      show (w ++ ['\n']).length = w.length + 1 by simp] at h
    rcases lt_trichotomy y.length w.length with hlt | heq | hgt
    · exfalso
      have h2 : (y ++ '\n' :: joinNL (y2 :: ys)).take w.length = w := by
        have h3 := congrArg (List.take w.length) h
        rw [List.take_take, show w.length ⊓ (w.length + 1) = w.length by omega,
          List.take_append_of_le_length (le_refl w.length),
          List.take_length] at h3
        exact h3
      rw [List.take_append_eq_append_take,
        List.take_of_length_le (by omega),
        show w.length - y.length = (w.length - y.length - 1) + 1 by omega,
        List.take_succ_cons] at h2
      exact hw (h2 ▸ (List.mem_append.2
        (Or.inr (List.mem_cons_self '\n' _))))
    · have h2 : (y ++ '\n' :: joinNL (y2 :: ys)).take (w.length + 1)
          = y ++ ['\n'] := by
        rw [List.take_append_eq_append_take, List.take_of_length_le (by omega),
          show w.length + 1 - y.length = 1 by omega, List.take_succ_cons,
          List.take_zero]
      rw [h2] at h
      exact List.append_inj_left h (by omega)
    · exfalso
      rw [List.take_append_of_le_length (by omega)] at h
      have hm : '\n' ∈ y := by
        have hm2 : '\n' ∈ y.take (w.length + 1) := by
          rw [h]; simp
        exact List.take_subset _ _ hm2
      exact hy hm

theorem splitNL_cons (c : Char) (cs : Chars) :
    splitNL (c :: cs) =
      if c = '\n' then [] :: splitNL cs
      else
        match splitNL cs with
        | [] => [[c]]
        | h :: t => (c :: h) :: t := rfl

theorem splitNL_nlFree {x : Chars} (h : nlFree x) : splitNL x = [x] := by
  induction x with
  | nil => rfl
  | cons c cs ih =>
    have hc : c ≠ '\n' := fun he => h (he ▸ List.mem_cons_self c cs)
    have hcs : nlFree cs := fun hm => h (List.mem_cons_of_mem c hm)
    rw [splitNL_cons, if_neg hc, ih hcs]

theorem splitNL_append_cons {x r : Chars} (h : nlFree x) :
    splitNL (x ++ '\n' :: r) = x :: splitNL r := by
  induction x with
  | nil => simp [splitNL]
  | cons c cs ih =>
    have hc : c ≠ '\n' := fun he => h (he ▸ List.mem_cons_self c cs)
    have hcs : nlFree cs := fun hm => h (List.mem_cons_of_mem c hm)
    rw [List.cons_append, splitNL_cons, if_neg hc, ih hcs]

theorem splitNL_joinNL {ls : List Chars} (hne : ls ≠ [])
    (h : ∀ l ∈ ls, nlFree l) : splitNL (joinNL ls) = ls := by
  induction ls with
  | nil => exact absurd rfl hne
  | cons x xs ih =>
    cases xs with
    | nil => exact splitNL_nlFree (h x (by simp))
    | cons x2 xs2 =>
      rw [joinNL_cons (by simp), splitNL_append_cons (h x (by simp)),
        ih (by simp) (fun l hl => h l (List.mem_cons_of_mem x hl))]

theorem nlFree_splitNL (x : Chars) : ∀ l ∈ splitNL x, nlFree l := by
  induction x with
  | nil =>
    intro l hl
    simp only [splitNL, List.mem_singleton] at hl
    subst hl
    exact fun hm => absurd hm (List.not_mem_nil _)
  | cons c cs ih =>
    intro l hl
    by_cases hc : c = '\n'
    · simp only [splitNL, if_pos hc] at hl
      rcases List.mem_cons.1 hl with rfl | hl2
      · exact fun hm => absurd hm (List.not_mem_nil _)
      · exact ih l hl2
    · simp only [splitNL, if_neg hc] at hl
      match h2 : splitNL cs with
      | [] =>
        rw [h2] at hl
        simp only [List.mem_singleton] at hl
        subst hl
        intro hm
        rcases List.mem_cons.1 hm with he | he
        · exact hc he.symm
        · exact absurd he (List.not_mem_nil _)
      | h0 :: t0 =>
        rw [h2] at hl
        rcases List.mem_cons.1 hl with rfl | hl2
        · intro hm
          rcases List.mem_cons.1 hm with he | he
          · exact hc he.symm
          · exact ih h0 (h2 ▸ List.mem_cons_self h0 t0) he
        · exact ih l (h2 ▸ List.mem_cons_of_mem h0 hl2)

theorem splitNL_ne_nil (x : Chars) : splitNL x ≠ [] := by
  induction x with
  | nil => simp [splitNL]
  | cons c cs ih =>
    by_cases hc : c = '\n'
    · simp [splitNL, if_pos hc]
    · simp only [splitNL, if_neg hc]
      match h2 : splitNL cs with
      | [] => simp
      | h0 :: t0 => simp

theorem joinNL_splitNL (x : Chars) : joinNL (splitNL x) = x := by
  induction x with
  | nil => rfl
  | cons c cs ih =>
    rw [splitNL_cons]
    by_cases hc : c = '\n'
    · rw [if_pos hc, joinNL_cons (splitNL_ne_nil cs), ih, hc]
      rfl
    · rw [if_neg hc]
      match h2 : splitNL cs with
      | [] => exact absurd h2 (splitNL_ne_nil cs)
      | h0 :: t0 =>
        rw [h2] at ih
        cases t0 with
        | nil => exact congrArg (List.cons c) ih
        | cons h1 t1 =>
          show joinNL ((c :: h0) :: h1 :: t1) = c :: cs
          rw [joinNL_cons (by simp)]
          rw [joinNL_cons (by simp)] at ih
          rw [List.cons_append, ih]

/-! ## Properties of `pyStrip` -/

theorem dropWhile_head_false {p : Char → Bool} {l : Chars}
    (h : ∀ c, l.head? = some c → p c = false) : l.dropWhile p = l := by
  cases l with
  | nil => rfl
  | cons c cs =>
    rw [List.dropWhile_cons, if_neg]
    simp [h c rfl]

theorem head_dropWhile_false (p : Char → Bool) (l : Chars) :
    ∀ c, (l.dropWhile p).head? = some c → p c = false := by
  intro c hc
  have h2 := List.head?_dropWhile_not p l
  rw [hc] at h2
  exact h2

theorem pyStrip_cons_ws {c : Char} {l : Chars} (h : pyWs c = true) :
    pyStrip (c :: l) = pyStrip l := by
  unfold pyStrip
  rw [List.dropWhile_cons, if_pos h]

theorem dropWhile_ws_all {b : Chars} (p : Char → Bool)
    (hb : ∀ c ∈ b, p c = true) : b.dropWhile p = [] := by
  induction b with
  | nil => rfl
  | cons c cs ih =>
    rw [List.dropWhile_cons, if_pos (hb c (by simp))]
    exact ih fun c2 hc2 => hb c2 (List.mem_cons_of_mem c hc2)

theorem dropWhile_append_all {b r : Chars} (p : Char → Bool)
    (hb : ∀ c ∈ b, p c = true) :
    (b ++ r).dropWhile p = r.dropWhile p := by
  induction b with
  | nil => rfl
  | cons c cs ih =>
    rw [List.cons_append, List.dropWhile_cons, if_pos (hb c (by simp))]
    exact ih fun c2 hc2 => hb c2 (List.mem_cons_of_mem c hc2)

theorem pyStrip_append_ws {a b : Chars} (hb : ∀ c ∈ b, pyWs c = true) :
    pyStrip (a ++ b) = pyStrip a := by
  unfold pyStrip
  rw [List.dropWhile_append]
  by_cases he : (a.dropWhile pyWs).isEmpty = true
  · rw [if_pos he, dropWhile_ws_all pyWs hb]
    rw [List.isEmpty_iff] at he
    rw [he]
  · rw [if_neg he, List.reverse_append, dropWhile_append_all pyWs]
    intro c hc
    exact hb c (List.mem_reverse.1 hc)

theorem pyStrip_idem (l : Chars) : pyStrip (pyStrip l) = pyStrip l := by
  unfold pyStrip
  set u := l.dropWhile pyWs with hu
  set v := u.reverse.dropWhile pyWs with hv
  have hstep1 : v.reverse.dropWhile pyWs = v.reverse := by
    apply dropWhile_head_false
    intro c hc
    rw [List.head?_reverse] at hc
    have hvne : v ≠ [] := by
      intro hvnil
      rw [hvnil] at hc
      simp at hc
    obtain ⟨pre, hpre⟩ : v <:+ u.reverse := hv ▸ List.dropWhile_suffix pyWs
    have hlast : u.reverse.getLast? = some c := by
      rw [← hpre, List.getLast?_append, hc]
      rfl
    rw [List.getLast?_reverse] at hlast
    exact head_dropWhile_false pyWs l c (hu ▸ hlast)
  rw [hstep1, List.reverse_reverse]
  have hstep2 : v.dropWhile pyWs = v := by
    apply dropWhile_head_false
    intro c hc
    exact head_dropWhile_false pyWs u.reverse c (hv ▸ hc)
  rw [hstep2]

theorem stripInv_pyStrip (l : Chars) : stripInv (pyStrip l) := pyStrip_idem l

theorem pyStrip_append_nl {x : Chars} : pyStrip (x ++ ['\n']) = pyStrip x :=
  pyStrip_append_ws (by intro c hc; simp at hc; rw [hc]; rfl)

theorem pyStrip_nlFree {l : Chars} (h : nlFree l) : nlFree (pyStrip l) := by
  intro hm
  unfold pyStrip at hm
  rw [List.mem_reverse] at hm
  have h2 := (List.dropWhile_suffix pyWs).mem hm
  rw [List.mem_reverse] at h2
  exact h ((List.dropWhile_suffix pyWs).mem h2)

/-! ## The modelled `json.loads` inverts the modelled `json.dumps` -/

theorem jsonStrBody_succ (f : Nat) (acc : Chars) (c : Char) (rest : Chars) :
    jsonStrBody (f + 1) acc (c :: rest) =
      if c = '"' then some (acc.reverse, rest)
      else if c = '\\' then
        match rest with
        | [] => none
        | c2 :: rest2 =>
          if c2 = '"' || c2 = '\\' then jsonStrBody f (c2 :: acc) rest2
          else none
      else jsonStrBody f (c :: acc) rest := rfl

theorem jsonEsc_cons (c : Char) (cs : Chars) :
    jsonEsc (c :: cs) =
      if c = '"' || c = '\\' then '\\' :: c :: jsonEsc cs
      else c :: jsonEsc cs := rfl

theorem jsonStrBody_esc (x : Chars) (acc tail : Chars) (fuel : Nat)
    (hf : (jsonEsc x).length + 1 ≤ fuel) :
    jsonStrBody fuel acc (jsonEsc x ++ '"' :: tail)
      = some (acc.reverse ++ x, tail) := by
  induction x generalizing acc fuel with
  | nil =>
    match fuel with
    | 0 => omega
    | f + 1 =>
      show jsonStrBody (f + 1) acc ('"' :: tail) = _
      rw [jsonStrBody_succ, if_pos rfl]
      simp
  | cons c cs ih =>
    by_cases hc : (c = '"' || c = '\\') = true
    · have hesc : jsonEsc (c :: cs) = '\\' :: c :: jsonEsc cs := by
        rw [jsonEsc_cons, if_pos hc]
      rw [hesc] at hf ⊢
      match fuel with
      | 0 => omega
      | f + 1 =>
        rw [List.cons_append, List.cons_append, jsonStrBody_succ,
          if_neg (by decide), if_pos rfl]
        show (if (c = '"' || c = '\\') = true
            then jsonStrBody f (c :: acc) (jsonEsc cs ++ '"' :: tail)
            else none) = _
        rw [if_pos hc,
          ih (c :: acc) f (by simp only [List.length_cons] at hf ⊢; omega)]
        simp
    · have hc1 : ¬ c = '"' := by
        intro h2
        exact hc (by rw [h2]; decide)
      have hc2 : ¬ c = '\\' := by
        intro h2
        exact hc (by rw [h2]; decide)
      have hesc : jsonEsc (c :: cs) = c :: jsonEsc cs := by
        rw [jsonEsc_cons, if_neg hc]
      rw [hesc] at hf ⊢
      match fuel with
      | 0 => omega
      | f + 1 =>
        rw [List.cons_append, jsonStrBody_succ, if_neg hc1, if_neg hc2,
          ih (c :: acc) f (by simp only [List.length_cons] at hf ⊢; omega)]
        simp

theorem mem_jsonEsc {c : Char} {x : Chars} (h : c ∈ jsonEsc x) :
    c ∈ x ∨ c = '\\' := by
  induction x with
  | nil => exact absurd h (List.not_mem_nil c)
  | cons d ds ih =>
    unfold jsonEsc at h
    by_cases hd : d = '"' || d = '\\'
    · rw [if_pos hd] at h
      rcases List.mem_cons.1 h with he | h2
      · exact Or.inr he
      · rcases List.mem_cons.1 h2 with rfl | h3
        · exact Or.inl (List.mem_cons_self c ds)
        · rcases ih h3 with h4 | h4
          · exact Or.inl (List.mem_cons_of_mem d h4)
          · exact Or.inr h4
    · rw [if_neg hd] at h
      rcases List.mem_cons.1 h with rfl | h2
      · exact Or.inl (List.mem_cons_self c ds)
      · rcases ih h2 with h4 | h4
        · exact Or.inl (List.mem_cons_of_mem d h4)
        · exact Or.inr h4

theorem jsonQuote_nlFree {s : String} (h : nlFree s.data) :
    nlFree (jsonQuote s) := by
  intro hm
  unfold jsonQuote at hm
  rcases List.mem_cons.1 hm with he | hm2
  · exact absurd he (by decide)
  · rcases List.mem_append.1 hm2 with hm3 | hm3
    · rcases mem_jsonEsc hm3 with h4 | h4
      · exact h h4
      · exact absurd h4 (by decide)
    · exact absurd hm3 (by decide)

theorem jsonSkipWs_nonWs {c : Char} {r : Chars} (h : jsonWsChar c = false) :
    jsonSkipWs (c :: r) = c :: r := by
  unfold jsonSkipWs
  rw [List.dropWhile_cons, if_neg (by simp [h])]

theorem intercal_cons_flatMap (sep : Chars) (x : Chars) (xs : List Chars) :
    intercal sep (x :: xs) = x ++ xs.flatMap (fun y => sep ++ y) := by
  induction xs generalizing x with
  | nil => simp [intercal]
  | cons y ys ih =>
    show x ++ sep ++ intercal sep (y :: ys) = _
    rw [ih y]
    simp [List.flatMap_cons]

theorem jsonListRest_close (f : Nat) (acc : List String) :
    jsonListRest (f + 1) acc [']'] = some (acc.reverse, []) := rfl

theorem jsonListRest_comma (f : Nat) (acc : List String) (rest : Chars) :
    jsonListRest (f + 1) acc (',' :: rest) =
      match jsonStrLit rest with
      | some (s, r) => jsonListRest f (s :: acc) r
      | none => none := rfl

theorem jsonStrLit_ws {c : Char} {l : Chars} (h : jsonWsChar c = true) :
    jsonStrLit (c :: l) = jsonStrLit l := by
  unfold jsonStrLit jsonSkipWs
  rw [List.dropWhile_cons, if_pos h]

theorem jsonQuote_shape (e : String) (R : Chars) :
    jsonQuote e ++ R = '"' :: (jsonEsc e.data ++ '"' :: R) := by
  unfold jsonQuote
  simp

theorem jsonStrLit_cons_quote (X : Chars) :
    jsonStrLit ('"' :: X) =
      (jsonStrBody (X.length + 1) [] X).map fun p => (⟨p.1⟩, p.2) := rfl

theorem jsonStrLit_quote (e : String) (R : Chars) :
    jsonStrLit (jsonQuote e ++ R) = some (e, R) := by
  have hf : (jsonEsc e.data).length + 1
      ≤ (jsonEsc e.data ++ '"' :: R).length + 1 := by
    simp only [List.length_append, List.length_cons]
    omega
  rw [jsonQuote_shape, jsonStrLit_cons_quote, jsonStrBody_esc e.data [] R _ hf]
  rfl

theorem flatMap_len_ge {α : Type} (f : α → Chars) (h : ∀ e, 1 ≤ (f e).length)
    (ls : List α) : ls.length ≤ (ls.flatMap f).length := by
  induction ls with
  | nil => simp
  | cons e ls' ih =>
    rw [List.flatMap_cons, List.length_append, List.length_cons]
    have := h e
    omega

theorem jsonListRest_spec (ls acc : List String) (fuel : Nat)
    (hf : ls.length + 1 ≤ fuel) :
    jsonListRest fuel acc
        ((ls.flatMap fun e => ", ".data ++ jsonQuote e) ++ [']'])
      = some (acc.reverse ++ ls, []) := by
  induction ls generalizing acc fuel with
  | nil =>
    match fuel with
    | 0 => omega
    | f + 1 =>
      show jsonListRest (f + 1) acc [']'] = _
      rw [jsonListRest_close]
      simp
  | cons e ls' ih =>
    match fuel with
    | 0 => omega
    | f + 1 =>
      have hshape :
          (((e :: ls').flatMap fun x => ", ".data ++ jsonQuote x) ++ [']'])
            = ',' :: (' ' :: (jsonQuote e
                ++ ((ls'.flatMap fun x => ", ".data ++ jsonQuote x) ++ [']']))) := by
        rw [List.flatMap_cons]
        simp [List.append_assoc]
      rw [hshape, jsonListRest_comma, jsonStrLit_ws (by decide),
        jsonStrLit_quote]
      show jsonListRest f (e :: acc)
          ((ls'.flatMap fun x => ", ".data ++ jsonQuote x) ++ [']']) = _
      rw [ih (e :: acc) f (by simp only [List.length_cons] at hf ⊢; omega)]
      simp

theorem flatMap_map_quote (ls : List String) :
    ((ls.map jsonQuote).flatMap fun y => ", ".data ++ y)
      = ls.flatMap fun e => ", ".data ++ jsonQuote e := by
  induction ls with
  | nil => rfl
  | cons e ls' ih =>
    rw [List.map_cons, List.flatMap_cons, List.flatMap_cons, ih]

theorem jsonLoads_bracket_quote (X : Chars) :
    jsonLoads ('[' :: ('"' :: X)) =
      (match jsonStrLit ('"' :: X) with
       | some (s, r) =>
         (match jsonListRest (r.length + 1) [s] r with
          | some (elems, r2) => if jsonSkipWs r2 = [] then some elems else none
          | none => none)
       | none => none) := rfl

theorem jsonLoads_dumps (l : List String) :
    jsonLoads (jsonDumps l) = some l := by
  cases l with
  | nil => rfl
  | cons e ls =>
    have hd : jsonDumps (e :: ls)
        = '[' :: ('"' :: (jsonEsc e.data ++ '"' ::
            ((ls.flatMap fun x => ", ".data ++ jsonQuote x) ++ [']']))) := by
      unfold jsonDumps
      rw [List.map_cons, intercal_cons_flatMap, flatMap_map_quote,
        List.append_assoc, jsonQuote_shape]
    rw [hd, jsonLoads_bracket_quote, ← jsonQuote_shape, jsonStrLit_quote]
    show (match jsonListRest
        (((ls.flatMap fun x => ", ".data ++ jsonQuote x) ++ [']']).length + 1)
        [e] ((ls.flatMap fun x => ", ".data ++ jsonQuote x) ++ [']']) with
      | some (elems, r2) => if jsonSkipWs r2 = [] then some elems else none
      | none => none) = some (e :: ls)
    have h2 : ls.length
        ≤ ((ls.flatMap fun x => ", ".data ++ jsonQuote x)).length :=
      flatMap_len_ge _ (fun x => by simp) ls
    have h3 : ls.length
        ≤ ((ls.flatMap fun x => ([',', ' '] : Chars) ++ jsonQuote x)).length :=
      h2
    rw [jsonListRest_spec ls [e] _ (by
      simp only [List.length_append, List.length_singleton]
      omega)]
    simp [jsonSkipWs]


theorem hasPre_self_append (p x : Chars) : hasPre p (p ++ x) = true := by
  rw [hasPre_iff, List.take_left]

theorem hasPre_head_false {c d : Char} (q r : Chars) (h : ¬ d = c) :
    hasPre (c :: q) (d :: r) = false := by
  simp only [hasPre, List.length_cons, List.take_succ_cons,
    decide_eq_false_iff_not]
  intro he
  exact h (List.cons.inj he).1

theorem joinNL_cons_head (c : Char) (u : Chars) (L : List Chars) :
    joinNL ((c :: u) :: L) = c :: joinNL (u :: L) := by
  cases L with
  | nil => rfl
  | cons z zs =>
    rw [joinNL_cons (show (z :: zs) ≠ [] by simp),
      joinNL_cons (show (z :: zs) ≠ [] by simp)]
    rfl

/-- Shape of an encoded document: opening delimiter, frontmatter lines,
closing delimiter, body. -/
theorem content_shape (F B : List Chars) (hF : F ≠ []) (hB : B ≠ []) :
    joinNL (["---".data] ++ F ++ ["---".data] ++ B)
      = "---\n".data ++ (joinNL F ++ '\n' :: ("---".data ++ '\n' :: joinNL B)) := by
  rw [show ["---".data] ++ F ++ ["---".data] ++ B
      = "---".data :: (F ++ ("---".data :: B)) by simp]
  rw [joinNL_cons (by simp [hF]), joinNL_append hF (by simp),
    joinNL_cons hB]
  rfl

/-- The first `\n---\n` of the encoded document sits exactly at the end of
the frontmatter block. -/
theorem findSub_delim (F B : List Chars) (hF : F ≠ []) (hB : B ≠ [])
    (hl : ∀ l ∈ F, nlFree l ∧ l ≠ "---".data) :
    findSub "\n---\n".data
        (joinNL F ++ '\n' :: ("---".data ++ '\n' :: joinNL B))
      = some (joinNL F).length := by
  rw [findSub_append_right]
  · have hshape : ('\n' :: ("---".data ++ '\n' :: joinNL B))
        = '\n' :: ('-' :: ('-' :: ('-' :: ('\n' :: joinNL B)))) := rfl
    rw [hshape, findSub_cons,
      if_pos (show List.take ("\n---\n".data.length)
          ('\n' :: ('-' :: ('-' :: ('-' :: ('\n' :: joinNL B)))))
        = "\n---\n".data from rfl)]
    simp
  · intro t ht hne
    obtain ⟨u, y, ls2, hu, hyl, rfl⟩ := suffix_joinNL hF ht
    have hyF : y ∈ F := hyl.mem (List.mem_cons_self y ls2)
    have hb : joinNL (u :: ls2) ++ '\n' :: ("---".data ++ '\n' :: joinNL B)
        = joinNL ((u :: ls2) ++ ("---".data :: B)) := by
      rw [joinNL_append (show (u :: ls2) ≠ [] by simp)
        (show ("---".data :: B) ≠ [] by simp), joinNL_cons hB]
    rw [hb]
    cases u with
    | nil =>
      cases ls2 with
      | nil => exact absurd rfl hne
      | cons z ls3 =>
        have hzF : z ∈ F := hyl.mem (List.mem_cons_of_mem y
          (List.mem_cons_self z ls3))
        rw [show (([] : Chars) :: (z :: ls3)) ++ ("---".data :: B)
            = ([] : Chars) :: ((z :: ls3) ++ ("---".data :: B)) by simp]
        rw [joinNL_cons (by simp)]
        rw [show ("\n---\n".data : Chars)
            = '\n' :: ("---".data ++ ['\n']) from rfl]
        rw [List.nil_append, hasPre_cons]
        apply Bool.eq_false_iff.2
        intro hp
        rw [show ((z :: ls3) ++ ("---".data :: B))
            = z :: (ls3 ++ ("---".data :: B)) by simp] at hp
        have hz := @hasPre_marker_line "---".data z
          (ls3 ++ ("---".data :: B)) (by decide) (hl z hzF).1 hp
        exact (hl z hzF).2 hz
    | cons ch u' =>
      have hch : ¬ ch = '\n' := by
        intro he
        exact (hl y hyF).1 (hu.mem (he ▸ List.mem_cons_self ch u'))
      rw [show ((ch :: u') :: ls2) ++ ("---".data :: B)
          = (ch :: u') :: (ls2 ++ ("---".data :: B)) by simp]
      rw [joinNL_cons_head,
        show ("\n---\n".data : Chars) = '\n' :: "---\n".data from rfl]
      exact hasPre_head_false _ _ hch

theorem findSub_colon (k : String) (v : Chars) (hk : ':' ∉ k.data) :
    findSub [':'] (fmLine k v) = some k.data.length := by
  unfold fmLine
  rw [findSub_append_right]
  · rw [show (": ".data ++ v : Chars) = ':' :: (' ' :: v) from rfl,
      findSub_cons,
      if_pos (show List.take ([':'].length) (':' :: (' ' :: v)) = [':']
        from rfl)]
    simp
  · intro t ht hne
    cases t with
    | nil => exact absurd rfl hne
    | cons c cs =>
      rw [List.cons_append]
      apply hasPre_head_false
      intro he
      exact hk (he ▸ ht.mem (List.mem_cons_self c cs))

theorem splitFirst_fmLine (k : String) (v : Chars) (hk : ':' ∉ k.data) :
    splitFirst [':'] (fmLine k v) = some (k.data, ' ' :: v) := by
  unfold splitFirst
  rw [findSub_colon k v hk]
  simp only [Option.map_some', Option.some.injEq, Prod.mk.injEq]
  refine ⟨?_, ?_⟩
  · unfold fmLine
    exact List.take_left k.data _
  · unfold fmLine
    rw [List.drop_append_eq_append_drop,
      List.drop_eq_nil_of_le (by simp), List.nil_append,
      show k.data.length + [':'].length - k.data.length = 1 by simp]
    rfl

theorem stripInv_wrap {c d : Char} (x : Chars) (hc : pyWs c = false)
    (hd : pyWs d = false) : stripInv (c :: (x ++ [d])) := by
  unfold stripInv pyStrip
  rw [List.dropWhile_cons, if_neg (by simp [hc])]
  rw [show (c :: (x ++ [d])).reverse = d :: (x.reverse ++ [c]) by simp]
  rw [List.dropWhile_cons, if_neg (by simp [hd])]
  simp

theorem stripInv_dumps (l : List String) : stripInv (jsonDumps l) :=
  stripInv_wrap _ (by decide) (by decide)

theorem hasPre_dumps (l : List String) :
    hasPre "[".data (jsonDumps l) = true := rfl

theorem parseFmLine_scalar (k : String) (v : Chars)
    (hk : ':' ∉ k.data ∧ stripInv k.data) (hv : stripInv v)
    (hb : hasPre "[".data v = false) :
    parseFmLine (fmLine k v) = .ok (some (k, .str ⟨v⟩)) := by
  unfold parseFmLine
  rw [splitFirst_fmLine k v hk.1]
  show (if hasPre ['['] (pyStrip (' ' :: v)) = true then
          match jsonLoads (pyStrip (' ' :: v)) with
          | some l => Except.ok (some (String.mk (pyStrip k.data), FmVal.list l))
          | none => Except.error Err.badJson
        else Except.ok (some (String.mk (pyStrip k.data),
          FmVal.str (String.mk (pyStrip (' ' :: v))))))
      = Except.ok (some (k, FmVal.str (String.mk v)))
  rw [show pyStrip (' ' :: v) = v by rw [pyStrip_cons_ws (by decide)]; exact hv]
  rw [hk.2]
  rw [if_neg (by rw [show ("[".data : Chars) = ['['] from rfl] at hb; simp [hb])]

theorem parseFmLine_list (k : String) (l : List String)
    (hk : ':' ∉ k.data ∧ stripInv k.data) :
    parseFmLine (fmLine k (jsonDumps l)) = .ok (some (k, .list l)) := by
  unfold parseFmLine
  rw [splitFirst_fmLine k _ hk.1]
  show (if hasPre ['['] (pyStrip (' ' :: jsonDumps l)) = true then
          match jsonLoads (pyStrip (' ' :: jsonDumps l)) with
          | some l2 => Except.ok (some (String.mk (pyStrip k.data),
              FmVal.list l2))
          | none => Except.error Err.badJson
        else Except.ok (some (String.mk (pyStrip k.data),
          FmVal.str (String.mk (pyStrip (' ' :: jsonDumps l))))))
      = Except.ok (some (k, FmVal.list l))
  rw [show pyStrip (' ' :: jsonDumps l) = jsonDumps l by
    rw [pyStrip_cons_ws (by decide)]; exact stripInv_dumps l]
  rw [hk.2, if_pos (hasPre_dumps l), jsonLoads_dumps l]

theorem parseFm_cons_some {l : Chars} {kv : String × FmVal}
    {ls : List Chars} {rest : List (String × FmVal)}
    (h1 : parseFmLine l = .ok (some kv)) (h2 : parseFm ls = .ok rest) :
    parseFm (l :: ls) = .ok (kv :: rest) := by
  unfold parseFm
  rw [h1, h2]

theorem parseFm_cons_none {l : Chars} {ls : List Chars}
    {rest : List (String × FmVal)}
    (h1 : parseFmLine l = .ok none) (h2 : parseFm ls = .ok rest) :
    parseFm (l :: ls) = .ok rest := by
  unfold parseFm
  rw [h1, h2]

theorem parseFm_append {a b : List Chars} {ra rb : List (String × FmVal)}
    (ha : parseFm a = .ok ra) (hb : parseFm b = .ok rb) :
    parseFm (a ++ b) = .ok (ra ++ rb) := by
  induction a generalizing ra with
  | nil =>
    unfold parseFm at ha
    rw [Except.ok.injEq] at ha
    subst ha
    simpa using hb
  | cons l a' ih =>
    unfold parseFm at ha
    match h1 : parseFmLine l with
    | .error er => rw [h1] at ha; exact absurd ha (by simp)
    | .ok e =>
      rw [h1] at ha
      match h2 : parseFm a' with
      | .error er => rw [h2] at ha; exact absurd ha (by simp)
      | .ok ra' =>
        rw [h2] at ha
        cases e with
        | none =>
          rw [Except.ok.injEq] at ha
          subst ha
          rw [List.cons_append, parseFm_cons_none h1 (ih h2)]
        | some kv =>
          rw [Except.ok.injEq] at ha
          subst ha
          rw [List.cons_append, parseFm_cons_some h1 (ih h2),
            List.cons_append]

theorem nlFree_append {a b : Chars} (ha : nlFree a) (hb : nlFree b) :
    nlFree (a ++ b) := by
  intro hm
  rcases List.mem_append.1 hm with h | h
  · exact ha h
  · exact hb h

theorem fmLine_nlFree {k : String} {v : Chars} (hk : nlFree k.data)
    (hv : nlFree v) : nlFree (fmLine k v) := by
  unfold fmLine
  exact nlFree_append hk (nlFree_append (by decide) hv)

theorem fmLine_ne_delim (k : String) (v : Chars) :
    fmLine k v ≠ "---".data := by
  intro he
  have hc : ':' ∈ fmLine k v := by
    unfold fmLine
    exact List.mem_append.2 (Or.inr (List.mem_append.2 (Or.inl (by decide))))
  rw [he] at hc
  exact absurd hc (by decide)

theorem intercal_mem {c : Char} {sep : Chars} {xs : List Chars}
    (h : c ∈ intercal sep xs) : c ∈ sep ∨ ∃ x ∈ xs, c ∈ x := by
  induction xs with
  | nil => simp [intercal] at h
  | cons x xs ih =>
    cases xs with
    | nil => exact Or.inr ⟨x, by simp, by simpa [intercal] using h⟩
    | cons y ys =>
      rw [show intercal sep (x :: (y :: ys))
          = x ++ sep ++ intercal sep (y :: ys) from rfl] at h
      rcases List.mem_append.1 h with h1 | h1
      · rcases List.mem_append.1 h1 with h2 | h2
        · exact Or.inr ⟨x, by simp, h2⟩
        · exact Or.inl h2
      · rcases ih h1 with h2 | h2
        · exact Or.inl h2
        · obtain ⟨z, hz, hcz⟩ := h2
          exact Or.inr ⟨z, List.mem_cons_of_mem x hz, hcz⟩

theorem jsonDumps_nlFree (l : List String) (h : ∀ e ∈ l, elemOk e) :
    nlFree (jsonDumps l) := by
  unfold jsonDumps
  intro hm
  simp only [List.mem_cons, List.mem_append, List.mem_singleton] at hm
  rcases hm with h1 | h1 | h1
  · exact absurd h1 (by decide)
  · rcases intercal_mem h1 with h2 | h2
    · exact absurd h2 (by decide)
    · obtain ⟨x, hx, hcx⟩ := h2
      obtain ⟨e, he, rfl⟩ := List.mem_map.1 hx
      exact jsonQuote_nlFree (elemOk_nlFree (h e he)) hcx
  · exact absurd h1 (by decide)

theorem fmItems_ne_nil (t : Task) : fmItems t ≠ [] := by
  unfold fmItems
  simp

/-- Every frontmatter line of a well-formed task is newline-free and is not
the `---` delimiter. -/
theorem fmItems_lines (t : Task) (h : WTask t) :
    ∀ l ∈ fmItems t, nlFree l ∧ l ≠ "---".data := by
  obtain ⟨hid, htit, hdesc, hst, hpri, hcr, hup, has, hsub, htag,
    hprd, hplan, hpr, _⟩ := h
  have base : ∀ (k : String) (v : Chars), nlFree k.data → nlFree v →
      nlFree (fmLine k v) ∧ fmLine k v ≠ "---".data :=
    fun k v hk hv => ⟨fmLine_nlFree hk hv, fmLine_ne_delim k v⟩
  have hopt : ∀ (k : String) (o : Option String), nlFree k.data → optOk o →
      ∀ l ∈ (if truthy o then [fmLine k (o.getD "").data] else []),
        nlFree l ∧ l ≠ "---".data := by
    intro k o hk ho l hl
    cases o with
    | none => exact absurd hl (by simp [truthy])
    | some s =>
      by_cases hb : truthy (some s) = true
      · rw [if_pos hb] at hl
        obtain rfl := List.mem_singleton.1 hl
        exact base k s.data hk ho.2.1
      · rw [if_neg hb] at hl
        exact absurd hl (List.not_mem_nil l)
  intro l hl
  unfold fmItems at hl
  rcases List.mem_append.1 hl with h1 | h1
  · rcases List.mem_append.1 h1 with h1 | h1
    · rcases List.mem_append.1 h1 with h1 | h1
      · simp only [List.mem_cons, List.not_mem_nil, or_false] at h1
        rcases h1 with rfl | rfl | rfl | rfl | rfl | rfl | rfl | rfl | rfl
        · exact base _ _ (by decide) hid.1
        · exact base _ _ (by decide) htit.1.1
        · exact base _ _ (by decide) hst.1
        · exact base _ _ (by decide) hpri.1
        · exact base _ _ (by decide) hcr.1
        · exact base _ _ (by decide) hup.1
        · exact base _ _ (by decide) (jsonDumps_nlFree _ has)
        · exact base _ _ (by decide) (jsonDumps_nlFree _ hsub)
        · exact base _ _ (by decide) (jsonDumps_nlFree _ htag)
      · exact hopt "prd" t.prd (by decide) hprd l h1
    · exact hopt "plan" t.plan (by decide) hplan l h1
  · exact hopt "pr" t.pr (by decide) hpr l h1

theorem parseFm_opt (k : String) (o : Option String)
    (hk : ':' ∉ k.data ∧ stripInv k.data) (ho : optOk o) :
    parseFm (if truthy o then [fmLine k (o.getD "").data] else [])
      = .ok (if truthy o then [(k, FmVal.str (o.getD ""))] else []) := by
  cases o with
  | none => rfl
  | some s =>
    obtain ⟨hne, hv⟩ := ho
    rw [show truthy (some s) = true from decide_eq_true hne]
    rw [if_pos rfl, if_pos rfl]
    exact parseFm_cons_some (parseFmLine_scalar k s.data hk hv.2.1 hv.2.2) rfl

/-- `parseFm` recovers the association list on the frontmatter lines of a
well-formed task. -/
theorem parseFm_fmItems (t : Task) (h : WTask t) :
    parseFm (fmItems t) = .ok (fmAssoc t) := by
  obtain ⟨hid, htit, hdesc, hst, hpri, hcr, hup, has, hsub, htag,
    hprd, hplan, hpr, _⟩ := h
  unfold fmItems fmAssoc
  refine parseFm_append (parseFm_append (parseFm_append ?_ ?_) ?_) ?_
  · refine parseFm_cons_some
      (parseFmLine_scalar "id" t.id.data (by decide) hid.2.1 hid.2.2) ?_
    refine parseFm_cons_some
      (parseFmLine_scalar "title" t.title.data (by decide)
        htit.1.2.1 htit.1.2.2) ?_
    refine parseFm_cons_some
      (parseFmLine_scalar "status" t.status.data (by decide)
        hst.2.1 hst.2.2) ?_
    refine parseFm_cons_some
      (parseFmLine_scalar "priority" t.priority.data (by decide)
        hpri.2.1 hpri.2.2) ?_
    refine parseFm_cons_some
      (parseFmLine_scalar "created" t.created.data (by decide)
        hcr.2.1 hcr.2.2) ?_
    refine parseFm_cons_some
      (parseFmLine_scalar "updated" t.updated.data (by decide)
        hup.2.1 hup.2.2) ?_
    refine parseFm_cons_some (parseFmLine_list "assigned" t.assigned (by decide)) ?_
    refine parseFm_cons_some
      (parseFmLine_list "subscribers" t.subscribers (by decide)) ?_
    exact parseFm_cons_some (parseFmLine_list "tags" t.tags (by decide)) rfl
  · exact parseFm_opt "prd" t.prd (by decide) hprd
  · exact parseFm_opt "plan" t.plan (by decide) hplan
  · exact parseFm_opt "pr" t.pr (by decide) hpr

/-- All twelve typed frontmatter reads recover the task's fields. -/
theorem fmAssoc_reads (t : Task) (hprd : optOk t.prd) (hplan : optOk t.plan)
    (hpr : optOk t.pr) :
    getScalar (fmAssoc t) "id" "" = .ok t.id
    ∧ getScalar (fmAssoc t) "title" "" = .ok t.title
    ∧ getScalar (fmAssoc t) "status" "inbox" = .ok t.status
    ∧ getScalar (fmAssoc t) "priority" "P2" = .ok t.priority
    ∧ getScalar (fmAssoc t) "created" "" = .ok t.created
    ∧ getScalar (fmAssoc t) "updated" "" = .ok t.updated
    ∧ getListF (fmAssoc t) "assigned" = .ok t.assigned
    ∧ getListF (fmAssoc t) "subscribers" = .ok t.subscribers
    ∧ getListF (fmAssoc t) "tags" = .ok t.tags
    ∧ getOpt (fmAssoc t) "prd" = .ok t.prd
    ∧ getOpt (fmAssoc t) "plan" = .ok t.plan
    ∧ getOpt (fmAssoc t) "pr" = .ok t.pr := by
  rcases hp1 : t.prd with _ | s1 <;> rcases hp2 : t.plan with _ | s2 <;>
    rcases hp3 : t.pr with _ | s3 <;>
    rw [hp1] at hprd <;> rw [hp2] at hplan <;> rw [hp3] at hpr <;>
    simp_all [getScalar, getListF, getOpt, fmGet, fmAssoc, truthy, optOk,
      List.find?]

/-! ## Body-side lemmas: markers inside joined line lists -/

theorem hasSfx_iff {p l : Chars} : hasSfx p l = true ↔ p <:+ l := by
  unfold hasSfx
  rw [decide_eq_true_iff, ← List.reverse_prefix, List.prefix_iff_eq_take,
    List.length_reverse]
  exact ⟨fun h => h.symm, fun h => h.symm⟩

theorem hasPre_append_self (p r : Chars) : hasPre p (p ++ r) = true := by
  rw [hasPre_iff]
  exact List.take_left p r

/-- A prefix of the first line is a prefix of the joined list. -/
theorem hasPre_join_of_line {p y : Chars} {ls : List Chars}
    (h : hasPre p y = true) : hasPre p (joinNL (y :: ls)) = true := by
  cases ls with
  | nil => exact h
  | cons z zs =>
    rw [joinNL_cons (show (z :: zs) ≠ [] by simp), hasPre_iff,
      List.take_append_of_le_length (hasPre_length h)]
    exact hasPre_iff.1 h

/-- A newline-free prefix of a joined list is a prefix of its first
line. -/
theorem hasPre_nlFree_line {p y : Chars} {ls : List Chars} (hp : nlFree p)
    (h : hasPre p (joinNL (y :: ls)) = true) : hasPre p y = true := by
  cases ls with
  | nil => exact h
  | cons z zs =>
    rw [joinNL_cons (show (z :: zs) ≠ [] by simp), hasPre_iff] at h
    rw [hasPre_iff]
    by_cases hl : p.length ≤ y.length
    · rw [List.take_append_of_le_length hl] at h
      exact h
    · exfalso
      rw [List.take_append_eq_append_take] at h
      have hnl : '\n' ∈ p := by
        rw [← h]
        refine List.mem_append.2 (Or.inr ?_)
        rw [List.take_cons (by simp; omega)]
        exact List.mem_cons_self '\n' _
      exact hp hnl

theorem nlfree_append_nl_inj {u w X Y : Chars} (hu : nlFree u)
    (hw : nlFree w) (h : u ++ '\n' :: X = w ++ '\n' :: Y) :
    u = w ∧ X = Y := by
  induction u generalizing w with
  | nil =>
    cases w with
    | nil => simpa using h
    | cons d w2 =>
      rw [List.nil_append, List.cons_append] at h
      obtain ⟨h1, _⟩ := List.cons.inj h
      exact absurd (h1 ▸ List.mem_cons_self d w2) hw
  | cons c u2 ih =>
    cases w with
    | nil =>
      rw [List.nil_append, List.cons_append] at h
      obtain ⟨h1, _⟩ := List.cons.inj h
      exact absurd (h1 ▸ List.mem_cons_self c u2) hu
    | cons d w2 =>
      rw [List.cons_append, List.cons_append] at h
      obtain ⟨h1, h2⟩ := List.cons.inj h
      have hu2 : nlFree u2 := fun hm => hu (List.mem_cons_of_mem c hm)
      have hw2 : nlFree w2 := fun hm => hw (List.mem_cons_of_mem d hm)
      obtain ⟨h3, h4⟩ := ih hu2 hw2 h2
      exact ⟨by rw [h1, h3], h4⟩

/-- A match of the pattern `w ++ '\n' :: p2` (`w` newline-free) against a
joined line list pins the first partial line to `w` exactly. -/
theorem marker_match {w p2 u : Chars} {ls2 : List Chars}
    (hw : nlFree w) (hu : nlFree u)
    (h : hasPre (w ++ '\n' :: p2) (joinNL (u :: ls2)) = true) :
    u = w ∧ ls2 ≠ [] ∧ hasPre p2 (joinNL ls2) = true := by
  cases ls2 with
  | nil =>
    exfalso
    rw [hasPre_iff] at h
    have hnl : '\n' ∈ u := by
      have : '\n' ∈ (joinNL [u]).take (w ++ '\n' :: p2).length := by
        rw [h]
        exact List.mem_append.2 (Or.inr (List.mem_cons_self '\n' p2))
      exact List.take_subset _ _ this
    exact hu hnl
  | cons z zs =>
    rw [joinNL_cons (show (z :: zs) ≠ [] by simp), hasPre_iff] at h
    by_cases hl : (w ++ '\n' :: p2).length ≤ u.length
    · exfalso
      rw [List.take_append_of_le_length hl] at h
      have hnl : '\n' ∈ u := by
        have : '\n' ∈ u.take (w ++ '\n' :: p2).length := by
          rw [h]
          exact List.mem_append.2 (Or.inr (List.mem_cons_self '\n' p2))
        exact List.take_subset _ _ this
      exact hu hnl
    · rw [List.take_append_eq_append_take,
        List.take_of_length_le (by omega),
        List.take_cons (by simp at hl ⊢; omega)] at h
      obtain ⟨h1, h2⟩ := nlfree_append_nl_inj hu hw h
      subst h1
      have hlen : (u ++ '\n' :: p2).length - u.length - 1 = p2.length := by
        simp only [List.length_append, List.length_cons]
        omega
      rw [hlen] at h2
      exact ⟨rfl, by simp, hasPre_iff.2 h2⟩

theorem hasPre_extend {w p2 R : Chars} (h : hasPre p2 R = true) :
    hasPre (w ++ '\n' :: p2) (w ++ '\n' :: R) = true := by
  rw [hasPre_iff,
    show (w ++ '\n' :: p2).length = w.length + (p2.length + 1) by simp,
    List.take_append, List.take_cons (by omega),
    show p2.length + 1 - 1 = p2.length from rfl, hasPre_iff.1 h]

theorem joinNL_length_suffix {s L : List Chars} (h : s <:+ L) :
    (joinNL s).length ≤ (joinNL L).length := by
  obtain ⟨pre, rfl⟩ := h
  cases pre with
  | nil => simp
  | cons x xs =>
    cases s with
    | nil => simp [joinNL]
    | cons y ys =>
      rw [joinNL_append (show (x :: xs) ≠ [] by simp)
        (show (y :: ys) ≠ [] by simp)]
      simp only [List.length_append, List.length_cons]
      omega

theorem suffix_append_split {α : Type} {s A B : List α} (h : s <:+ A ++ B) :
    s <:+ B ∨ ∃ A2, A2 ≠ [] ∧ A2 <:+ A ∧ s = A2 ++ B := by
  obtain ⟨pre, hpre⟩ := h
  have hlen : pre.length + s.length = A.length + B.length := by
    have h2 := congrArg List.length hpre
    simpa using h2
  by_cases hl : s.length ≤ B.length
  · left
    have hd := congrArg (List.drop A.length) hpre
    rw [List.drop_append_eq_append_drop,
      show A.length - pre.length = 0 by omega, List.drop_zero,
      List.drop_left] at hd
    exact ⟨pre.drop A.length, hd⟩
  · right
    have hple : pre.length ≤ A.length := by omega
    have hd := congrArg (List.drop A.length) hpre
    rw [List.drop_append_eq_append_drop, List.drop_eq_nil_of_le hple,
      List.nil_append, List.drop_left] at hd
    have ht := congrArg (List.take A.length) hpre
    rw [List.take_append_eq_append_take, List.take_of_length_le hple,
      List.take_left] at ht
    refine ⟨s.take (A.length - pre.length), ?_, ⟨pre, ht⟩, ?_⟩
    · have h3 : (s.take (A.length - pre.length)).length
          = A.length - pre.length := by
        rw [List.length_take, Nat.min_eq_left (by omega)]
      intro he
      rw [he] at h3
      simp only [List.length_nil] at h3
      omega
    · rw [← hd, List.take_append_drop]

theorem joinNL_length_head_le {u y : Chars} (ls : List Chars)
    (h : u.length ≤ y.length) :
    (joinNL (u :: ls)).length ≤ (joinNL (y :: ls)).length := by
  cases ls with
  | nil => exact h
  | cons z zs =>
    rw [joinNL_cons (show (z :: zs) ≠ [] by simp),
      joinNL_cons (show (z :: zs) ≠ [] by simp)]
    simp only [List.length_append, List.length_cons]
    omega

/-- No match of a line-marker pattern in a joined list none of whose lines
ends in `w`. -/
theorem findSub_marker_none {w p2 : Chars} (L : List Chars)
    (hw : nlFree w) (hL : ∀ l ∈ L, nlFree l)
    (hno : ∀ y ∈ L, ¬ w <:+ y) :
    findSub (w ++ '\n' :: p2) (joinNL L) = none := by
  match hf : findSub (w ++ '\n' :: p2) (joinNL L) with
  | none => rfl
  | some i =>
    exfalso
    have hpre := (findSub_spec hf).1
    cases hL0 : L with
    | nil =>
      rw [hL0] at hpre
      have h2 := hasPre_length hpre
      simp only [joinNL, List.drop_nil, List.length_nil,
        List.length_append, List.length_cons] at h2
      omega
    | cons y0 L0 =>
      have hsuf : (joinNL L).drop i <:+ joinNL L := List.drop_suffix i _
      obtain ⟨u, y, ls2, hu, hyl, heq⟩ :=
        suffix_joinNL (show L ≠ [] by rw [hL0]; simp) hsuf
      rw [heq] at hpre
      have hyL : y ∈ L := hyl.mem (List.mem_cons_self y ls2)
      have hunl : nlFree u := fun hm => hL y hyL (hu.subset hm)
      obtain ⟨rfl, _, _⟩ := marker_match hw hunl hpre
      exact hno y hyL hu

/-- First match of a line-marker pattern: exactly at the start of the first
line equal to `w` (with the continuation matching). -/
theorem findSub_marker {w p2 : Chars} (L1 L2 : List Chars)
    (hw : nlFree w)
    (hL1 : ∀ l ∈ L1, nlFree l) (hL2 : ∀ l ∈ L2, nlFree l)
    (h1ne : L1 ≠ []) (h2ne : L2 ≠ [])
    (hno : ∀ y ∈ L1, ¬ w <:+ y)
    (hp2 : hasPre p2 (joinNL L2) = true) :
    findSub (w ++ '\n' :: p2) (joinNL (L1 ++ w :: L2))
      = some ((joinNL L1).length + 1) := by
  have hJ : joinNL (L1 ++ w :: L2)
      = joinNL L1 ++ '\n' :: joinNL (w :: L2) :=
    joinNL_append h1ne (by simp)
  have hdrop : (joinNL (L1 ++ w :: L2)).drop ((joinNL L1).length + 1)
      = joinNL (w :: L2) := by
    rw [hJ, List.drop_append_eq_append_drop,
      List.drop_eq_nil_of_le (by omega), List.nil_append,
      show (joinNL L1).length + 1 - (joinNL L1).length = 1 by omega]
    rfl
  have hmatch : hasPre (w ++ '\n' :: p2)
      ((joinNL (L1 ++ w :: L2)).drop ((joinNL L1).length + 1)) = true := by
    rw [hdrop, joinNL_cons h2ne]
    exact hasPre_extend hp2
  obtain ⟨i, hi, hile⟩ := findSub_min hmatch
  rw [hi]
  congr 1
  by_contra hne2
  have hlt : i < (joinNL L1).length + 1 := by omega
  have hpre := (findSub_spec hi).1
  have hsuf : (joinNL (L1 ++ w :: L2)).drop i <:+ joinNL (L1 ++ w :: L2) :=
    List.drop_suffix i _
  obtain ⟨u, y, ls2, hu, hyl, heq⟩ :=
    suffix_joinNL (show L1 ++ w :: L2 ≠ [] by simp) hsuf
  rw [heq] at hpre
  have hyL : y ∈ L1 ++ w :: L2 := hyl.mem (List.mem_cons_self y ls2)
  have hynl : nlFree y := by
    rcases List.mem_append.1 hyL with hy | hy
    · exact hL1 y hy
    · rcases List.mem_cons.1 hy with rfl | hy2
      · exact hw
      · exact hL2 y hy2
  have hunl : nlFree u := fun hm => hynl (hu.subset hm)
  obtain ⟨h1, _, _⟩ := marker_match hw hunl hpre
  rcases suffix_append_split hyl with hcase | hcase
  · have hlen1 : (joinNL (u :: ls2)).length ≤ (joinNL (y :: ls2)).length :=
      joinNL_length_head_le ls2 hu.length_le
    have hlen2 : (joinNL (y :: ls2)).length ≤ (joinNL (w :: L2)).length :=
      joinNL_length_suffix hcase
    have hlen3 : (joinNL (L1 ++ w :: L2)).length
        = (joinNL L1).length + 1 + (joinNL (w :: L2)).length := by
      rw [hJ]
      simp only [List.length_append, List.length_cons]
      omega
    have hlen4 : ((joinNL (L1 ++ w :: L2)).drop i).length
        = (joinNL (L1 ++ w :: L2)).length - i := List.length_drop i _
    rw [heq] at hlen4
    omega
  · obtain ⟨A2, hA2ne, hA2suf, hA2eq⟩ := hcase
    cases A2 with
    | nil => exact absurd rfl hA2ne
    | cons a A2t =>
      rw [List.cons_append] at hA2eq
      obtain ⟨rfl, _⟩ := List.cons.inj hA2eq
      exact hno y (hA2suf.mem (List.mem_cons_self y A2t)) (h1 ▸ hu)

/-- A match of the pattern `'\n' :: p` (`p` newline-free, non-empty)
against a joined line list starts at a line boundary, and `p` is a prefix
of the following line. -/
theorem nl_marker_match {p u : Chars} {ls2 : List Chars}
    (hp : nlFree p) (hpne : p ≠ []) (hu : nlFree u)
    (h : hasPre ('\n' :: p) (joinNL (u :: ls2)) = true) :
    u = [] ∧ ls2 ≠ [] ∧ hasPre p (joinNL ls2) = true := by
  cases u with
  | cons c u2 =>
    exfalso
    rw [joinNL_cons_head, hasPre_iff, List.length_cons,
      List.take_succ_cons] at h
    obtain ⟨h1, _⟩ := List.cons.inj h
    exact hu (h1 ▸ List.mem_cons_self c u2)
  | nil =>
    cases ls2 with
    | nil =>
      exfalso
      have h2 := hasPre_length h
      simp only [List.length_cons] at h2
      have h3 : (joinNL [([] : Chars)]).length = 0 := rfl
      rw [h3] at h2
      omega
    | cons z zs =>
      refine ⟨rfl, by simp, ?_⟩
      rw [joinNL_cons (show (z :: zs) ≠ [] by simp), List.nil_append] at h
      rw [← h]
      exact (hasPre_cons).symm ▸ rfl

/-- First match of a newline-anchored pattern: at the separator in front of
the first line block that starts with `p`. -/
theorem findSub_nl_marker {p : Chars} (L1 L2 : List Chars)
    (hp : nlFree p) (hpne : p ≠ [])
    (hL1 : ∀ l ∈ L1, nlFree l) (hL2 : ∀ l ∈ L2, nlFree l)
    (h1ne : L1 ≠ []) (h2ne : L2 ≠ [])
    (hno : ∀ y ∈ L1, hasPre p y = false)
    (hfirst : hasPre p (joinNL L2) = true) :
    findSub ('\n' :: p) (joinNL (L1 ++ L2)) = some (joinNL L1).length := by
  have hJ : joinNL (L1 ++ L2) = joinNL L1 ++ '\n' :: joinNL L2 :=
    joinNL_append h1ne h2ne
  have hdrop : (joinNL (L1 ++ L2)).drop (joinNL L1).length
      = '\n' :: joinNL L2 := by
    rw [hJ, List.drop_append_eq_append_drop,
      List.drop_eq_nil_of_le (by omega), List.nil_append, Nat.sub_self,
      List.drop_zero]
  have hmatch : hasPre ('\n' :: p)
      ((joinNL (L1 ++ L2)).drop (joinNL L1).length) = true := by
    rw [hdrop, hasPre_cons]
    exact hfirst
  obtain ⟨i, hi, hile⟩ := findSub_min hmatch
  rw [hi]
  congr 1
  by_contra hne2
  have hlt : i < (joinNL L1).length := by omega
  have hpre := (findSub_spec hi).1
  have hsuf : (joinNL (L1 ++ L2)).drop i <:+ joinNL (L1 ++ L2) :=
    List.drop_suffix i _
  obtain ⟨u, y, ls2, hu, hyl, heq⟩ :=
    suffix_joinNL (show L1 ++ L2 ≠ [] by
      intro he
      exact h1ne (List.append_eq_nil.1 he).1) hsuf
  rw [heq] at hpre
  have hyL : y ∈ L1 ++ L2 := hyl.mem (List.mem_cons_self y ls2)
  have hynl : nlFree y := by
    rcases List.mem_append.1 hyL with hy | hy
    · exact hL1 y hy
    · exact hL2 y hy
  have hunl : nlFree u := fun hm => hynl (hu.subset hm)
  obtain ⟨rfl, hls2ne, hppre⟩ := nl_marker_match hp hpne hunl hpre
  cases hls0 : ls2 with
  | nil => exact hls2ne hls0
  | cons l ls3 =>
    rw [hls0] at hppre
    have hpl : hasPre p l = true := hasPre_nlFree_line hp hppre
    have hls2suf : ls2 <:+ L1 ++ L2 :=
      (List.suffix_cons y ls2).trans hyl
    rcases suffix_append_split hls2suf with hcase | hcase
    · have hlen2 : (joinNL ls2).length ≤ (joinNL L2).length :=
        joinNL_length_suffix hcase
      have hlen3 : (joinNL (L1 ++ L2)).length
          = (joinNL L1).length + 1 + (joinNL L2).length := by
        rw [hJ]
        simp only [List.length_append, List.length_cons]
        omega
      have hlen4 : ((joinNL (L1 ++ L2)).drop i).length
          = (joinNL (L1 ++ L2)).length - i := List.length_drop i _
      rw [heq] at hlen4
      have hlen5 : (joinNL (([] : Chars) :: ls2)).length
          = (joinNL ls2).length + 1 := by
        rw [joinNL_cons hls2ne, List.nil_append, List.length_cons]
      omega
    · obtain ⟨A2, hA2ne, hA2suf, hA2eq⟩ := hcase
      cases A2 with
      | nil => exact absurd rfl hA2ne
      | cons a A2t =>
        rw [hls0, List.cons_append] at hA2eq
        obtain ⟨rfl, _⟩ := List.cons.inj hA2eq
        have := hno l (hA2suf.mem (List.mem_cons_self l A2t))
        rw [hpl] at this
        exact absurd this (by simp)

/-- No match of a newline-anchored pattern when no line starts with `p`. -/
theorem findSub_nl_marker_none {p : Chars} (L : List Chars)
    (hp : nlFree p) (hpne : p ≠ []) (hL : ∀ l ∈ L, nlFree l)
    (hno : ∀ y ∈ L, hasPre p y = false) :
    findSub ('\n' :: p) (joinNL L) = none := by
  match hf : findSub ('\n' :: p) (joinNL L) with
  | none => rfl
  | some i =>
    exfalso
    have hpre := (findSub_spec hf).1
    cases hL0 : L with
    | nil =>
      rw [hL0] at hpre
      have h2 := hasPre_length hpre
      simp only [joinNL, List.drop_nil, List.length_nil,
        List.length_cons] at h2
      omega
    | cons y0 L0 =>
      have hsuf : (joinNL L).drop i <:+ joinNL L := List.drop_suffix i _
      obtain ⟨u, y, ls2, hu, hyl, heq⟩ :=
        suffix_joinNL (show L ≠ [] by rw [hL0]; simp) hsuf
      rw [heq] at hpre
      have hyL : y ∈ L := hyl.mem (List.mem_cons_self y ls2)
      have hunl : nlFree u := fun hm => hL y hyL (hu.subset hm)
      obtain ⟨rfl, hls2ne, hppre⟩ := nl_marker_match hp hpne hunl hpre
      cases hls0 : ls2 with
      | nil => exact hls2ne hls0
      | cons l ls3 =>
        rw [hls0] at hppre
        have hpl : hasPre p l = true := hasPre_nlFree_line hp hppre
        have hlmem : l ∈ L := by
          have hls2suf : ls2 <:+ L := (List.suffix_cons y ls2).trans hyl
          exact hls2suf.mem (hls0 ▸ List.mem_cons_self l ls3)
        have := hno l hlmem
        rw [hpl] at this
        exact absurd this (by simp)

/-! ## Comment-scan lemmas -/

theorem takeWhile_append_of_all {p : Char → Bool} {a : Chars} {c : Char}
    (b : Chars) (ha : ∀ x ∈ a, p x = true) (hc : p c = false) :
    (a ++ c :: b).takeWhile p = a := by
  induction a with
  | nil =>
    rw [List.nil_append, List.takeWhile_cons, if_neg (by simp [hc])]
  | cons d a2 ih =>
    rw [List.cons_append, List.takeWhile_cons,
      if_pos (ha d (List.mem_cons_self d a2)),
      ih (fun x hx => ha x (List.mem_cons_of_mem d hx))]

theorem pyStrip_nl_tail {x : Chars} (hx : stripInv x) :
    pyStrip (x ++ ['\n']) = x := by
  rw [pyStrip_append_ws (by intro c hc; simp at hc; subst hc; rfl)]
  exact hx

theorem matchHdrAg_eval (ts ag rest : Chars) (hts : ts ≠ [])
    (hag : ag ≠ []) (hagnl : nlFree ag) :
    matchHdrAg ts (' ' :: ('-' :: (' ' :: (ag ++ '\n' :: rest))))
      = some (ts, ag, rest) := by
  unfold matchHdrAg
  rw [if_pos (⟨hts, rfl⟩ :
    ts ≠ [] ∧ hasPre " - ".data
      (' ' :: ('-' :: (' ' :: (ag ++ '\n' :: rest)))) = true)]
  show (if (ag ++ '\n' :: rest).takeWhile (fun c => c ≠ '\n') ≠ []
        ∧ hasPre ['\n'] ((ag ++ '\n' :: rest).drop
            ((ag ++ '\n' :: rest).takeWhile (fun c => c ≠ '\n')).length) = true
      then some (ts, (ag ++ '\n' :: rest).takeWhile (fun c => c ≠ '\n'),
        ((ag ++ '\n' :: rest).drop
          ((ag ++ '\n' :: rest).takeWhile (fun c => c ≠ '\n')).length).drop 1)
      else none) = some (ts, ag, rest)
  have htw : (ag ++ '\n' :: rest).takeWhile (fun c => c ≠ '\n') = ag :=
    takeWhile_append_of_all rest
      (fun x hx => decide_eq_true (fun he => hagnl (he ▸ hx)))
      (by simp)
  rw [htw, List.drop_left ag ('\n' :: rest), if_pos ⟨hag, rfl⟩]
  rfl

theorem hdrLine_shape (c : Comment) (rest : Chars) :
    hdrLine c ++ '\n' :: rest
      = "### ".data ++ (c.timestamp.data
          ++ (' ' :: ('-' :: (' ' :: (c.agent.data ++ '\n' :: rest))))) := by
  unfold hdrLine
  simp only [List.append_assoc]
  rfl

theorem matchHdr_hdrLine (c : Comment) (rest : Chars) (hc : commentOk c) :
    matchHdr (hdrLine c ++ '\n' :: rest)
      = some (c.timestamp.data, c.agent.data, rest) := by
  obtain ⟨⟨hts1, hts2⟩, ⟨hag1, hag2⟩, _⟩ := hc
  rw [hdrLine_shape]
  unfold matchHdr
  rw [if_pos (hasPre_append_self "### ".data _)]
  show matchHdrAg
      ((c.timestamp.data
        ++ (' ' :: ('-' :: (' ' :: (c.agent.data ++ '\n' :: rest))))).takeWhile
          tsChar)
      ((c.timestamp.data
        ++ (' ' :: ('-' :: (' ' :: (c.agent.data ++ '\n' :: rest))))).drop
        ((c.timestamp.data
          ++ (' ' :: ('-' :: (' ' :: (c.agent.data
            ++ '\n' :: rest))))).takeWhile tsChar).length)
      = some (c.timestamp.data, c.agent.data, rest)
  have htw : (c.timestamp.data
      ++ (' ' :: ('-' :: (' ' :: (c.agent.data
        ++ '\n' :: rest))))).takeWhile tsChar = c.timestamp.data :=
    takeWhile_append_of_all _ hts2 (by decide)
  rw [htw, List.drop_left c.timestamp.data _]
  exact matchHdrAg_eval c.timestamp.data c.agent.data rest hts1 hag1 hag2

theorem matchHdr_not_hash {x : Chars} {ch : Char} (h : ¬ ch = '#') :
    matchHdr (ch :: x) = none := by
  unfold matchHdr
  rw [show ("### ".data : Chars) = '#' :: "## ".data from rfl,
    hasPre_head_false _ _ h]
  rfl

theorem scanComments_succ (f : Nat) (l : Chars) :
    scanComments (f + 1) l =
      match matchHdr l with
      | some (ts, ag, body) =>
        let q := bodyEnd body
        { timestamp := ⟨ts⟩, agent := ⟨ag⟩,
          message := ⟨pyStrip (body.take q)⟩ }
          :: scanComments f (body.drop q)
      | none =>
        match l with
        | [] => []
        | _ :: rest => scanComments f rest := rfl

theorem scanComments_step_some {f : Nat} {l ts ag body : Chars}
    (h : matchHdr l = some (ts, ag, body)) :
    scanComments (f + 1) l =
      { timestamp := ⟨ts⟩, agent := ⟨ag⟩,
        message := ⟨pyStrip (body.take (bodyEnd body))⟩ }
        :: scanComments f (body.drop (bodyEnd body)) := by
  rw [scanComments_succ, h]

theorem scanComments_step_skip {f : Nat} {ch : Char} {rest : Chars}
    (h : matchHdr (ch :: rest) = none) :
    scanComments (f + 1) (ch :: rest) = scanComments f rest := by
  rw [scanComments_succ, h]

theorem scanComments_nil (fuel : Nat) : scanComments fuel [] = [] := by
  cases fuel with
  | zero => rfl
  | succ f => rfl

theorem joinNL_flatMap_splitNL (xs : List Chars) (h : xs ≠ []) :
    joinNL (xs.flatMap splitNL) = joinNL xs := by
  induction xs with
  | nil => exact absurd rfl h
  | cons x xs2 ih =>
    cases xs2 with
    | nil =>
      simp only [List.flatMap_cons, List.flatMap_nil, List.append_nil]
      exact joinNL_splitNL x
    | cons y ys =>
      have hne2 : (y :: ys).flatMap splitNL ≠ [] := by
        rw [List.flatMap_cons]
        intro he
        exact splitNL_ne_nil y (List.append_eq_nil.1 he).1
      rw [List.flatMap_cons, joinNL_append (splitNL_ne_nil x) hne2,
        joinNL_splitNL x, ih (by simp),
        joinNL_cons (show (y :: ys) ≠ [] by simp)]

theorem hdrLine_nlFree {c : Comment} (hc : commentOk c) :
    nlFree (hdrLine c) := by
  obtain ⟨⟨_, hts2⟩, ⟨_, hag2⟩, _⟩ := hc
  unfold hdrLine
  intro hm
  rcases List.mem_append.1 hm with h1 | h1
  · exact absurd h1 (by decide)
  · rcases List.mem_append.1 h1 with h2 | h2
    · exact absurd (hts2 '\n' h2) (by decide)
    · rcases List.mem_append.1 h2 with h3 | h3
      · exact absurd h3 (by decide)
      · exact hag2 h3

theorem commentLines_nlFree {cs : List Comment}
    (hcs : ∀ c ∈ cs, commentOk c) : ∀ l ∈ commentLines cs, nlFree l := by
  intro l hl
  unfold commentLines at hl
  rw [List.mem_flatMap] at hl
  obtain ⟨c, hcmem, hl2⟩ := hl
  rcases List.mem_append.1 hl2 with h1 | h1
  · rcases List.mem_append.1 h1 with h2 | h2
    · rw [List.mem_singleton] at h2
      subst h2
      exact hdrLine_nlFree (hcs c hcmem)
    · exact nlFree_splitNL _ l h2
  · rw [List.mem_singleton] at h1
    subst h1
    exact fun hm => absurd hm (List.not_mem_nil _)

theorem commentItems_flatMap (cs : List Comment)
    (hcs : ∀ c ∈ cs, commentOk c) :
    (commentItems cs).flatMap splitNL = commentLines cs := by
  induction cs with
  | nil => rfl
  | cons c cs2 ih =>
    have hih := ih (fun d hd => hcs d (List.mem_cons_of_mem c hd))
    show (([hdrLine c, c.message.data, []] : List Chars)
        ++ commentItems cs2).flatMap splitNL = commentLines (c :: cs2)
    rw [List.flatMap_append, hih]
    show splitNL (hdrLine c) ++ (splitNL c.message.data
        ++ (splitNL [] ++ [])) ++ commentLines cs2 = _
    rw [splitNL_nlFree (hdrLine_nlFree (hcs c (List.mem_cons_self c cs2)))]
    show ([hdrLine c] ++ (splitNL c.message.data ++ ([[]] ++ [])))
        ++ commentLines cs2 = ([hdrLine c] ++ splitNL c.message.data
        ++ [[]]) ++ commentLines cs2
    simp [List.append_assoc]

theorem commentItems_ne_nil (c : Comment) (cs : List Comment) :
    commentItems (c :: cs) ≠ [] := by
  show ([hdrLine c, c.message.data, []] : List Chars)
      ++ commentItems cs ≠ []
  simp

theorem joinNL_commentLines (cs : List Comment)
    (hcs : ∀ c ∈ cs, commentOk c) (hne : cs ≠ []) :
    joinNL (commentLines cs) = joinNL (commentItems cs) := by
  rw [← commentItems_flatMap cs hcs]
  apply joinNL_flatMap_splitNL
  cases cs with
  | nil => exact absurd rfl hne
  | cons c cs2 => exact commentItems_ne_nil c cs2

theorem joinNL_append_nilline (x : Chars) :
    joinNL (splitNL x ++ [[]]) = x ++ ['\n'] := by
  rw [joinNL_append (splitNL_ne_nil x) (by simp), joinNL_splitNL]
  rfl

theorem splitNL_nilline_ne_nil (x : Chars) : splitNL x ++ [[]] ≠ ([] : List Chars) := by
  intro he
  exact splitNL_ne_nil x (List.append_eq_nil.1 he).1

theorem splitNL_nilline_nlFree (x : Chars) :
    ∀ l ∈ splitNL x ++ [[]], nlFree l := by
  intro l hl
  rcases List.mem_append.1 hl with h1 | h1
  · exact nlFree_splitNL _ l h1
  · rw [List.mem_singleton] at h1
    subst h1
    exact fun hm => absurd hm (List.not_mem_nil _)

/-- The comment scan recovers a well-formed comment list from its printed
blocks. -/
theorem scanComments_run : ∀ (cs : List Comment),
    (∀ c ∈ cs, commentOk c) → cs ≠ [] →
    ∀ fuel, (joinNL (commentItems cs)).length ≤ fuel →
    scanComments fuel (joinNL (commentItems cs)) = cs := by
  intro cs
  induction cs with
  | nil => intro _ h _ _; exact absurd rfl h
  | cons c cs2 ih =>
    intro hcs _ fuel hf
    have hcok : commentOk c := hcs c (List.mem_cons_self c cs2)
    have hcs2 : ∀ d ∈ cs2, commentOk d :=
      fun d hd => hcs d (List.mem_cons_of_mem c hd)
    have hmsgInv : stripInv c.message.data := hcok.2.2.1
    have hmsgNo : ∀ l ∈ splitNL c.message.data ++ [[]],
        hasPre "### ".data l = false := by
      intro l hl
      rcases List.mem_append.1 hl with h1 | h1
      · exact hcok.2.2.2 l h1
      · rw [List.mem_singleton] at h1
        subst h1
        decide
    cases cs2 with
    | nil =>
      have hT : joinNL (commentItems [c])
          = hdrLine c ++ '\n' :: (c.message.data ++ ['\n']) := by
        show joinNL [hdrLine c, c.message.data, []] = _
        rw [joinNL_cons (by simp), joinNL_cons (by simp)]
        rfl
      rw [hT] at hf ⊢
      obtain ⟨f, rfl⟩ : ∃ f, fuel = f + 1 :=
        ⟨fuel - 1, by
          simp only [List.length_append, List.length_cons] at hf
          omega⟩
      rw [scanComments_step_some (matchHdr_hdrLine c _ hcok)]
      have hnone : findSub "\n### ".data (c.message.data ++ ['\n'])
          = none := by
        rw [show ("\n### ".data : Chars) = '\n' :: "### ".data from rfl,
          show c.message.data ++ ['\n']
            = joinNL (splitNL c.message.data ++ [[]])
            from (joinNL_append_nilline _).symm]
        exact findSub_nl_marker_none _ (by decide) (by decide)
          (splitNL_nilline_nlFree _) hmsgNo
      have hq : bodyEnd (c.message.data ++ ['\n'])
          = (c.message.data ++ ['\n']).length := by
        unfold bodyEnd
        rw [hnone]
        rfl
      rw [hq, List.take_length, List.drop_length, scanComments_nil,
        pyStrip_nl_tail hmsgInv]
    | cons c2 cs3 =>
      have hIne : commentItems (c2 :: cs3) ≠ [] := commentItems_ne_nil c2 cs3
      have hT : joinNL (commentItems (c :: c2 :: cs3))
          = hdrLine c ++ '\n' :: (c.message.data
              ++ '\n' :: ('\n' :: joinNL (commentItems (c2 :: cs3)))) := by
        show joinNL (hdrLine c :: (c.message.data
            :: (([] : Chars) :: commentItems (c2 :: cs3)))) = _
        rw [joinNL_cons (by simp), joinNL_cons (by simp),
          joinNL_cons hIne]
        rfl
      have hBODY : c.message.data
          ++ '\n' :: ('\n' :: joinNL (commentItems (c2 :: cs3)))
          = joinNL ((splitNL c.message.data ++ [[]])
              ++ commentLines (c2 :: cs3)) := by
        rw [joinNL_append (splitNL_nilline_ne_nil _)
            (show commentLines (c2 :: cs3) ≠ [] by
              show hdrLine c2 :: ((splitNL c2.message.data ++ [[]])
                ++ commentLines cs3) ≠ []
              simp),
          joinNL_append_nilline,
          joinNL_commentLines (c2 :: cs3) (fun d hd => hcs d
            (List.mem_cons_of_mem c hd)) (by simp)]
        simp [List.append_assoc]
      rw [hT] at hf ⊢
      obtain ⟨f, rfl⟩ : ∃ f, fuel = f + 1 :=
        ⟨fuel - 1, by
          simp only [List.length_append, List.length_cons] at hf
          omega⟩
      rw [scanComments_step_some (matchHdr_hdrLine c _ hcok)]
      have hfs : findSub "\n### ".data (c.message.data
          ++ '\n' :: ('\n' :: joinNL (commentItems (c2 :: cs3))))
          = some (c.message.data.length + 1) := by
        rw [hBODY, show ("\n### ".data : Chars) = '\n' :: "### ".data
          from rfl,
          findSub_nl_marker (splitNL c.message.data ++ [[]])
            (commentLines (c2 :: cs3)) (by decide) (by decide)
            (splitNL_nilline_nlFree _)
            (commentLines_nlFree (fun d hd => hcs d
              (List.mem_cons_of_mem c hd)))
            (splitNL_nilline_ne_nil _)
            (show commentLines (c2 :: cs3) ≠ [] by
              show hdrLine c2 :: ((splitNL c2.message.data ++ [[]])
                ++ commentLines cs3) ≠ []
              simp)
            hmsgNo
            (show hasPre "### ".data (joinNL (commentLines (c2 :: cs3)))
                = true from hasPre_join_of_line
              (hasPre_append_self "### ".data _))]
        rw [joinNL_append_nilline]
        simp
      have hq : bodyEnd (c.message.data
          ++ '\n' :: ('\n' :: joinNL (commentItems (c2 :: cs3))))
          = c.message.data.length + 1 := by
        unfold bodyEnd
        rw [hfs]
        rfl
      rw [hq]
      have hsplit : c.message.data
          ++ '\n' :: ('\n' :: joinNL (commentItems (c2 :: cs3)))
          = (c.message.data ++ ['\n'])
            ++ '\n' :: joinNL (commentItems (c2 :: cs3)) := by
        simp
      rw [hsplit,
        List.take_left' (show (c.message.data ++ ['\n']).length
          = c.message.data.length + 1 by simp),
        List.drop_left' (show (c.message.data ++ ['\n']).length
          = c.message.data.length + 1 by simp),
        pyStrip_nl_tail hmsgInv]
      obtain ⟨f2, rfl⟩ : ∃ f2, f = f2 + 1 :=
        ⟨f - 1, by
          simp only [List.length_append, List.length_cons] at hf
          omega⟩
      rw [scanComments_step_skip (matchHdr_not_hash (by decide))]
      rw [ih hcs2 (by simp) f2 (by
        simp only [List.length_append, List.length_cons] at hf
        omega)]

/-! ## Decoding the body of an encoded task -/

theorem not_suffix_of_hasSfx_false {p l : Chars} (h : hasSfx p l = false) :
    ¬ p <:+ l := by
  intro hs
  rw [hasSfx_iff.2 hs] at h
  exact absurd h (by simp)

theorem not_suffix_nil {p : Chars} (hp : p ≠ []) : ¬ p <:+ ([] : Chars) :=
  fun hs => hp (List.suffix_nil.1 hs)

theorem ht_nlFree {t : Task} (h : WTask t) :
    nlFree ('#' :: (' ' :: t.title.data)) := by
  intro hm
  rcases List.mem_cons.1 hm with he | hm2
  · exact absurd he (by decide)
  · rcases List.mem_cons.1 hm2 with he | hm3
    · exact absurd he (by decide)
    · exact h.2.1.1.1 hm3

theorem bodyItems_ne_nil (t : Task) : bodyItems t ≠ [] := by
  unfold bodyItems
  simp

/-- The body of an encoded task, as newline-free lines. -/
theorem bodyItems_flatMap (t : Task) (h : WTask t) :
    (bodyItems t).flatMap splitNL
      = [([] : Chars), '#' :: (' ' :: t.title.data), ([] : Chars),
          "## Description".data]
        ++ (splitNL t.description.data
          ++ (([] : Chars) :: (threadItems t).flatMap splitNL)) := by
  unfold bodyItems
  rw [List.flatMap_append]
  rw [show ([[], '#' :: (' ' :: t.title.data), [], "## Description".data,
      t.description.data, []] : List Chars).flatMap splitNL
    = splitNL [] ++ (splitNL ('#' :: (' ' :: t.title.data))
      ++ (splitNL [] ++ (splitNL "## Description".data
        ++ (splitNL t.description.data ++ (splitNL [] ++ []))))) from rfl]
  rw [splitNL_nlFree (ht_nlFree h),
    show splitNL ([] : Chars) = [([] : Chars)] from rfl,
    show splitNL "## Description".data = ["## Description".data] from rfl]
  simp [List.append_assoc]

theorem desc_lines_nlFree (t : Task) :
    ∀ l ∈ splitNL t.description.data ++ [([] : Chars)], nlFree l := by
  intro l hl
  rcases List.mem_append.1 hl with h1 | h1
  · exact nlFree_splitNL _ l h1
  · rw [List.mem_singleton] at h1
    subst h1
    exact fun hm => absurd hm (List.not_mem_nil _)

theorem desc_lines_no_hh (t : Task) (h : WTask t) :
    ∀ l ∈ splitNL t.description.data ++ [([] : Chars)],
      hasPre "## ".data l = false := by
  intro l hl
  rcases List.mem_append.1 hl with h1 | h1
  · exact (h.2.2.1.2 l h1).1
  · rw [List.mem_singleton] at h1
    subst h1
    decide

theorem desc_lines_no_thread (t : Task) (h : WTask t) :
    ∀ l ∈ splitNL t.description.data ++ [([] : Chars)],
      ¬ "## Thread".data <:+ l := by
  intro l hl
  rcases List.mem_append.1 hl with h1 | h1
  · exact not_suffix_of_hasSfx_false (h.2.2.1.2 l h1).2
  · rw [List.mem_singleton] at h1
    subst h1
    exact not_suffix_nil (by decide)

theorem preThread_no_marker (t : Task) (h : WTask t) :
    ∀ y ∈ ([([] : Chars), '#' :: (' ' :: t.title.data), ([] : Chars),
        "## Description".data]
      ++ (splitNL t.description.data ++ [([] : Chars)])),
      ¬ "## Thread".data <:+ y := by
  intro y hy
  rcases List.mem_append.1 hy with h1 | h1
  · rcases List.mem_cons.1 h1 with rfl | h2
    · exact not_suffix_nil (by decide)
    · rcases List.mem_cons.1 h2 with rfl | h3
      · exact not_suffix_of_hasSfx_false h.2.1.2.2
      · rcases List.mem_cons.1 h3 with rfl | h4
        · exact not_suffix_nil (by decide)
        · rw [List.mem_singleton] at h4
          subst h4
          decide
  · exact desc_lines_no_thread t h y h1

theorem preThread_nlFree (t : Task) (h : WTask t) :
    ∀ y ∈ ([([] : Chars), '#' :: (' ' :: t.title.data), ([] : Chars),
        "## Description".data]
      ++ (splitNL t.description.data ++ [([] : Chars)])),
      nlFree y := by
  intro y hy
  rcases List.mem_append.1 hy with h1 | h1
  · rcases List.mem_cons.1 h1 with rfl | h2
    · exact fun hm => absurd hm (List.not_mem_nil _)
    · rcases List.mem_cons.1 h2 with rfl | h3
      · exact ht_nlFree h
      · rcases List.mem_cons.1 h3 with rfl | h4
        · exact fun hm => absurd hm (List.not_mem_nil _)
        · rw [List.mem_singleton] at h4
          subst h4
          decide
  · exact desc_lines_nlFree t y h1

theorem commentLines_ne_nil {cs : List Comment} (h : cs ≠ []) :
    commentLines cs ≠ [] := by
  cases cs with
  | nil => exact absurd rfl h
  | cons c cs2 =>
    show hdrLine c :: ((splitNL c.message.data ++ [[]])
        ++ commentLines cs2) ≠ []
    simp

/-- The flattened `## Thread` tail of the body lines. -/
theorem threadItems_flatMap (t : Task) (h : WTask t) :
    (threadItems t).flatMap splitNL
      = if t.thread = [] then []
        else "## Thread".data :: (([] : Chars) :: commentLines t.thread) := by
  unfold threadItems
  by_cases hth : t.thread = []
  · rw [if_pos hth, if_pos hth]
    rfl
  · rw [if_neg hth, if_neg hth]
    show splitNL "## Thread".data ++ (splitNL []
        ++ (commentItems t.thread).flatMap splitNL) = _
    rw [commentItems_flatMap t.thread
      h.2.2.2.2.2.2.2.2.2.2.2.2.2]
    rfl

/-- `decodeThread` on a joined line list with no `## Thread` marker. -/
theorem decodeThread_none (L : List Chars) (hL : ∀ l ∈ L, nlFree l)
    (hno : ∀ y ∈ L, ¬ "## Thread".data <:+ y) :
    decodeThread (joinNL L) = [] := by
  unfold decodeThread
  rw [show ("## Thread\n\n".data : Chars)
      = "## Thread".data ++ '\n' :: ['\n'] from rfl,
    findSub_marker_none L (by decide) hL hno]

/-- `decodeThread` on a body whose `## Thread` section holds the printed
comment blocks. -/
theorem decodeThread_marker (L1 : List Chars) (cs : List Comment)
    (h1ne : L1 ≠ []) (hL1 : ∀ l ∈ L1, nlFree l)
    (hno : ∀ y ∈ L1, ¬ "## Thread".data <:+ y)
    (hcs : ∀ c ∈ cs, commentOk c) (hcne : cs ≠ []) :
    decodeThread (joinNL (L1 ++ "## Thread".data
      :: (([] : Chars) :: commentLines cs))) = cs := by
  unfold decodeThread
  rw [show ("## Thread\n\n".data : Chars)
      = "## Thread".data ++ '\n' :: ['\n'] from rfl,
    findSub_marker L1 (([] : Chars) :: commentLines cs) (by decide) hL1
      (by
        intro l hl
        rcases List.mem_cons.1 hl with rfl | h2
        · exact fun hm => absurd hm (List.not_mem_nil _)
        · exact commentLines_nlFree hcs l h2)
      h1ne (by simp) hno
      (by rw [joinNL_cons (commentLines_ne_nil hcne)]; rfl)]
  show scanComments ((joinNL (L1 ++ "## Thread".data
      :: (([] : Chars) :: commentLines cs))).drop
        ((joinNL L1).length + 1 + 11)).length
      ((joinNL (L1 ++ "## Thread".data
        :: (([] : Chars) :: commentLines cs))).drop
        ((joinNL L1).length + 1 + 11)) = cs
  have hshape : joinNL (L1 ++ "## Thread".data
      :: (([] : Chars) :: commentLines cs))
      = (joinNL L1 ++ ('\n' :: ("## Thread".data ++ ['\n', '\n'])))
        ++ joinNL (commentLines cs) := by
    rw [joinNL_append h1ne (by simp),
      joinNL_cons (show (([] : Chars) :: commentLines cs) ≠ [] by simp),
      joinNL_cons (commentLines_ne_nil hcne)]
    simp
  have hdrop : (joinNL (L1 ++ "## Thread".data
      :: (([] : Chars) :: commentLines cs))).drop
        ((joinNL L1).length + 1 + 11)
      = joinNL (commentLines cs) := by
    rw [hshape]
    apply List.drop_left'
    simp only [List.length_append, List.length_cons, List.length_nil,
      show ("## Thread".data : Chars).length = 9 from rfl]
  rw [hdrop, joinNL_commentLines cs hcs hcne]
  exact scanComments_run cs hcs hcne _ le_rfl

/-- The thread extraction of `from_markdown` recovers the thread of a
well-formed task from its printed body. -/
theorem decodeThread_eval (t : Task) (h : WTask t) :
    decodeThread (joinNL (bodyItems t)) = t.thread := by
  have hcs : ∀ c ∈ t.thread, commentOk c :=
    h.2.2.2.2.2.2.2.2.2.2.2.2.2
  have hJ : joinNL (bodyItems t)
      = joinNL (([([] : Chars), '#' :: (' ' :: t.title.data), ([] : Chars),
          "## Description".data]
        ++ (splitNL t.description.data
          ++ (([] : Chars) :: (threadItems t).flatMap splitNL)))) := by
    rw [← bodyItems_flatMap t h]
    exact (joinNL_flatMap_splitNL _ (bodyItems_ne_nil t)).symm
  by_cases hth : t.thread = []
  · rw [hJ, threadItems_flatMap t h, if_pos hth]
    exact (decodeThread_none _ (preThread_nlFree t h)
      (preThread_no_marker t h)).trans hth.symm
  · rw [hJ, threadItems_flatMap t h, if_neg hth,
      show ([([] : Chars), '#' :: (' ' :: t.title.data), ([] : Chars),
          "## Description".data]
        ++ (splitNL t.description.data
          ++ (([] : Chars) :: ("## Thread".data
            :: (([] : Chars) :: commentLines t.thread)))))
        = ([([] : Chars), '#' :: (' ' :: t.title.data), ([] : Chars),
            "## Description".data]
          ++ (splitNL t.description.data ++ [([] : Chars)]))
          ++ "## Thread".data :: (([] : Chars) :: commentLines t.thread)
        by simp]
    exact decodeThread_marker _ t.thread (by simp) (preThread_nlFree t h)
      (preThread_no_marker t h) hcs hth

/-- `decodeDescr` when no section follows the description. -/
theorem decodeDescr_none_tail (L1 : List Chars) (d : Chars)
    (h1ne : L1 ≠ []) (hL1 : ∀ l ∈ L1, nlFree l)
    (hno : ∀ y ∈ L1, ¬ "## Description".data <:+ y)
    (hd : stripInv d)
    (hdl : ∀ l ∈ splitNL d ++ [([] : Chars)],
      hasPre "## ".data l = false) :
    decodeDescr (joinNL (L1 ++ "## Description".data
      :: (splitNL d ++ [([] : Chars)]))) = d := by
  unfold decodeDescr
  rw [show ("## Description\n".data : Chars)
      = "## Description".data ++ '\n' :: [] from rfl,
    findSub_marker L1 (splitNL d ++ [([] : Chars)]) (by decide) hL1
      (splitNL_nilline_nlFree d) h1ne (splitNL_nilline_ne_nil d) hno
      (show hasPre ([] : Chars)
        (joinNL (splitNL d ++ [([] : Chars)])) = true from rfl)]
  show pyStrip (((joinNL (L1 ++ "## Description".data
      :: (splitNL d ++ [([] : Chars)]))).drop
        ((joinNL L1).length + 1 + 15)).take
      ((findSub "\n## ".data ((joinNL (L1 ++ "## Description".data
        :: (splitNL d ++ [([] : Chars)]))).drop
          ((joinNL L1).length + 1 + 15))).getD
        ((joinNL (L1 ++ "## Description".data
          :: (splitNL d ++ [([] : Chars)]))).drop
            ((joinNL L1).length + 1 + 15)).length)) = d
  have hshape : joinNL (L1 ++ "## Description".data
      :: (splitNL d ++ [([] : Chars)]))
      = (joinNL L1 ++ ('\n' :: ("## Description".data ++ ['\n'])))
        ++ joinNL (splitNL d ++ [([] : Chars)]) := by
    rw [joinNL_append h1ne (by simp),
      joinNL_cons (splitNL_nilline_ne_nil d)]
    simp
  have hdrop : (joinNL (L1 ++ "## Description".data
      :: (splitNL d ++ [([] : Chars)]))).drop
        ((joinNL L1).length + 1 + 15)
      = joinNL (splitNL d ++ [([] : Chars)]) := by
    rw [hshape]
    apply List.drop_left'
    simp only [List.length_append, List.length_cons, List.length_nil,
      show ("## Description".data : Chars).length = 14 from rfl]
  rw [hdrop,
    show ("\n## ".data : Chars) = '\n' :: "## ".data from rfl,
    findSub_nl_marker_none _ (by decide) (by decide)
      (splitNL_nilline_nlFree d) hdl]
  show pyStrip ((joinNL (splitNL d ++ [([] : Chars)])).take
    (joinNL (splitNL d ++ [([] : Chars)])).length) = d
  rw [List.take_length, joinNL_append_nilline]
  exact pyStrip_nl_tail hd

/-- `decodeDescr` when a `## Thread` section follows the description. -/
theorem decodeDescr_thread_tail (L1 : List Chars) (d : Chars)
    (R : List Chars)
    (h1ne : L1 ≠ []) (hL1 : ∀ l ∈ L1, nlFree l)
    (hno : ∀ y ∈ L1, ¬ "## Description".data <:+ y)
    (hd : stripInv d)
    (hdl : ∀ l ∈ splitNL d ++ [([] : Chars)],
      hasPre "## ".data l = false)
    (hR : ∀ l ∈ ("## Thread".data :: R), nlFree l) :
    decodeDescr (joinNL (L1 ++ "## Description".data
      :: (splitNL d ++ (([] : Chars) :: ("## Thread".data :: R)))))
      = d := by
  unfold decodeDescr
  have hL2eq : splitNL d ++ (([] : Chars) :: ("## Thread".data :: R))
      = (splitNL d ++ [([] : Chars)]) ++ "## Thread".data :: R := by
    simp
  rw [hL2eq,
    show ("## Description\n".data : Chars)
      = "## Description".data ++ '\n' :: [] from rfl,
    findSub_marker L1 ((splitNL d ++ [([] : Chars)])
        ++ "## Thread".data :: R) (by decide) hL1
      (by
        intro l hl
        rcases List.mem_append.1 hl with h1 | h1
        · exact splitNL_nilline_nlFree d l h1
        · exact hR l h1)
      h1ne (by simp [splitNL_nilline_ne_nil d])
      hno
      (show hasPre ([] : Chars)
        (joinNL ((splitNL d ++ [([] : Chars)])
          ++ "## Thread".data :: R)) = true from rfl)]
  show pyStrip (((joinNL (L1 ++ "## Description".data
      :: ((splitNL d ++ [([] : Chars)]) ++ "## Thread".data :: R))).drop
        ((joinNL L1).length + 1 + 15)).take
      ((findSub "\n## ".data ((joinNL (L1 ++ "## Description".data
        :: ((splitNL d ++ [([] : Chars)])
          ++ "## Thread".data :: R))).drop
          ((joinNL L1).length + 1 + 15))).getD
        ((joinNL (L1 ++ "## Description".data
          :: ((splitNL d ++ [([] : Chars)])
            ++ "## Thread".data :: R))).drop
            ((joinNL L1).length + 1 + 15)).length)) = d
  have hshape : joinNL (L1 ++ "## Description".data
      :: ((splitNL d ++ [([] : Chars)]) ++ "## Thread".data :: R))
      = (joinNL L1 ++ ('\n' :: ("## Description".data ++ ['\n'])))
        ++ joinNL ((splitNL d ++ [([] : Chars)])
          ++ "## Thread".data :: R) := by
    rw [joinNL_append h1ne (by simp),
      joinNL_cons (show ((splitNL d ++ [([] : Chars)])
        ++ "## Thread".data :: R) ≠ [] by simp)]
    simp
  have hdrop : (joinNL (L1 ++ "## Description".data
      :: ((splitNL d ++ [([] : Chars)]) ++ "## Thread".data :: R))).drop
        ((joinNL L1).length + 1 + 15)
      = joinNL ((splitNL d ++ [([] : Chars)])
          ++ "## Thread".data :: R) := by
    rw [hshape]
    apply List.drop_left'
    simp only [List.length_append, List.length_cons, List.length_nil,
      show ("## Description".data : Chars).length = 14 from rfl]
  rw [hdrop,
    show ("\n## ".data : Chars) = '\n' :: "## ".data from rfl,
    findSub_nl_marker (splitNL d ++ [([] : Chars)])
      ("## Thread".data :: R) (by decide) (by decide)
      (splitNL_nilline_nlFree d) hR (splitNL_nilline_ne_nil d)
      (by simp) hdl
      (hasPre_join_of_line (by decide))]
  show pyStrip ((joinNL ((splitNL d ++ [([] : Chars)])
      ++ "## Thread".data :: R)).take
    (joinNL (splitNL d ++ [([] : Chars)])).length) = d
  rw [joinNL_append (splitNL_nilline_ne_nil d) (by simp),
    List.take_left, joinNL_append_nilline]
  exact pyStrip_nl_tail hd

/-- The description extraction of `from_markdown` recovers the description
of a well-formed task from its printed body. -/
theorem decodeDescr_eval (t : Task) (h : WTask t) :
    decodeDescr (joinNL (bodyItems t)) = t.description.data := by
  have hJ : joinNL (bodyItems t)
      = joinNL (([([] : Chars), '#' :: (' ' :: t.title.data), ([] : Chars),
          "## Description".data]
        ++ (splitNL t.description.data
          ++ (([] : Chars) :: (threadItems t).flatMap splitNL)))) := by
    rw [← bodyItems_flatMap t h]
    exact (joinNL_flatMap_splitNL _ (bodyItems_ne_nil t)).symm
  have hL1 : ∀ l ∈ ([([] : Chars), '#' :: (' ' :: t.title.data),
      ([] : Chars)] : List Chars), nlFree l := by
    intro l hl
    rcases List.mem_cons.1 hl with rfl | h2
    · exact fun hm => absurd hm (List.not_mem_nil _)
    · rcases List.mem_cons.1 h2 with rfl | h3
      · exact ht_nlFree h
      · rw [List.mem_singleton] at h3
        subst h3
        exact fun hm => absurd hm (List.not_mem_nil _)
  have hno : ∀ y ∈ ([([] : Chars), '#' :: (' ' :: t.title.data),
      ([] : Chars)] : List Chars), ¬ "## Description".data <:+ y := by
    intro y hy
    rcases List.mem_cons.1 hy with rfl | h2
    · exact not_suffix_nil (by decide)
    · rcases List.mem_cons.1 h2 with rfl | h3
      · exact not_suffix_of_hasSfx_false h.2.1.2.1
      · rw [List.mem_singleton] at h3
        subst h3
        exact not_suffix_nil (by decide)
  have hdinv : stripInv t.description.data := h.2.2.1.1
  have hsplit4 : ∀ X : List Chars,
      ([([] : Chars), '#' :: (' ' :: t.title.data), ([] : Chars),
        "## Description".data] ++ X)
      = ([([] : Chars), '#' :: (' ' :: t.title.data), ([] : Chars)]
          : List Chars) ++ "## Description".data :: X := by
    intro X
    simp
  by_cases hth : t.thread = []
  · rw [hJ, threadItems_flatMap t h, if_pos hth, hsplit4]
    exact decodeDescr_none_tail _ t.description.data (by simp) hL1 hno
      hdinv (desc_lines_no_hh t h)
  · rw [hJ, threadItems_flatMap t h, if_neg hth, hsplit4]
    exact decodeDescr_thread_tail _ t.description.data
      (([] : Chars) :: commentLines t.thread) (by simp) hL1 hno hdinv
      (desc_lines_no_hh t h)
      (by
        intro l hl
        rcases List.mem_cons.1 hl with rfl | h2
        · decide
        · rcases List.mem_cons.1 h2 with rfl | h3
          · exact fun hm => absurd hm (List.not_mem_nil _)
          · exact commentLines_nlFree
              h.2.2.2.2.2.2.2.2.2.2.2.2.2 l h3)

/-! ## The round trip -/

theorem exbind_ok {ε α β : Type} (a : α) (f : α → Except ε β) :
    (Except.ok a >>= f) = f a := rfl

theorem buildTask_ok (t : Task) (descr : Chars) (thread : List Comment)
    (hprd : optOk t.prd) (hplan : optOk t.plan) (hpr : optOk t.pr) :
    buildTask (fmAssoc t) descr thread
      = .ok { id := t.id, title := t.title, description := ⟨descr⟩,
              status := t.status, priority := t.priority,
              assigned := t.assigned, subscribers := t.subscribers,
              tags := t.tags, created := t.created, updated := t.updated,
              prd := t.prd, plan := t.plan, pr := t.pr,
              thread := thread } := by
  obtain ⟨e1, e2, e3, e4, e5, e6, e7, e8, e9, e10, e11, e12⟩ :=
    fmAssoc_reads t hprd hplan hpr
  unfold buildTask
  simp only [e1, e2, e3, e4, e5, e6, e7, e8, e9, e10, e11, e12, exbind_ok]

/-- Round trip: `from_markdown` inverts `to_markdown` on well-formed
tasks. -/
theorem roundTrip (t : Task) (h : WTask t) :
    Task.from_markdown (Task.to_markdown t) = .ok t := by
  have hF : fmItems t ≠ [] := fmItems_ne_nil t
  have hB : bodyItems t ≠ [] := bodyItems_ne_nil t
  have hlines := fmItems_lines t h
  have hcontent : (Task.to_markdown t).data
      = "---\n".data ++ (joinNL (fmItems t)
        ++ '\n' :: ("---".data ++ '\n' :: joinNL (bodyItems t))) := by
    show joinNL (Task.mdItems t) = _
    exact content_shape (fmItems t) (bodyItems t) hF hB
  unfold Task.from_markdown decodeChars
  rw [hcontent, hasPre_append_self "---\n".data _, if_pos rfl,
    List.drop_left' (show ("---\n".data : Chars).length = 4 from rfl),
    findSub_delim (fmItems t) (bodyItems t) hF hB hlines]
  show decodeBody ((joinNL (fmItems t)
      ++ '\n' :: ("---".data ++ '\n' :: joinNL (bodyItems t))).take
        (joinNL (fmItems t)).length)
    ((joinNL (fmItems t)
      ++ '\n' :: ("---".data ++ '\n' :: joinNL (bodyItems t))).drop
        ((joinNL (fmItems t)).length + 5)) = .ok t
  rw [List.take_left,
    show joinNL (fmItems t)
        ++ '\n' :: ("---".data ++ '\n' :: joinNL (bodyItems t))
      = (joinNL (fmItems t) ++ ('\n' :: ("---".data ++ ['\n'])))
        ++ joinNL (bodyItems t) by simp,
    List.drop_left' (show (joinNL (fmItems t)
        ++ ('\n' :: ("---".data ++ ['\n']))).length
      = (joinNL (fmItems t)).length + 5 by
        simp only [List.length_append, List.length_cons, List.length_nil,
          show ("---".data : Chars).length = 3 from rfl])]
  unfold decodeBody
  rw [splitNL_joinNL hF (fun l hl => (hlines l hl).1),
    parseFm_fmItems t h]
  show buildTask (fmAssoc t) (decodeDescr (joinNL (bodyItems t)))
      (decodeThread (joinNL (bodyItems t))) = .ok t
  rw [decodeDescr_eval t h, decodeThread_eval t h,
    buildTask_ok t t.description.data t.thread
      h.2.2.2.2.2.2.2.2.2.2.1 h.2.2.2.2.2.2.2.2.2.2.2.1
      h.2.2.2.2.2.2.2.2.2.2.2.2.1]

/-! ## Claim C4: `move_task` error conditions -/

/-- C4: `move_task` fails with `invalidStatus` whenever the target status
is outside the closed enum (for every id, found or not), fails with
`notFound` when the status is valid but no file for the id exists in any
status directory, and in both cases returns the store unchanged (no file
created, moved, or deleted). -/
theorem C4_move_task_errors (s : State) (now id newStatus : String) :
    (newStatus ∉ statuses →
      move_task s now id newStatus = (.error (.invalidStatus newStatus), s))
    ∧ (newStatus ∈ statuses →
      (∀ st ∈ statuses, fileExists s st (taskFileName id) = false) →
      move_task s now id newStatus = (.error (.notFound id), s)) := by
  refine ⟨fun h => ?_, fun h1 h2 => ?_⟩
  · unfold move_task
    rw [if_neg h]
  · unfold move_task
    rw [if_pos h1,
      show findTaskDir s id = none from List.find?_eq_none.2
        (fun st hst => by simp [h2 st hst])]

theorem C4_move_task_errors_witness :
    move_task emptyState "2026-01-01T00:00" "task-001" "bogus"
      = (.error (.invalidStatus "bogus"), emptyState)
    ∧ move_task emptyState "2026-01-01T00:00" "task-001" "inbox"
      = (.error (.notFound "task-001"), emptyState) :=
  ⟨(C4_move_task_errors emptyState "2026-01-01T00:00" "task-001" "bogus").1
      (by decide),
   (C4_move_task_errors emptyState "2026-01-01T00:00" "task-001" "inbox").2
      (by decide) (fun st _ => rfl)⟩

/-! ## Claim C8: the `update_task` frame -/

/-- C8: `update_task` fails with `notFound` when no record for the id
exists; unknown field names are ignored outright (the result does not
depend on them); on success it returns the stored task with exactly the
named known fields replaced and `updated` set to the call time, rewrites
the record in place in its current status directory, and leaves every
other directory, the log and the ledger unchanged. -/
theorem C8_update_task_frame (s : State) (now id : String)
    (u : TaskUpdates) :
    ((∀ st ∈ statuses, fileExists s st (taskFileName id) = false) →
      update_task s now id u = (.error (.notFound id), s))
    ∧ update_task s now id u
        = update_task s now id { u with unknownKeys := [] }
    ∧ ∀ st doc t, findTaskDir s id = some st →
        readF s st (taskFileName id) = some doc →
        Task.from_markdown doc = .ok t →
        ∃ t2, update_task s now id u
            = (.ok t2, writeF s st (taskFileName id) t2.to_markdown)
          ∧ t2.updated = now
          ∧ (u.id = none → t2.id = t.id)
          ∧ (∀ v, u.id = some v → t2.id = v)
          ∧ (u.title = none → t2.title = t.title)
          ∧ (∀ v, u.title = some v → t2.title = v)
          ∧ (u.description = none → t2.description = t.description)
          ∧ (∀ v, u.description = some v → t2.description = v)
          ∧ (u.status = none → t2.status = t.status)
          ∧ (∀ v, u.status = some v → t2.status = v)
          ∧ (u.priority = none → t2.priority = t.priority)
          ∧ (∀ v, u.priority = some v → t2.priority = v)
          ∧ (u.assigned = none → t2.assigned = t.assigned)
          ∧ (∀ v, u.assigned = some v → t2.assigned = v)
          ∧ (u.subscribers = none → t2.subscribers = t.subscribers)
          ∧ (∀ v, u.subscribers = some v → t2.subscribers = v)
          ∧ (u.tags = none → t2.tags = t.tags)
          ∧ (∀ v, u.tags = some v → t2.tags = v)
          ∧ (u.created = none → t2.created = t.created)
          ∧ (∀ v, u.created = some v → t2.created = v)
          ∧ (u.prd = none → t2.prd = t.prd)
          ∧ (∀ v, u.prd = some v → t2.prd = v)
          ∧ (u.plan = none → t2.plan = t.plan)
          ∧ (∀ v, u.plan = some v → t2.plan = v)
          ∧ (u.pr = none → t2.pr = t.pr)
          ∧ (∀ v, u.pr = some v → t2.pr = v)
          ∧ (u.thread = none → t2.thread = t.thread)
          ∧ (∀ v, u.thread = some v → t2.thread = v)
          ∧ (∀ st2, st2 ≠ st →
              (update_task s now id u).2.tasks st2 = s.tasks st2)
          ∧ (update_task s now id u).2.log = s.log
          ∧ (update_task s now id u).2.notif = s.notif := by
  refine ⟨fun h => ?_, rfl, fun st doc t h1 h2 h3 => ?_⟩
  · unfold update_task
    rw [show findTaskDir s id = none from List.find?_eq_none.2
      (fun st hst => by simp [h st hst])]
  · have heq : update_task s now id u
        = (.ok { applySet t u with updated := now },
           writeF s st (taskFileName id)
             (Task.to_markdown { applySet t u with updated := now })) := by
      simp only [update_task, h1, h2, h3]
    refine ⟨{ applySet t u with updated := now }, heq, rfl,
      ?_, ?_, ?_, ?_, ?_, ?_, ?_, ?_, ?_, ?_, ?_, ?_, ?_, ?_, ?_, ?_,
      ?_, ?_, ?_, ?_, ?_, ?_, ?_, ?_, ?_, ?_, ?_, ?_, ?_⟩
    all_goals first
      | (intro hv
         first
           | (show (applySet t u).id = _
              unfold applySet
              rw [hv]
              rfl)
           | (show (applySet t u).title = _
              unfold applySet
              rw [hv]
              rfl)
           | (show (applySet t u).description = _
              unfold applySet
              rw [hv]
              rfl)
           | (show (applySet t u).status = _
              unfold applySet
              rw [hv]
              rfl)
           | (show (applySet t u).priority = _
              unfold applySet
              rw [hv]
              rfl)
           | (show (applySet t u).assigned = _
              unfold applySet
              rw [hv]
              rfl)
           | (show (applySet t u).subscribers = _
              unfold applySet
              rw [hv]
              rfl)
           | (show (applySet t u).tags = _
              unfold applySet
              rw [hv]
              rfl)
           | (show (applySet t u).created = _
              unfold applySet
              rw [hv]
              rfl)
           | (show (applySet t u).prd = _
              unfold applySet
              rw [hv]
              rfl)
           | (show (applySet t u).plan = _
              unfold applySet
              rw [hv]
              rfl)
           | (show (applySet t u).pr = _
              unfold applySet
              rw [hv]
              rfl)
           | (show (applySet t u).thread = _
              unfold applySet
              rw [hv]
              rfl))
      | (intro v hv
         first
           | (show (applySet t u).id = _
              unfold applySet
              rw [hv]
              rfl)
           | (show (applySet t u).title = _
              unfold applySet
              rw [hv]
              rfl)
           | (show (applySet t u).description = _
              unfold applySet
              rw [hv]
              rfl)
           | (show (applySet t u).status = _
              unfold applySet
              rw [hv]
              rfl)
           | (show (applySet t u).priority = _
              unfold applySet
              rw [hv]
              rfl)
           | (show (applySet t u).assigned = _
              unfold applySet
              rw [hv]
              rfl)
           | (show (applySet t u).subscribers = _
              unfold applySet
              rw [hv]
              rfl)
           | (show (applySet t u).tags = _
              unfold applySet
              rw [hv]
              rfl)
           | (show (applySet t u).created = _
              unfold applySet
              rw [hv]
              rfl)
           | (show (applySet t u).prd = _
              unfold applySet
              rw [hv]
              rfl)
           | (show (applySet t u).plan = _
              unfold applySet
              rw [hv]
              rfl)
           | (show (applySet t u).pr = _
              unfold applySet
              rw [hv]
              rfl)
           | (show (applySet t u).thread = _
              unfold applySet
              rw [hv]
              rfl))
      | (intro st2 hst2
         rw [heq]
         show (writeF s st (taskFileName id) _).tasks st2 = s.tasks st2
         unfold writeF
         simp [hst2])
      | (rw [heq]; rfl)

/-! ## Claim C1: the codec round trip -/

set_option maxRecDepth 40000 in
/-- C1 (counterexample): a task meeting every §3 data-model invariant
whose comment message contains a line of the form `### 1 - fake` does not
round-trip — the decoder splits the message into a phantom extra
comment. -/
theorem C1_counterexample :
    DataModelInv C1cex
      ∧ Task.from_markdown (Task.to_markdown C1cex) ≠ .ok C1cex := by
  constructor
  · decide
  · decide

/-- C1 (amended): the round trip holds for every task whose field values
avoid the format's structural markers: scalar fields newline-free,
strip-invariant and not `[`-led; the title not ending in a section header;
description lines neither starting `## ` nor ending in `## Thread`;
printable-ASCII list elements; absent-or-non-empty links; and comments
with `[\d\-:T]`-timestamps, newline-free non-empty agents, and messages
whose lines never start `### `. -/
theorem C1_roundTrip (t : Task) (h : WTask t) :
    Task.from_markdown (Task.to_markdown t) = .ok t := roundTrip t h

set_option maxRecDepth 40000 in
theorem C1_roundTrip_witness :
    WTask C1wit
      ∧ Task.from_markdown (Task.to_markdown C1wit) = .ok C1wit :=
  ⟨by decide, C1_roundTrip C1wit (by decide)⟩

/-! ## Store-level lemmas -/

theorem find?_unique {α : Type} (p : α → Bool) (l : List α) (x : α)
    (hx : x ∈ l) (hpx : p x = true)
    (hother : ∀ y ∈ l, y ≠ x → p y = false) :
    l.find? p = some x := by
  induction l with
  | nil => exact absurd hx (List.not_mem_nil x)
  | cons a l2 ih =>
    by_cases ha : a = x
    · subst ha
      rw [List.find?_cons_of_pos _ hpx]
    · rw [List.find?_cons_of_neg _
        (by rw [hother a (List.mem_cons_self a l2) ha]; simp)]
      exact ih (by rcases List.mem_cons.1 hx with rfl | h2
                   · exact absurd rfl ha
                   · exact h2)
        (fun y hy hne => hother y (List.mem_cons_of_mem a hy) hne)

theorem upsert_find (d : List (String × String)) (fn c : String) :
    (upsert d fn c).find? (fun p => p.1 == fn) = some (fn, c) := by
  unfold upsert
  by_cases hd : dirHas d fn = true
  · rw [if_pos hd]
    unfold dirHas at hd
    induction d with
    | nil => simp [List.any_nil] at hd
    | cons a d2 ih =>
      rw [List.map_cons]
      by_cases ha : (a.1 == fn) = true
      · rw [if_pos ha, List.find?_cons_of_pos _ (by simp)]
      · rw [if_neg ha, List.find?_cons_of_neg _ (by simp [ha])]
        exact ih (by simpa [List.any_cons, ha] using hd)
  · rw [if_neg hd]
    unfold dirHas at hd
    have hnone : d.find? (fun p => p.1 == fn) = none := by
      rw [List.find?_eq_none]
      intro p hp hcp
      exact hd (List.any_eq_true.2 ⟨p, hp, hcp⟩)
    rw [List.find?_append, hnone]
    simp

theorem readF_writeF (s : State) (st fn c : String) :
    readF (writeF s st fn c) st fn = some c := by
  show Option.map (fun x => x.2)
      (List.find? (fun p => p.1 == fn)
        (if st = st then upsert (s.tasks st) fn c else s.tasks st))
    = some c
  rw [if_pos rfl, upsert_find]
  rfl

theorem fileExists_writeF_self (s : State) (st fn c : String) :
    fileExists (writeF s st fn c) st fn = true := by
  show dirHas (if st = st then upsert (s.tasks st) fn c else s.tasks st)
      fn = true
  rw [if_pos rfl]
  unfold dirHas
  rw [List.any_eq_true]
  exact ⟨(fn, c),
    List.mem_of_find?_eq_some (upsert_find (s.tasks st) fn c), by simp⟩

theorem tasks_writeF_other (s : State) {st st' : String} (fn c : String)
    (h : st' ≠ st) : (writeF s st fn c).tasks st' = s.tasks st' := by
  unfold writeF
  simp [h]

theorem fileExists_removeF_self (s : State) (st fn : String) :
    fileExists (removeF s st fn) st fn = false := by
  unfold fileExists removeF dirHas
  simp only [if_pos rfl]
  rw [Bool.eq_false_iff]
  intro hane
  obtain ⟨p, hp, hcp⟩ := List.any_eq_true.1 hane
  have := List.of_mem_filter hp
  simp at this hcp
  exact this hcp

theorem tasks_removeF_other (s : State) {st st' : String} (fn : String)
    (h : st' ≠ st) : (removeF s st fn).tasks st' = s.tasks st' := by
  unfold removeF
  simp [h]

/-- The ten statuses are well-formed scalar values. -/
theorem statuses_valOk : ∀ st ∈ statuses, valOk st := by decide

/-! ## Claim C3: move exclusivity -/

set_option maxRecDepth 100000 in
/-- C3 (counterexample): moving a stored task to the status it already
has succeeds, yet afterwards `find_task` no longer finds the task at all
(the write-then-remove pair deletes the single record), refuting the
claim for the valid status `s = inbox`. -/
theorem C3_counterexample :
    (move_task C3s "2026-01-02T00:00" "task-001" "inbox").1
      = .ok { C3t with status := "inbox", updated := "2026-01-02T00:00" }
    ∧ find_task (move_task C3s "2026-01-02T00:00" "task-001" "inbox").2
        "task-001" = .ok none := by
  constructor
  · decide
  · decide

/-- C3 (amended): move exclusivity holds when the target status differs
from the directory currently holding the record: for a store holding
exactly one well-formed record for the id, after `move_task` to a valid
`newStatus ≠` the current directory, `find_task` returns the task with
`status = newStatus`, and no file for the id remains under any other
status directory. -/
theorem C3_move_exclusive (s : State) (now id newStatus : String)
    (st0 doc : String) (t : Task)
    (h1 : findTaskDir s id = some st0)
    (h2 : readF s st0 (taskFileName id) = some doc)
    (h3 : Task.from_markdown doc = .ok t)
    (hW : WTask t) (hnow : valOk now)
    (hnew : newStatus ∈ statuses) (hdiff : st0 ≠ newStatus)
    (huniq : ∀ st' ∈ statuses, st' ≠ st0 →
      fileExists s st' (taskFileName id) = false) :
    (move_task s now id newStatus).1
      = .ok { t with status := newStatus, updated := now }
    ∧ find_task (move_task s now id newStatus).2 id
        = .ok (some { t with status := newStatus, updated := now })
    ∧ ∀ st' ∈ statuses, st' ≠ newStatus →
        fileExists (move_task s now id newStatus).2 st'
          (taskFileName id) = false := by
  have hWt1 : WTask { t with status := newStatus, updated := now } := by
    obtain ⟨a1, a2, a3, _, a5, a6, _, a8, a9, a10, a11, a12, a13, a14⟩ := hW
    exact ⟨a1, a2, a3, statuses_valOk newStatus hnew, a5, a6, hnow,
      a8, a9, a10, a11, a12, a13, a14⟩
  have h1' : (move_task s now id newStatus).1
      = .ok { t with status := newStatus, updated := now } := by
    simp only [move_task, if_pos hnew, h1, h2, h3]
  have htasks : (move_task s now id newStatus).2.tasks
      = (removeF (writeF s newStatus (taskFileName id)
            (Task.to_markdown { t with status := newStatus, updated := now }))
          st0 (taskFileName id)).tasks := by
    simp only [move_task, if_pos hnew, h1, h2, h3]
  have hfe : ∀ st' ∈ statuses,
      fileExists (move_task s now id newStatus).2 st' (taskFileName id)
        = decide (st' = newStatus) := by
    intro st' hst'
    unfold fileExists
    rw [htasks]
    by_cases he : st' = newStatus
    · subst he
      rw [tasks_removeF_other _ _ (fun he2 => hdiff he2.symm),
        show (decide (st' = st') : Bool) = true by simp]
      exact fileExists_writeF_self s st' _ _
    · rw [show (decide (st' = newStatus) : Bool) = false by simp [he]]
      by_cases he0 : st' = st0
      · subst he0
        exact fileExists_removeF_self _ st' _
      · rw [tasks_removeF_other _ _ he0, tasks_writeF_other _ _ _ he]
        exact huniq st' hst' he0
  have hdir : findTaskDir (move_task s now id newStatus).2 id
      = some newStatus := by
    unfold findTaskDir
    refine find?_unique _ statuses newStatus hnew ?_ ?_
    · rw [hfe newStatus hnew]
      simp
    · intro y hy hne
      rw [hfe y hy]
      simp [hne]
  have hrd : readF (move_task s now id newStatus).2 newStatus
      (taskFileName id)
      = some (Task.to_markdown { t with status := newStatus, updated := now }) := by
    unfold readF
    rw [htasks, tasks_removeF_other _ _ (fun he2 => hdiff he2.symm)]
    have h5 := readF_writeF s newStatus (taskFileName id)
      (Task.to_markdown { t with status := newStatus, updated := now })
    unfold readF at h5
    exact h5
  refine ⟨h1', ?_, ?_⟩
  · simp [find_task, hdir, hrd, roundTrip _ hWt1, Except.map]
  · intro st' hst' hne
    rw [hfe st' hst']
    simp [hne]

set_option maxRecDepth 100000 in
theorem C3_move_exclusive_witness :
    (move_task C3s "2026-01-02T00:00" "task-001" "in-discovery").1
      = .ok { C3t with status := "in-discovery", updated := "2026-01-02T00:00" }
    ∧ find_task (move_task C3s "2026-01-02T00:00" "task-001"
          "in-discovery").2 "task-001"
        = .ok (some { C3t with status := "in-discovery", updated := "2026-01-02T00:00" })
    ∧ ∀ st' ∈ statuses, st' ≠ "in-discovery" →
        fileExists (move_task C3s "2026-01-02T00:00" "task-001"
          "in-discovery").2 st' (taskFileName "task-001") = false :=
  C3_move_exclusive C3s "2026-01-02T00:00" "task-001" "in-discovery"
    "inbox" (Task.to_markdown C3t) C3t (by decide) (by decide) (by decide)
    (by decide) (by decide) (by decide) (by decide) (by decide)

set_option maxRecDepth 100000 in
theorem C8_update_task_frame_witness :
    ∃ t2, update_task C3s "2026-01-02T00:00" "task-001"
        { title := some "New title", unknownKeys := ["bogus"] }
        = (.ok t2, writeF C3s "inbox" (taskFileName "task-001")
            t2.to_markdown)
      ∧ t2.updated = "2026-01-02T00:00" ∧ t2.title = "New title"
      ∧ t2.description = C3t.description := by
  obtain ⟨t2, he, hu, -, -, -, hts, hdn, -⟩ :=
    (C8_update_task_frame C3s "2026-01-02T00:00" "task-001"
      { title := some "New title", unknownKeys := ["bogus"] }).2.2
      "inbox" (Task.to_markdown C3t) C3t (by decide) (by decide) (by decide)
  exact ⟨t2, he, hu, hts "New title" rfl, hdn rfl⟩

/-! ## Ledger lemmas -/

theorem occursIn_false_findSub {p l : Chars} (h : occursIn p l = false) :
    findSub p l = none := by
  unfold occursIn at h
  exact Option.not_isSome_iff_eq_none.1 (by simp [h])

theorem findSub_none_drop {p l : Chars} (k : Nat) (h : findSub p l = none) :
    findSub p (l.drop k) = none := by
  match hf : findSub p (l.drop k) with
  | none => rfl
  | some i =>
    exfalso
    have h2 := (findSub_spec hf).1
    rw [List.drop_drop] at h2
    have h3 := findSub_none h (k + i)
    rw [h2] at h3
    exact absurd h3 (by simp)

theorem scanAgentBlocks_none {hdr l : Chars}
    (h : ∀ j, hasPre hdr (l.drop j) = false) :
    ∀ fuel, scanAgentBlocks fuel hdr l = [] := by
  intro fuel
  induction fuel generalizing l with
  | zero => rfl
  | succ f ih =>
    show (if hasPre hdr l = true then _ else
      match l with
      | [] => []
      | _ :: rest => scanAgentBlocks f hdr rest) = []
    rw [if_neg (by
      have h0 := h 0
      rw [List.drop_zero] at h0
      simp [h0])]
    match l with
    | [] => rfl
    | c :: rest =>
      exact ih (fun j => by
        have hj := h (j + 1)
        rw [show (c :: rest).drop (j + 1) = rest.drop j from rfl] at hj
        exact hj)

/-- `mark_delivered` is a silent no-op when the agent has no pending
entries (in the sense the code checks). -/
theorem mark_delivered_noop (content agent now : String)
    (h : hasPendingEntries content agent = false) :
    mark_delivered now content agent = content := by
  unfold hasPendingEntries at h
  match hm : pendingMatch content.data with
  | none => simp [mark_delivered, hm]
  | some pr =>
    rw [hm] at h
    have h2 : occursIn ("### @".data ++ (agent.data ++ ['\n'])) pr.1
        = false := h
    have hempty : scanAgentBlocks pr.1.length
        ('#' :: ('#' :: ('#' :: (' ' :: ('@' :: (agent.data ++ ['\n']))))))
        pr.1 = [] := by
      apply scanAgentBlocks_none
      intro j
      have h3 : occursIn
          ('#' :: ('#' :: ('#' :: (' ' :: ('@' :: (agent.data ++ ['\n']))))))
          pr.1 = false := h2
      exact findSub_none (occursIn_false_findSub h3) j
    simp [mark_delivered, hm, hempty]

/-! ## Claim C7: idempotent delivery -/

set_option maxRecDepth 40000 in
/-- C7 (counterexample): on a ledger holding duplicated entry texts for an
agent, the second of two consecutive `mark_delivered` calls is not a
no-op — the `str.replace`-based removal of the first call strips a
different occurrence than the scan matched and leaves a pending entry
behind. -/
theorem C7_counterexample :
    mark_delivered "2026-01-01T00:00"
        (mark_delivered "2026-01-01T00:00" C7cex "a") "a"
      ≠ mark_delivered "2026-01-01T00:00" C7cex "a" := by
  decide

/-- C7 (amended): `mark_delivered(agent)` is a silent no-op (the ledger
document is unchanged) whenever the agent has no pending entries;
consequently the second of two consecutive calls changes nothing whenever
the first call leaves the agent without pending entries. -/
theorem C7_idempotent_delivery (content agent now1 now2 : String) :
    (hasPendingEntries content agent = false →
      mark_delivered now1 content agent = content)
    ∧ (hasPendingEntries (mark_delivered now1 content agent) agent
          = false →
      mark_delivered now2 (mark_delivered now1 content agent) agent
        = mark_delivered now1 content agent) :=
  ⟨mark_delivered_noop content agent now1,
   mark_delivered_noop (mark_delivered now1 content agent) agent now2⟩

theorem C7_idempotent_delivery_witness :
    (hasPendingEntries freshLedger "a" = false
      ∧ mark_delivered "2026-01-01T00:00" freshLedger "a" = freshLedger)
    ∧ (hasPendingEntries
          (mark_delivered "2026-01-01T00:00" freshLedger "a") "a" = false
      ∧ mark_delivered "2026-01-02T00:00"
          (mark_delivered "2026-01-01T00:00" freshLedger "a") "a"
        = mark_delivered "2026-01-01T00:00" freshLedger "a") :=
  ⟨⟨by decide,
    (C7_idempotent_delivery freshLedger "a" "2026-01-01T00:00"
      "2026-01-02T00:00").1 (by decide)⟩,
   ⟨by decide,
    (C7_idempotent_delivery freshLedger "a" "2026-01-01T00:00"
      "2026-01-02T00:00").2 (by decide)⟩⟩

/-! ## Claim C10: the fresh-ledger edge case -/

set_option maxRecDepth 40000 in
/-- C10 (counterexample): on the ledger freshly created by
`_notify_subscribers` (no `## Delivered` section), `get_notifications`
does not return the empty list for every agent: a comment message that
embeds a `## Delivered` line re-enables extraction for the recipient. -/
theorem C10_counterexample :
    C10s.notif = none
    ∧ get_notifications
        (((notify_subscribers C10s "2026-01-01T00:00" C10t "a"
          C10msg).notif).getD "") "b" ≠ [] := by
  constructor
  · rfl
  · decide

/-- C10 (amended): `get_notifications` returns the empty list for every
agent whenever the ledger document contains no `## Delivered` substring —
in particular on the Delivered-less ledger `_notify_subscribers` creates,
as long as no inserted text (such as a message) embeds that header. -/
theorem C10_fresh_ledger (content : String)
    (h : occursIn "## Delivered".data content.data = false) :
    ∀ agent, get_notifications content agent = [] := by
  intro agent
  have hpm : pendingMatch content.data = none := by
    unfold pendingMatch
    match hs : splitFirst "## Pending\n\n".data content.data with
    | none => rfl
    | some pr =>
      show splitFirst "## Delivered".data pr.2 = none
      unfold splitFirst at hs
      match hf : findSub "## Pending\n\n".data content.data with
      | none => rw [hf] at hs; exact absurd hs (by simp)
      | some i =>
        rw [hf] at hs
        simp only [Option.map_some', Option.some.injEq] at hs
        rw [← hs]
        show splitFirst "## Delivered".data
          (content.data.drop (i + "## Pending\n\n".data.length)) = none
        unfold splitFirst
        rw [findSub_none_drop _ (occursIn_false_findSub h)]
        rfl
  simp [get_notifications, hpm]

set_option maxRecDepth 40000 in
theorem C10_fresh_ledger_witness :
    occursIn "## Delivered".data
        ((((notify_subscribers C10s "2026-01-01T00:00" C10t "a"
          "hello").notif).getD "").data) = false
    ∧ get_notifications
        (((notify_subscribers C10s "2026-01-01T00:00" C10t "a"
          "hello").notif).getD "") "b" = [] :=
  ⟨by decide,
   C10_fresh_ledger
     (((notify_subscribers C10s "2026-01-01T00:00" C10t "a"
       "hello").notif).getD "") (by decide) "b"⟩

/-! ## Invariant preservation for the auto-subscribe claim -/

theorem tasks_notify (s : State) (now : String) (t : Task)
    (commenter msg : String) :
    (notify_subscribers s now t commenter msg).tasks = s.tasks := by
  unfold notify_subscribers
  by_cases h : (t.subscribers.filter fun a => a != commenter) = []
  · rw [if_pos h]
  · rw [if_neg h]

theorem StoreInv_of_tasks_eq {s1 s2 : State} (h : s2.tasks = s1.tasks)
    (hs : StoreInv s1) : StoreInv s2 := by
  intro st hst p hp
  rw [h] at hp
  exact hs st hst p hp

theorem mem_upsert {d : List (String × String)} {fn c : String}
    {p : String × String} (h : p ∈ upsert d fn c) :
    p = (fn, c) ∨ p ∈ d := by
  unfold upsert at h
  by_cases hd : dirHas d fn = true
  · rw [if_pos hd] at h
    obtain ⟨q, hq, hqe⟩ := List.mem_map.1 h
    by_cases hq1 : (q.1 == fn) = true
    · rw [if_pos hq1] at hqe
      exact Or.inl hqe.symm
    · rw [if_neg hq1] at hqe
      exact Or.inr (hqe ▸ hq)
  · rw [if_neg hd] at h
    rcases List.mem_append.1 h with h2 | h2
    · exact Or.inr h2
    · rw [List.mem_singleton] at h2
      exact Or.inl h2

theorem StoreInv_writeF {s : State} {st fn c : String}
    (hs : StoreInv s) (hc : recInvB c = true) :
    StoreInv (writeF s st fn c) := by
  intro st2 hst2 p hp
  by_cases he : st2 = st
  · subst he
    have hp2 : p ∈ upsert (s.tasks st2) fn c := by
      simpa [writeF] using hp
    rcases mem_upsert hp2 with rfl | hp3
    · exact hc
    · exact hs st2 hst2 p hp3
  · rw [tasks_writeF_other s fn c he] at hp
    exact hs st2 hst2 p hp

theorem findTaskDir_mem {s : State} {id st : String}
    (h : findTaskDir s id = some st) : st ∈ statuses :=
  List.mem_of_find?_eq_some h

theorem readF_recInv {s : State} {st fn doc : String}
    (hs : StoreInv s) (hst : st ∈ statuses)
    (hr : readF s st fn = some doc) : recInvB doc = true := by
  unfold readF at hr
  match hf : (s.tasks st).find? (fun p => p.1 == fn) with
  | none => rw [hf] at hr; exact absurd hr (by simp)
  | some q =>
    rw [hf] at hr
    simp only [Option.map_some', Option.some.injEq] at hr
    subst hr
    exact hs st hst q (List.mem_of_find?_eq_some hf)

theorem recInvB_elim {doc : String} {t : Task} (h : recInvB doc = true)
    (hd : Task.from_markdown doc = .ok t) : TaskInv t := by
  unfold recInvB at h
  rw [hd] at h
  exact of_decide_eq_true h

theorem recInvB_intro {t : Task} (hW : WTask t) (hti : TaskInv t) :
    recInvB t.to_markdown = true := by
  unfold recInvB
  rw [roundTrip t hW]
  exact decide_eq_true hti

theorem str_data_ne_nil {s : String} (h : s ≠ "") : s.data ≠ [] :=
  fun hd => h (congrArg String.mk hd)

theorem agentLineOk_of_agentOk {agent : String} (hag : agentOk agent) :
    agentLineOk agent :=
  ⟨str_data_ne_nil hag.1, elemOk_nlFree hag.2⟩

theorem acTask_mem (t : Task) (now agent msg : String) :
    agent ∈ (acTask t now agent msg).subscribers := by
  unfold acTask
  by_cases hmem : agent ∈ t.subscribers
  · simp [hmem]
  · simp [hmem]

theorem acTask_props {t : Task} (now agent msg : String)
    (hnow : nowOk now) (hag : agentOk agent) (hmsg : msgOk msg)
    (hti : TaskInv t) :
    WTask (acTask t now agent msg) ∧ TaskInv (acTask t now agent msg) := by
  obtain ⟨hW, hsub, hauth⟩ := hti
  obtain ⟨a1, a2, a3, a4, a5, a6, _, a8, a9, a10, a11, a12, a13, a14⟩ := hW
  have hcok : commentOk (cmt now agent msg) :=
    ⟨hnow.2, agentLineOk_of_agentOk hag, hmsg⟩
  have hthr : ∀ c ∈ t.thread ++ [cmt now agent msg], commentOk c := by
    intro c hc
    rcases List.mem_append.1 hc with h1 | h1
    · exact a14 c h1
    · rw [List.mem_singleton] at h1
      subst h1
      exact hcok
  by_cases hmem : agent ∈ t.subscribers
  · have hac : acTask t now agent msg
        = { t with thread := t.thread ++ [cmt now agent msg], updated := now } := by
      simp [acTask, cmt, hmem]
    rw [hac]
    refine ⟨⟨a1, a2, a3, a4, a5, a6, hnow.1, a8, a9, a10, a11, a12, a13,
        hthr⟩,
      ⟨a1, a2, a3, a4, a5, a6, hnow.1, a8, a9, a10, a11, a12, a13, hthr⟩,
      hsub, ?_⟩
    intro c hc
    rcases List.mem_append.1 hc with h1 | h1
    · exact hauth c h1
    · rw [List.mem_singleton] at h1
      subst h1
      exact hmem
  · have hac : acTask t now agent msg
        = { t with thread := t.thread ++ [cmt now agent msg], subscribers := t.subscribers ++ [agent], updated := now } := by
      simp [acTask, cmt, hmem]
    rw [hac]
    have hsubs2 : ∀ a ∈ t.subscribers ++ [agent], elemOk a := by
      intro a ha
      rcases List.mem_append.1 ha with h1 | h1
      · exact a9 a h1
      · rw [List.mem_singleton] at h1
        subst h1
        exact hag.2
    refine ⟨⟨a1, a2, a3, a4, a5, a6, hnow.1, a8, hsubs2, a10, a11, a12,
        a13, hthr⟩,
      ⟨a1, a2, a3, a4, a5, a6, hnow.1, a8, hsubs2, a10, a11, a12, a13,
        hthr⟩,
      fun a ha => List.mem_append.2 (Or.inl (hsub a ha)), ?_⟩
    intro c hc
    rcases List.mem_append.1 hc with h1 | h1
    · exact List.mem_append.2 (Or.inl (hauth c h1))
    · rw [List.mem_singleton] at h1
      subst h1
      exact List.mem_append.2 (Or.inr (List.mem_singleton.2 rfl))

theorem add_comment_ok {s : State} {now id agent msg : String}
    {t3 : Task} {s' : State}
    (h : add_comment s now id agent msg = (.ok t3, s')) :
    agent ∈ t3.subscribers := by
  match h1 : findTaskDir s id with
  | none =>
    rw [show add_comment s now id agent msg = (.error (.notFound id), s)
      from by simp only [add_comment, h1]] at h
    exact absurd (congrArg Prod.fst h) (by simp)
  | some st =>
    match h2 : readF s st (taskFileName id) with
    | none =>
      rw [show add_comment s now id agent msg = (.error (.notFound id), s)
        from by simp only [add_comment, h1, h2]] at h
      exact absurd (congrArg Prod.fst h) (by simp)
    | some doc =>
      match h3 : Task.from_markdown doc with
      | .error e =>
        rw [show add_comment s now id agent msg = (.error e, s)
          from by simp only [add_comment, h1, h2, h3]] at h
        exact absurd (congrArg Prod.fst h) (by simp)
      | .ok t =>
        have he : (add_comment s now id agent msg).1
            = .ok (acTask t now agent msg) := by
          simp only [add_comment, h1, h2, h3]
        rw [h] at he
        simp only [Except.ok.injEq] at he
        rw [he]
        exact acTask_mem t now agent msg

theorem add_comment_inv {s : State} {now id agent msg : String}
    (hnow : nowOk now) (hag : agentOk agent) (hmsg : msgOk msg)
    (hs : StoreInv s) : StoreInv (add_comment s now id agent msg).2 := by
  match h1 : findTaskDir s id with
  | none =>
    rw [show (add_comment s now id agent msg).2 = s
      from by simp only [add_comment, h1]]
    exact hs
  | some st =>
    match h2 : readF s st (taskFileName id) with
    | none =>
      rw [show (add_comment s now id agent msg).2 = s
        from by simp only [add_comment, h1, h2]]
      exact hs
    | some doc =>
      match h3 : Task.from_markdown doc with
      | .error e =>
        rw [show (add_comment s now id agent msg).2 = s
          from by simp only [add_comment, h1, h2, h3]]
        exact hs
      | .ok t =>
        have hti : TaskInv t :=
          recInvB_elim (readF_recInv hs (findTaskDir_mem h1) h2) h3
        obtain ⟨hW3, hti3⟩ := acTask_props now agent msg hnow hag hmsg hti
        have htasks : (add_comment s now id agent msg).2.tasks
            = (writeF s st (taskFileName id)
                (Task.to_markdown (acTask t now agent msg))).tasks := by
          simp only [add_comment, h1, h2, h3, tasks_notify]
        exact StoreInv_of_tasks_eq htasks
          (StoreInv_writeF hs (recInvB_intro hW3 hti3))

theorem asTask_mem_assigned (t : Task) (agent : String) :
    agent ∈ (asTask t agent).assigned := by
  unfold asTask
  by_cases h1 : agent ∈ t.assigned
  · simp [h1]
  · by_cases h2 : agent ∈ t.subscribers
    · simp [h1, h2]
    · simp [h1, h2]

theorem asTask_mem_subscribers {t : Task} (agent : String)
    (himp : agent ∈ t.assigned → agent ∈ t.subscribers) :
    agent ∈ (asTask t agent).subscribers := by
  unfold asTask
  by_cases h1 : agent ∈ t.assigned
  · simpa [h1] using himp h1
  · by_cases h2 : agent ∈ t.subscribers
    · simpa [h1, h2] using h2
    · simp [h1, h2]

theorem asTask_eq_pos {t : Task} {agent : String}
    (h1 : agent ∈ t.assigned) : asTask t agent = t := by
  simp [asTask, h1]

theorem asTask_eq_sub {t : Task} {agent : String}
    (h1 : agent ∉ t.assigned) (h2 : agent ∈ t.subscribers) :
    asTask t agent = { t with assigned := t.assigned ++ [agent] } := by
  simp [asTask, h1, h2]

theorem asTask_eq_neg {t : Task} {agent : String}
    (h1 : agent ∉ t.assigned) (h2 : agent ∉ t.subscribers) :
    asTask t agent = { t with assigned := t.assigned ++ [agent], subscribers := t.subscribers ++ [agent] } := by
  simp [asTask, h1, h2]

theorem asWritten_props {t : Task} (now agent : String)
    (hnow : nowOk now) (hag : agentOk agent) (hti : TaskInv t) :
    WTask (asWritten t now agent) ∧ TaskInv (asWritten t now agent) := by
  obtain ⟨hW, hsub, hauth⟩ := hti
  obtain ⟨a1, a2, a3, a4, a5, a6, _, a8, a9, a10, a11, a12, a13, a14⟩ := hW
  have hag2 : ∀ a ∈ t.assigned ++ [agent], elemOk a := by
    intro a ha
    rcases List.mem_append.1 ha with h3 | h3
    · exact a8 a h3
    · rw [List.mem_singleton] at h3
      subst h3
      exact hag.2
  have hsg2 : ∀ a ∈ t.subscribers ++ [agent], elemOk a := by
    intro a ha
    rcases List.mem_append.1 ha with h3 | h3
    · exact a9 a h3
    · rw [List.mem_singleton] at h3
      subst h3
      exact hag.2
  by_cases h1 : agent ∈ t.assigned
  · have he : asWritten t now agent = { t with updated := now } := by
      unfold asWritten
      rw [asTask_eq_pos h1]
      rfl
    rw [he]
    exact ⟨⟨a1, a2, a3, a4, a5, a6, hnow.1, a8, a9, a10, a11, a12, a13, a14⟩,
      ⟨a1, a2, a3, a4, a5, a6, hnow.1, a8, a9, a10, a11, a12, a13, a14⟩,
      hsub, hauth⟩
  · by_cases h2 : agent ∈ t.subscribers
    · have he : asWritten t now agent = { t with assigned := t.assigned ++ [agent], updated := now } := by
        unfold asWritten
        rw [asTask_eq_sub h1 h2]
        rfl
      rw [he]
      refine ⟨⟨a1, a2, a3, a4, a5, a6, hnow.1, hag2, a9, a10, a11, a12, a13, a14⟩,
        ⟨a1, a2, a3, a4, a5, a6, hnow.1, hag2, a9, a10, a11, a12, a13, a14⟩,
        ?_, hauth⟩
      intro a ha
      rcases List.mem_append.1 ha with h3 | h3
      · exact hsub a h3
      · rw [List.mem_singleton] at h3
        subst h3
        exact h2
    · have he : asWritten t now agent = { t with assigned := t.assigned ++ [agent], subscribers := t.subscribers ++ [agent], updated := now } := by
        unfold asWritten
        rw [asTask_eq_neg h1 h2]
        rfl
      rw [he]
      refine ⟨⟨a1, a2, a3, a4, a5, a6, hnow.1, hag2, hsg2, a10, a11, a12, a13, a14⟩,
        ⟨a1, a2, a3, a4, a5, a6, hnow.1, hag2, hsg2, a10, a11, a12, a13, a14⟩,
        ?_, ?_⟩
      · intro a ha
        rcases List.mem_append.1 ha with h3 | h3
        · exact List.mem_append.2 (Or.inl (hsub a h3))
        · rw [List.mem_singleton] at h3
          subst h3
          exact List.mem_append.2 (Or.inr (List.mem_singleton.2 rfl))
      · intro c hc
        exact List.mem_append.2 (Or.inl (hauth c hc))

theorem assign_task_ok {s : State} {now id agent : String} {t2 : Task}
    {s' : State} (hs : StoreInv s)
    (h : assign_task s now id agent = (.ok t2, s')) :
    agent ∈ t2.assigned ∧ agent ∈ t2.subscribers := by
  match h1 : findTaskDir s id with
  | none =>
    rw [show assign_task s now id agent = (.error (.notFound id), s)
      from by simp only [assign_task, find_task, h1]] at h
    exact absurd (congrArg Prod.fst h) (by simp)
  | some st =>
    match h2 : readF s st (taskFileName id) with
    | none =>
      rw [show assign_task s now id agent = (.error (.notFound id), s)
        from by simp only [assign_task, find_task, h1, h2]] at h
      exact absurd (congrArg Prod.fst h) (by simp)
    | some doc =>
      match h3 : Task.from_markdown doc with
      | .error e =>
        rw [show assign_task s now id agent = (.error e, s)
          from by simp only [assign_task, find_task, h1, h2, h3,
            Except.map]] at h
        exact absurd (congrArg Prod.fst h) (by simp)
      | .ok t =>
        have hti : TaskInv t :=
          recInvB_elim (readF_recInv hs (findTaskDir_mem h1) h2) h3
        have he : (assign_task s now id agent).1
            = .ok (asWritten t now agent) := by
          simp only [assign_task, find_task, h1, h2, h3, Except.map,
            update_task, asWritten]
        rw [h] at he
        simp only [Except.ok.injEq] at he
        rw [he]
        exact ⟨asTask_mem_assigned t agent,
          asTask_mem_subscribers agent (fun ha => hti.2.1 agent ha)⟩

theorem assign_task_inv {s : State} {now id agent : String}
    (hnow : nowOk now) (hag : agentOk agent)
    (hs : StoreInv s) : StoreInv (assign_task s now id agent).2 := by
  match h1 : findTaskDir s id with
  | none =>
    rw [show (assign_task s now id agent).2 = s
      from by simp only [assign_task, find_task, h1]]
    exact hs
  | some st =>
    match h2 : readF s st (taskFileName id) with
    | none =>
      rw [show (assign_task s now id agent).2 = s
        from by simp only [assign_task, find_task, h1, h2]]
      exact hs
    | some doc =>
      match h3 : Task.from_markdown doc with
      | .error e =>
        rw [show (assign_task s now id agent).2 = s
          from by simp only [assign_task, find_task, h1, h2, h3,
            Except.map]]
        exact hs
      | .ok t =>
        have hti : TaskInv t :=
          recInvB_elim (readF_recInv hs (findTaskDir_mem h1) h2) h3
        obtain ⟨hW2, hti2⟩ := asWritten_props now agent hnow hag hti
        have htasks : (assign_task s now id agent).2.tasks
            = (writeF s st (taskFileName id)
                (Task.to_markdown (asWritten t now agent))).tasks := by
          simp only [assign_task, find_task, h1, h2, h3, Except.map,
            update_task, asWritten]
        exact StoreInv_of_tasks_eq htasks
          (StoreInv_writeF hs (recInvB_intro hW2 hti2))

theorem runCS_inv (ops : List OpCS) :
    ∀ s, (∀ op ∈ ops, benignOp op) → StoreInv s →
      StoreInv (runCS s ops) := by
  induction ops with
  | nil => intro s _ hs; exact hs
  | cons op ops2 ih =>
    intro s hb hs
    have h1 : StoreInv (stepCS s op) := by
      cases op with
      | commentOp now id ag msg =>
        obtain ⟨hn, ha, hm⟩ := hb _ (List.mem_cons_self _ _)
        exact add_comment_inv hn ha hm hs
      | assignOp now id ag =>
        obtain ⟨hn, ha⟩ := hb _ (List.mem_cons_self _ _)
        exact assign_task_inv hn ha hs
    exact ih (stepCS s op) (fun o ho => hb o (List.mem_cons_of_mem _ ho))
      h1

/-! ## Claim C6: the auto-subscribe invariant -/

set_option maxRecDepth 100000 in
/-- C6 (counterexample): two violations of the claim as stated.  First, a
comment whose message imitates a `### <ts> - <agent>` header makes the
stored record decode with a phantom comment author absent from
`subscribers`.  Second, `assign_task` for an agent already in `assigned`
but missing from `subscribers` does not subscribe the agent (the
auto-subscribe is nested inside the not-assigned branch). -/
theorem C6_counterexample :
    ((match find_task (add_comment C6s "2026-01-02T00:00" "task-001"
          "alice" C6msg).2 "task-001" with
      | .ok (some t') =>
        decide (∃ c ∈ t'.thread, c.agent ∉ t'.subscribers)
      | _ => false) = true)
    ∧ ((match (assign_task C6bs "2026-01-02T00:00" "task-001" "bob").1
          with
      | .ok t2 => decide ("bob" ∉ t2.subscribers)
      | _ => false) = true) := by
  constructor
  · decide
  · decide

/-- C6 (amended): after a successful `add_comment` the commenter is in the
returned task's `subscribers`; on a store satisfying the record invariant,
a successful `assign_task` leaves the agent in both `assigned` and
`subscribers`; and the store-wide invariant — every stored record decodes
to a well-formed task whose assigned agents and comment authors are all
subscribers — is preserved by any sequence of comment/assign operations
with well-formed timestamps, agents and messages (messages whose lines do
not imitate comment headers). -/
theorem C6_auto_subscribe (s : State) (now id agent msg : String)
    (ops : List OpCS) :
    (∀ t3 s', add_comment s now id agent msg = (.ok t3, s') →
      agent ∈ t3.subscribers)
    ∧ (StoreInv s → ∀ t2 s',
        assign_task s now id agent = (.ok t2, s') →
        agent ∈ t2.assigned ∧ agent ∈ t2.subscribers)
    ∧ ((∀ op ∈ ops, benignOp op) → StoreInv s →
        StoreInv (runCS s ops)) :=
  ⟨fun _ _ h => add_comment_ok h,
   fun hs _ _ h => assign_task_ok hs h,
   fun hb hs => runCS_inv ops s hb hs⟩

set_option maxRecDepth 100000 in
theorem StoreInv_C6s : StoreInv C6s := by
  intro st hst p hp
  by_cases he : st = "inbox"
  · subst he
    have hp2 : p = ("task-001.md", Task.to_markdown C6t) := by
      simpa [C6s] using hp
    rw [hp2]
    decide
  · rw [show C6s.tasks st = [] from if_neg he] at hp
    exact absurd hp (List.not_mem_nil p)

set_option maxRecDepth 100000 in
theorem C6_auto_subscribe_witness :
    "alice" ∈ (acTask C6t "2026-01-02T00:00" "alice" "looks good").subscribers
    ∧ StoreInv (runCS C6s
        [.commentOp "2026-01-02T00:00" "task-001" "alice" "looks good",
         .assignOp "2026-01-03T00:00" "task-001" "carol"]) := by
  constructor
  · exact (C6_auto_subscribe C6s "2026-01-02T00:00" "task-001"
      "alice" "looks good" []).1
      (acTask C6t "2026-01-02T00:00" "alice" "looks good")
      (add_comment C6s "2026-01-02T00:00" "task-001" "alice"
        "looks good").2
      (Prod.ext_iff.2 ⟨by decide, rfl⟩)
  · exact (C6_auto_subscribe C6s "2026-01-02T00:00" "task-001" "alice"
      "looks good"
      [.commentOp "2026-01-02T00:00" "task-001" "alice" "looks good",
       .assignOp "2026-01-03T00:00" "task-001" "carol"]).2.2
      (by decide) StoreInv_C6s

/-! ## The generator maximum as a fold -/

theorem maxTaskNum_eq (s : State) :
    maxTaskNum s = statuses.foldl (sstep s) 0 := rfl

theorem maxTaskNum_congr {s1 s2 : State} (h : s1.tasks = s2.tasks) :
    maxTaskNum s1 = maxTaskNum s2 := by
  unfold maxTaskNum
  rw [h]

theorem le_dstep (m : Int) (p : String × String) : m ≤ dstep m p := by
  unfold dstep
  cases idNum p.1 with
  | none => exact le_refl m
  | some n => exact le_max_left m n

theorem dstep_nonneg {m : Int} (h : 0 ≤ m) (p : String × String) :
    0 ≤ dstep m p := le_trans h (le_dstep m p)

theorem gVal_le_dstep {m : Int} (h : 0 ≤ m) (p : String × String) :
    gVal p.1 ≤ dstep m p := by
  unfold gVal dstep
  cases idNum p.1 with
  | none => exact h
  | some n => exact le_max_right m n

theorem dstep_le {m M : Int} (p : String × String) (h1 : m ≤ M)
    (h2 : gVal p.1 ≤ M) : dstep m p ≤ M := by
  unfold gVal at h2
  unfold dstep
  cases hq : idNum p.1 with
  | none => exact h1
  | some n =>
    rw [hq] at h2
    exact max_le h1 h2

theorem le_dfold (d : List (String × String)) :
    ∀ m : Int, m ≤ d.foldl dstep m := by
  induction d with
  | nil => intro m; exact le_refl m
  | cons q d ih =>
    intro m
    exact le_trans (le_dstep m q) (ih (dstep m q))

theorem dfold_nonneg (d : List (String × String)) {m : Int} (h : 0 ≤ m) :
    0 ≤ d.foldl dstep m := le_trans h (le_dfold d m)

theorem gVal_le_dfold (d : List (String × String)) :
    ∀ {m : Int}, 0 ≤ m → ∀ {p}, p ∈ d → gVal p.1 ≤ d.foldl dstep m := by
  induction d with
  | nil =>
    intro m _ p hp
    exact absurd hp (List.not_mem_nil p)
  | cons q d ih =>
    intro m hm p hp
    rw [List.foldl_cons]
    rcases List.mem_cons.1 hp with rfl | hp2
    · exact le_trans (gVal_le_dstep hm p) (le_dfold d (dstep m p))
    · exact ih (dstep_nonneg hm q) hp2

theorem dfold_le (d : List (String × String)) :
    ∀ {m M : Int}, m ≤ M → (∀ p ∈ d, gVal p.1 ≤ M) →
      d.foldl dstep m ≤ M := by
  induction d with
  | nil => intro m M h1 _; exact h1
  | cons q d ih =>
    intro m M h1 h2
    rw [List.foldl_cons]
    exact ih (dstep_le q h1 (h2 q (List.mem_cons_self q d)))
      (fun p hp => h2 p (List.mem_cons_of_mem q hp))

theorem le_sfold (s : State) (L : List String) :
    ∀ m : Int, m ≤ L.foldl (sstep s) m := by
  induction L with
  | nil => intro m; exact le_refl m
  | cons st L ih =>
    intro m
    exact le_trans (le_dfold (s.tasks st) m) (ih (sstep s m st))

theorem sfold_nonneg (s : State) (L : List String) {m : Int} (h : 0 ≤ m) :
    0 ≤ L.foldl (sstep s) m := le_trans h (le_sfold s L m)

theorem gVal_le_sfold (s : State) (L : List String) :
    ∀ {m : Int}, 0 ≤ m → ∀ {st}, st ∈ L → ∀ {p}, p ∈ s.tasks st →
      gVal p.1 ≤ L.foldl (sstep s) m := by
  induction L with
  | nil =>
    intro m _ st hst
    exact absurd hst (List.not_mem_nil st)
  | cons st0 L ih =>
    intro m hm st hst p hp
    rw [List.foldl_cons]
    rcases List.mem_cons.1 hst with rfl | hst2
    · exact le_trans (gVal_le_dfold (s.tasks st) hm hp)
        (le_sfold s L (sstep s m st))
    · exact ih (dfold_nonneg (s.tasks st0) hm) hst2 hp

theorem sfold_le (s : State) (L : List String) :
    ∀ {m M : Int}, m ≤ M → (∀ st ∈ L, ∀ p ∈ s.tasks st, gVal p.1 ≤ M) →
      L.foldl (sstep s) m ≤ M := by
  induction L with
  | nil => intro m M h1 _; exact h1
  | cons st0 L ih =>
    intro m M h1 h2
    rw [List.foldl_cons]
    exact ih (dfold_le (s.tasks st0) h1 (h2 st0 (List.mem_cons_self st0 L)))
      (fun st hst p hp => h2 st (List.mem_cons_of_mem st0 hst) p hp)

theorem maxTaskNum_nonneg (s : State) : 0 ≤ maxTaskNum s := by
  rw [maxTaskNum_eq]
  exact sfold_nonneg s statuses (le_refl 0)

theorem le_maxTaskNum {s : State} {st : String} {p : String × String}
    (hst : st ∈ statuses) (hp : p ∈ s.tasks st) :
    gVal p.1 ≤ maxTaskNum s := by
  rw [maxTaskNum_eq]
  exact gVal_le_sfold s statuses (le_refl 0) hst hp

theorem maxTaskNum_le {s : State} {M : Int} (h0 : 0 ≤ M)
    (h : ∀ st ∈ statuses, ∀ p ∈ s.tasks st, gVal p.1 ≤ M) :
    maxTaskNum s ≤ M := by
  rw [maxTaskNum_eq]
  exact sfold_le s statuses h0 h

/-! ## Store membership under writes and removals -/

theorem fn_mem_upsert (d : List (String × String)) (fn c : String) :
    (fn, c) ∈ upsert d fn c := by
  unfold upsert
  by_cases hd : dirHas d fn = true
  · rw [if_pos hd]
    unfold dirHas at hd
    obtain ⟨q, hq, hqe⟩ := List.any_eq_true.1 hd
    refine List.mem_map.2 ⟨q, hq, ?_⟩
    rw [if_pos hqe]
  · rw [if_neg hd]
    exact List.mem_append.2 (Or.inr (List.mem_singleton.2 rfl))

theorem mem_upsert_of_ne {d : List (String × String)} {fn c : String}
    {p : String × String} (hp : p ∈ d) (hne : p.1 ≠ fn) :
    p ∈ upsert d fn c := by
  unfold upsert
  by_cases hd : dirHas d fn = true
  · rw [if_pos hd]
    refine List.mem_map.2 ⟨p, hp, ?_⟩
    rw [if_neg (by simpa using hne)]
  · rw [if_neg hd]
    exact List.mem_append.2 (Or.inl hp)

theorem mem_writeF_elim {s : State} {st fn c st2 : String}
    {p : String × String} (hp : p ∈ (writeF s st fn c).tasks st2) :
    p = (fn, c) ∨ p ∈ s.tasks st2 := by
  by_cases he : st2 = st
  · subst he
    have hp2 : p ∈ upsert (s.tasks st2) fn c := by
      simpa [writeF] using hp
    exact mem_upsert hp2
  · rw [tasks_writeF_other s fn c he] at hp
    exact Or.inr hp

theorem name_mem_writeF {s : State} (st fn c : String) {st2 : String}
    {p : String × String} (hp : p ∈ s.tasks st2) :
    ∃ c2, (p.1, c2) ∈ (writeF s st fn c).tasks st2 := by
  by_cases he : st2 = st
  · subst he
    have hw : (writeF s st2 fn c).tasks st2 = upsert (s.tasks st2) fn c := by
      simp [writeF]
    rw [hw]
    by_cases hfn : p.1 = fn
    · exact ⟨c, hfn ▸ fn_mem_upsert (s.tasks st2) fn c⟩
    · exact ⟨p.2, mem_upsert_of_ne hp hfn⟩
  · rw [tasks_writeF_other s fn c he]
    exact ⟨p.2, hp⟩

theorem mem_removeF_elim {s : State} {st fn st2 : String}
    {p : String × String} (hp : p ∈ (removeF s st fn).tasks st2) :
    p ∈ s.tasks st2 := by
  by_cases he : st2 = st
  · subst he
    have hp2 : p ∈ (s.tasks st2).filter (fun q => q.1 != fn) := by
      simpa [removeF] using hp
    exact List.mem_of_mem_filter hp2
  · rw [tasks_removeF_other s fn he] at hp
    exact hp

theorem name_mem_removeF {s : State} {st fn st2 : String}
    {p : String × String} (hp : p ∈ s.tasks st2)
    (hne : st2 = st → p.1 ≠ fn) : p ∈ (removeF s st fn).tasks st2 := by
  by_cases he : st2 = st
  · subst he
    have hr : (removeF s st2 fn).tasks st2
        = (s.tasks st2).filter (fun q => q.1 != fn) := by
      simp [removeF]
    rw [hr]
    exact List.mem_filter.2 ⟨hp, by simpa using hne rfl⟩
  · rw [tasks_removeF_other s fn he]
    exact hp

theorem mem_of_fileExists {s : State} {st fn : String}
    (h : fileExists s st fn = true) : ∃ c, (fn, c) ∈ s.tasks st := by
  unfold fileExists dirHas at h
  obtain ⟨q, hq, hqe⟩ := List.any_eq_true.1 h
  refine ⟨q.2, ?_⟩
  have : q.1 = fn := by simpa using hqe
  rw [← this]
  exact hq

theorem findTaskDir_fileExists {s : State} {id st : String}
    (h : findTaskDir s id = some st) :
    fileExists s st (taskFileName id) = true := by
  unfold findTaskDir at h
  have h2 := List.find?_some h
  exact h2

/-! ## The generated id re-reads as its own number (below task 1000) -/

set_option maxRecDepth 100000 in
theorem idNumPadAll : ∀ m : Nat, m < 1000 → 1 ≤ m →
    idNum ("task-" ++ pad3 (m : Int) ++ ".md") = some (m : Int) := by
  decide

theorem maxTaskNum_create {s : State} {k : Nat}
    (now ti descr pr : String) (tg : List String)
    (hk : maxTaskNum s = (k : Int)) (hlt : k + 1 ≤ 999) :
    maxTaskNum (create_task s now ti descr pr tg).2
      = ((k + 1 : Nat) : Int) := by
  have hid : generate_task_id s = "task-" ++ pad3 ((k + 1 : Nat) : Int) := by
    unfold generate_task_id
    rw [hk]
    push_cast
    rfl
  have hnum : idNum (taskFileName (generate_task_id s))
      = some ((k + 1 : Nat) : Int) := by
    rw [hid]
    exact idNumPadAll (k + 1) (by omega) (by omega)
  have hg : gVal (taskFileName (generate_task_id s)) = ((k + 1 : Nat) : Int) := by
    unfold gVal
    rw [hnum]
  have htasks : (create_task s now ti descr pr tg).2.tasks
      = (writeF s "inbox" (taskFileName (generate_task_id s))
          (Task.to_markdown { id := generate_task_id s, title := ti, description := descr, priority := pr, tags := tg, created := now, updated := now })).tasks := rfl
  have hc : maxTaskNum (create_task s now ti descr pr tg).2
      = maxTaskNum (writeF s "inbox" (taskFileName (generate_task_id s))
          (Task.to_markdown { id := generate_task_id s, title := ti, description := descr, priority := pr, tags := tg, created := now, updated := now })) :=
    maxTaskNum_congr htasks
  rw [hc]
  apply le_antisymm
  · refine maxTaskNum_le (by positivity) ?_
    intro st2 hst2 p hp
    rcases mem_writeF_elim hp with rfl | hp2
    · exact le_of_eq hg
    · calc gVal p.1 ≤ maxTaskNum s := le_maxTaskNum hst2 hp2
        _ ≤ ((k + 1 : Nat) : Int) := by rw [hk]; push_cast; omega
  · have hw : (writeF s "inbox" (taskFileName (generate_task_id s))
        (Task.to_markdown { id := generate_task_id s, title := ti, description := descr, priority := pr, tags := tg, created := now, updated := now })).tasks "inbox"
        = upsert (s.tasks "inbox") (taskFileName (generate_task_id s))
            (Task.to_markdown { id := generate_task_id s, title := ti, description := descr, priority := pr, tags := tg, created := now, updated := now }) := by
      simp [writeF]
    have hmem : ((taskFileName (generate_task_id s)),
        (Task.to_markdown { id := generate_task_id s, title := ti, description := descr, priority := pr, tags := tg, created := now, updated := now }))
        ∈ (writeF s "inbox" (taskFileName (generate_task_id s))
          (Task.to_markdown { id := generate_task_id s, title := ti, description := descr, priority := pr, tags := tg, created := now, updated := now })).tasks "inbox" := by
      rw [hw]
      exact fn_mem_upsert _ _ _
    have hle := le_maxTaskNum (show "inbox" ∈ statuses by decide) hmem
    rw [← hg]
    exact hle

theorem maxTaskNum_move {s : State} {now id st1 : String}
    (h1 : st1 ∈ statuses) (h2 : findTaskDir s id ≠ some st1) :
    maxTaskNum (move_task s now id st1).2 = maxTaskNum s := by
  match h3 : findTaskDir s id with
  | none =>
    rw [show (move_task s now id st1).2 = s
      from by simp only [move_task, if_pos h1, h3]]
  | some st0 =>
    have hne : st0 ≠ st1 := fun he => h2 (he ▸ h3)
    match h4 : readF s st0 (taskFileName id) with
    | none =>
      rw [show (move_task s now id st1).2 = s
        from by simp only [move_task, if_pos h1, h3, h4]]
    | some doc =>
      match h5 : Task.from_markdown doc with
      | .error e =>
        rw [show (move_task s now id st1).2 = s
          from by simp only [move_task, if_pos h1, h3, h4, h5]]
      | .ok t =>
        obtain ⟨c0, hc0⟩ := mem_of_fileExists (findTaskDir_fileExists h3)
        have hst0 : st0 ∈ statuses := findTaskDir_mem h3
        have htasks : (move_task s now id st1).2.tasks
            = (removeF (writeF s st1 (taskFileName id)
                (Task.to_markdown { t with status := st1, updated := now }))
                st0 (taskFileName id)).tasks := by
          simp only [move_task, if_pos h1, h3, h4, h5]
        have hc : maxTaskNum (move_task s now id st1).2
            = maxTaskNum (removeF (writeF s st1 (taskFileName id)
                (Task.to_markdown { t with status := st1, updated := now }))
                st0 (taskFileName id)) := by
          unfold maxTaskNum
          rw [htasks]
        rw [hc]
        apply le_antisymm
        · refine maxTaskNum_le (maxTaskNum_nonneg s) ?_
          intro st2 hst2 p hp
          rcases mem_writeF_elim (mem_removeF_elim hp) with rfl | hp2
          · have hle := le_maxTaskNum hst0 hc0
            exact hle
          · exact le_maxTaskNum hst2 hp2
        · refine maxTaskNum_le
            (maxTaskNum_nonneg _) ?_
          intro st2 hst2 p hp
          by_cases hfn : p.1 = taskFileName id
          · have hmem : ((taskFileName id),
                (Task.to_markdown { t with status := st1, updated := now }))
                ∈ (removeF (writeF s st1 (taskFileName id)
                    (Task.to_markdown { t with status := st1, updated := now }))
                    st0 (taskFileName id)).tasks st1 := by
              refine name_mem_removeF ?_ ?_
              · have hw : (writeF s st1 (taskFileName id)
                    (Task.to_markdown { t with status := st1, updated := now })).tasks st1
                    = upsert (s.tasks st1) (taskFileName id)
                        (Task.to_markdown { t with status := st1, updated := now }) := by
                  simp [writeF]
                rw [hw]
                exact fn_mem_upsert _ _ _
              · intro he
                exact absurd he.symm hne
            rw [hfn]
            exact le_maxTaskNum h1 hmem
          · obtain ⟨c2, hc2⟩ := name_mem_writeF st1 (taskFileName id)
              (Task.to_markdown { t with status := st1, updated := now }) hp
            have hmem : (p.1, c2)
                ∈ (removeF (writeF s st1 (taskFileName id)
                    (Task.to_markdown { t with status := st1, updated := now }))
                    st0 (taskFileName id)).tasks st2 :=
              name_mem_removeF hc2 (fun _ => hfn)
            have hle := le_maxTaskNum hst2 hmem
            exact hle

/-! ## The id sequence produced by creates and proper moves -/

theorem idList_zero (k : Nat) : idList k 0 = [] := rfl

theorem idList_succ (k n : Nat) :
    idList k (n + 1)
      = ("task-" ++ pad3 ((k + 1 : Nat) : Int)) :: idList (k + 1) n := by
  unfold idList
  rw [List.range_succ_eq_map, List.map_cons, List.map_map]
  refine congrArg₂ _ ?_ ?_
  · show "task-" ++ pad3 ((k + 0 + 1 : Nat) : Int)
      = "task-" ++ pad3 ((k + 1 : Nat) : Int)
    norm_num
  · refine List.map_congr_left ?_
    intro i _
    show "task-" ++ pad3 ((k + (i + 1) + 1 : Nat) : Int)
      = "task-" ++ pad3 ((k + 1 + i + 1 : Nat) : Int)
    congr 1
    congr 1
    congr 1
    omega

theorem runCM_ids : ∀ (ops : List OpCM) (s : State) (k : Nat),
    maxTaskNum s = (k : Int) → k + countCreates ops ≤ 999 →
    SeqOk s ops → createdIds s ops = idList k (countCreates ops) := by
  intro ops
  induction ops with
  | nil =>
    intro s k _ _ _
    rfl
  | cons op ops ih =>
    intro s k hk hle hseq
    obtain ⟨hpm, hseq2⟩ := hseq
    cases op with
    | createOp now ti d p tg =>
      have hcount : countCreates (OpCM.createOp now ti d p tg :: ops)
          = countCreates ops + 1 := rfl
      have hk1 : maxTaskNum (stepCM s (.createOp now ti d p tg))
          = ((k + 1 : Nat) : Int) :=
        maxTaskNum_create now ti d p tg hk (by rw [hcount] at hle; omega)
      have htail := ih (stepCM s (.createOp now ti d p tg)) (k + 1) hk1
        (by rw [hcount] at hle; omega) hseq2
      show (create_task s now ti d p tg).1.id
          :: createdIds (stepCM s (.createOp now ti d p tg)) ops
        = idList k (countCreates (OpCM.createOp now ti d p tg :: ops))
      rw [hcount, idList_succ, htail]
      refine congrArg₂ _ ?_ rfl
      show generate_task_id s = "task-" ++ pad3 ((k + 1 : Nat) : Int)
      unfold generate_task_id
      rw [hk]
      push_cast
      rfl
    | moveOp now id st1 =>
      have hk2 : maxTaskNum (stepCM s (.moveOp now id st1)) = (k : Int) :=
        (maxTaskNum_move hpm.1 hpm.2).trans hk
      exact ih (stepCM s (.moveOp now id st1)) k hk2 hle hseq2

theorem idList_nodup {k n : Nat} (h : k + n ≤ 999) :
    (idList k n).Nodup := by
  unfold idList
  refine List.Nodup.map_on ?_ (List.nodup_range n)
  intro i hi j hj he
  rw [List.mem_range] at hi hj
  have hfni : idNum ("task-" ++ pad3 ((k + i + 1 : Nat) : Int) ++ ".md")
      = some ((k + i + 1 : Nat) : Int) :=
    idNumPadAll (k + i + 1) (by omega) (by omega)
  have hfnj : idNum ("task-" ++ pad3 ((k + j + 1 : Nat) : Int) ++ ".md")
      = some ((k + j + 1 : Nat) : Int) :=
    idNumPadAll (k + j + 1) (by omega) (by omega)
  have he2 : idNum ("task-" ++ pad3 ((k + i + 1 : Nat) : Int) ++ ".md")
      = idNum ("task-" ++ pad3 ((k + j + 1 : Nat) : Int) ++ ".md") := by
    rw [he]
  rw [hfni, hfnj] at he2
  simp only [Option.some.injEq] at he2
  have : k + i + 1 = k + j + 1 := by exact_mod_cast he2
  omega

/-! ## On canonical stores the sliced read agrees with the full suffix -/

theorem idNum_eq_cast {fn : String}
    (hc : hasPre "task-".data fn.data = true →
      hasSfx ".md".data fn.data = true →
      fn.data.length = 11
        ∧ ∀ c ∈ (fn.data.drop 5).take 3, c.isDigit = true) :
    idNum fn = (numSuffix fn).map fun n => (n : Int) := by
  unfold idNum numSuffix
  by_cases hp : (hasPre "task-".data fn.data = true)
      ∧ (hasSfx ".md".data fn.data = true)
  · rw [if_pos hp, if_pos hp]
    obtain ⟨h11, hdig⟩ := hc hp.1 hp.2
    rw [h11]
    have hlen : ((fn.data.drop 5).take 3).length = 3 := by
      simp [List.length_take, List.length_drop, h11]
    match hL : (fn.data.drop 5).take 3 with
    | [] => rw [hL] at hlen; exact absurd hlen (by simp)
    | a :: rest =>
      have ha : a.isDigit = true := hdig a (hL ▸ List.mem_cons_self a rest)
      have ha1 : a ≠ '-' := by
        intro he
        rw [he] at ha
        exact absurd ha (by decide)
      have ha2 : a ≠ '+' := by
        intro he
        rw [he] at ha
        exact absurd ha (by decide)
      show pyInt (a :: rest) = (digitsVal (a :: rest)).map fun n => (n : Int)
      unfold pyInt
      split
      · next ds heq =>
        exact absurd (List.cons.inj heq).1 ha1
      · next ds heq =>
        exact absurd (List.cons.inj heq).1 ha2
      · rfl
  · rw [if_neg hp, if_neg hp]
    rfl

theorem dfold_cast (d : List (String × String))
    (hd : ∀ p ∈ d, idNum p.1 = (numSuffix p.1).map fun n => (n : Int)) :
    ∀ m : Nat, d.foldl dstep (m : Int)
      = ((d.foldl (fun m' p => match numSuffix p.1 with
          | some n => max m' n
          | none => m') m : Nat) : Int) := by
  induction d with
  | nil => intro m; rfl
  | cons q d ih =>
    intro m
    rw [List.foldl_cons, List.foldl_cons]
    have hq := hd q (List.mem_cons_self q d)
    cases hn : numSuffix q.1 with
    | none =>
      have h1 : idNum q.1 = none := by
        rw [hq, hn]
        rfl
      simp only [hn, dstep, h1]
      exact ih (fun p hp => hd p (List.mem_cons_of_mem q hp)) m
    | some n =>
      have h1 : idNum q.1 = some ((n : Nat) : Int) := by
        rw [hq, hn]
        rfl
      simp only [hn, dstep, h1]
      rw [show max ((m : Nat) : Int) ((n : Nat) : Int)
          = ((max m n : Nat) : Int) from (Nat.cast_max m n).symm]
      exact ih (fun p hp => hd p (List.mem_cons_of_mem q hp)) (max m n)

theorem sfold_cast (s : State) (L : List String)
    (hs : ∀ st ∈ L, ∀ p ∈ s.tasks st,
      idNum p.1 = (numSuffix p.1).map fun n => (n : Int)) :
    ∀ m : Nat, L.foldl (sstep s) ((m : Nat) : Int)
      = ((L.foldl (fun m2 st => (s.tasks st).foldl
          (fun m' p => match numSuffix p.1 with
            | some n => max m' n
            | none => m') m2) m : Nat) : Int) := by
  induction L with
  | nil => intro m; rfl
  | cons st0 L ih =>
    intro m
    rw [List.foldl_cons, List.foldl_cons]
    have h1 : sstep s ((m : Nat) : Int) st0
        = (((s.tasks st0).foldl (fun m' p => match numSuffix p.1 with
            | some n => max m' n
            | none => m') m : Nat) : Int) :=
      dfold_cast (s.tasks st0)
        (fun p hp => hs st0 (List.mem_cons_self st0 L) p hp) m
    rw [h1]
    exact ih (fun st hst p hp => hs st (List.mem_cons_of_mem st0 hst) p hp)
      ((s.tasks st0).foldl (fun m' p => match numSuffix p.1 with
        | some n => max m' n
        | none => m') m)

theorem maxTaskNum_canonical {s : State} (hc : canonicalStore s) :
    maxTaskNum s = ((maxNumSuffixSpec s : Nat) : Int) := by
  rw [maxTaskNum_eq]
  have h := sfold_cast s statuses
    (fun st hst p hp => idNum_eq_cast (fun h1 h2 => hc st hst p hp h1 h2))
    (0 : Nat)
  exact h

/-! ## Claim C2: id generation -/

set_option maxRecDepth 200000 in
/-- C2 (counterexample): two violations of the claim as stated.  First,
`_generate_task_id` reads `int(filename[5:8])`, a fixed three-character
slice, so a file `task-1000.md` is read as number 100 and the generator
returns `task-101`, not `task-1001` (the maximum numeric suffix is 1000).
Second, an id is reused: a move whose target equals the task's current
directory deletes the record (write then remove of the same file), after
which the next create hands out `task-002` a second time. -/
theorem C2_counterexample :
    generate_task_id C2s = "task-101"
    ∧ maxNumSuffixSpec C2s = 1000
    ∧ createdIds emptyState
        [.createOp "2026-01-01T00:00" "A" "d" "P2" [],
         .createOp "2026-01-02T00:00" "B" "d" "P2" [],
         .moveOp "2026-01-03T00:00" "task-002" "inbox",
         .createOp "2026-01-04T00:00" "C" "d" "P2" []]
      = ["task-001", "task-002", "task-002"] := by
  refine ⟨by decide, by decide, by decide⟩

/-- C2 (amended): on a canonical store (every task file named with an
exactly three-digit number, as the generator itself produces below task
1000) the generator returns `task-` followed by the zero-padded successor
of the maximum numeric suffix; starting from a store whose scan maximum is
`k`, any sequence of creates and proper moves (moves to a valid status
different from the task's current directory) hands out the ids
`task-(k+1) … task-(k+c)` in order, where `c` counts the creates and
`k + c ≤ 999`; and these ids are pairwise distinct. -/
theorem C2_id_generation (s : State) (ops : List OpCM) (k n : Nat) :
    (canonicalStore s →
      generate_task_id s = "task-" ++ pad3 ((maxNumSuffixSpec s : Int) + 1))
    ∧ (maxTaskNum s = (k : Int) → k + countCreates ops ≤ 999 →
        SeqOk s ops → createdIds s ops = idList k (countCreates ops))
    ∧ (k + n ≤ 999 → (idList k n).Nodup) := by
  refine ⟨?_, ?_, fun h => idList_nodup h⟩
  · intro hc
    unfold generate_task_id
    rw [maxTaskNum_canonical hc]
  · intro hk hle hseq
    exact runCM_ids ops s k hk hle hseq

set_option maxRecDepth 200000 in
theorem C2_id_generation_witness :
    generate_task_id emptyState
        = "task-" ++ pad3 ((maxNumSuffixSpec emptyState : Int) + 1)
    ∧ createdIds emptyState
        [.createOp "2026-01-01T00:00" "A" "d" "P2" [],
         .createOp "2026-01-02T00:00" "B" "d" "P2" []]
      = idList 0 (countCreates
        [.createOp "2026-01-01T00:00" "A" "d" "P2" [],
         .createOp "2026-01-02T00:00" "B" "d" "P2" []])
    ∧ (idList 0 2).Nodup :=
  ⟨(C2_id_generation emptyState [] 0 2).1
      (fun st _ p hp => absurd hp (List.not_mem_nil p)),
   (C2_id_generation emptyState
      [.createOp "2026-01-01T00:00" "A" "d" "P2" [],
       .createOp "2026-01-02T00:00" "B" "d" "P2" []] 0 2).2.1
      (by decide) (by decide) ⟨trivial, trivial, trivial⟩,
   (C2_id_generation emptyState [] 0 2).2.2 (by decide)⟩

/-! ## The `find_work` chain as declarative first-match scans -/

theorem head_filter_eq_find {α : Type} (P : α → Bool) (l : List α) :
    (l.filter P).head? = l.find? P := by
  induction l with
  | nil => rfl
  | cons a l ih =>
    cases h : P a with
    | false => simp [List.filter_cons, List.find?_cons, h, ih]
    | true => simp [List.filter_cons, List.find?_cons, h]

theorem scanAssignedDir_eq (role : String) (d : List (String × String))
    (h : ∀ p ∈ d, hasSfx ".md".data p.1.data = true →
      Task.from_markdown p.2 = .ok (decOr p.2)) :
    scanAssignedDir role d
      = .ok (((d.filter fun p => hasSfx ".md".data p.1.data).find?
          fun p => decide (role ∈ (decOr p.2).assigned)).map
            fun p => decOr p.2) := by
  induction d with
  | nil => rfl
  | cons q rest ih =>
    obtain ⟨fn, doc⟩ := q
    have htl := ih (fun p hp hs => h p (List.mem_cons_of_mem _ hp) hs)
    cases hs : hasSfx ".md".data fn.data with
    | false =>
      have hstep : scanAssignedDir role ((fn, doc) :: rest)
          = scanAssignedDir role rest := by
        conv_lhs => rw [scanAssignedDir, if_neg (by simp [hs])]
      rw [hstep, List.filter_cons]
      rw [if_neg (by simp [hs])]
      exact htl
    | true =>
      have hd := h (fn, doc) (List.mem_cons_self _ _) hs
      have hstep : scanAssignedDir role ((fn, doc) :: rest)
          = if role ∈ (decOr doc).assigned then Except.ok (some (decOr doc))
            else scanAssignedDir role rest := by
        conv_lhs => rw [scanAssignedDir, if_pos hs, hd]
        rfl
      rw [hstep]
      by_cases hr : role ∈ (decOr doc).assigned
      · rw [if_pos hr, List.filter_cons, if_pos (by simpa using hs),
          List.find?_cons_of_pos _ (by simpa using hr)]
        rfl
      · rw [if_neg hr, List.filter_cons, if_pos (by simpa using hs),
          List.find?_cons_of_neg _ (by simpa using hr)]
        exact htl

theorem scanAssigned_eq (s : State) (role : String) (L : List String)
    (h : ∀ st ∈ L, ∀ p ∈ s.tasks st,
      hasSfx ".md".data p.1.data = true →
      Task.from_markdown p.2 = .ok (decOr p.2)) :
    scanAssigned s role L
      = .ok (((L.flatMap fun st =>
          ((s.tasks st).filter fun p => hasSfx ".md".data p.1.data).map
            fun p => (st, p.1, p.2)).find?
          (fun f => decide (role ∈ (decOr f.2.2).assigned))).map
            fun f => decOr f.2.2) := by
  induction L with
  | nil => rfl
  | cons st0 L ih =>
    have hdir := scanAssignedDir_eq role (s.tasks st0)
      (fun p hp hs => h st0 (List.mem_cons_self _ _) p hp hs)
    have htl := ih (fun st hst p hp hs =>
      h st (List.mem_cons_of_mem _ hst) p hp hs)
    rw [List.flatMap_cons, List.find?_append]
    have hmap : (((s.tasks st0).filter
          fun p => hasSfx ".md".data p.1.data).map
            fun p => (st0, p.1, p.2)).find?
          (fun f => decide (role ∈ (decOr f.2.2).assigned))
        = (((s.tasks st0).filter fun p => hasSfx ".md".data p.1.data).find?
            fun p => decide (role ∈ (decOr p.2).assigned)).map
          fun p => (st0, p.1, p.2) := by
      rw [List.find?_map]
      rfl
    rw [hmap]
    cases hf : ((s.tasks st0).filter
        fun p => hasSfx ".md".data p.1.data).find?
          fun p => decide (role ∈ (decOr p.2).assigned) with
    | none =>
      rw [hf] at hdir
      simp only [Option.map_none'] at hdir
      have hstep : scanAssigned s role (st0 :: L)
          = scanAssigned s role L := by
        conv_lhs => rw [scanAssigned, hdir]
        rfl
      rw [hstep, htl]
      rfl
    | some q =>
      rw [hf] at hdir
      simp only [Option.map_some'] at hdir
      have hstep : scanAssigned s role (st0 :: L)
          = Except.ok (some (decOr q.2)) := by
        conv_lhs => rw [scanAssigned, hdir]
        rfl
      rw [hstep]
      rfl

theorem filter_flatMap {α β : Type} (l : List α) (f : α → List β)
    (P : β → Bool) :
    (l.flatMap f).filter P = l.flatMap fun a => (f a).filter P := by
  induction l with
  | nil => rfl
  | cons a l ih =>
    rw [List.flatMap_cons, List.flatMap_cons, List.filter_append, ih]

theorem map_flatMap2 {α β γ : Type} (l : List α) (f : α → List β)
    (g : β → γ) :
    (l.flatMap f).map g = l.flatMap fun a => (f a).map g := by
  induction l with
  | nil => rfl
  | cons a l ih =>
    rw [List.flatMap_cons, List.flatMap_cons, List.map_append, ih]

theorem mentionsDir_eq (pat : Chars) (d : List (String × String))
    (h : ∀ p ∈ d, hasSfx ".md".data p.1.data = true →
      Task.from_markdown p.2 = .ok (decOr p.2)) :
    mentionsDir pat d
      = .ok ((((d.filter fun p => hasSfx ".md".data p.1.data).filter
          fun p => occursIn pat p.2.data).map fun p => decOr p.2)) := by
  induction d with
  | nil => rfl
  | cons q rest ih =>
    obtain ⟨fn, doc⟩ := q
    have htl := ih (fun p hp hs => h p (List.mem_cons_of_mem _ hp) hs)
    cases hs : hasSfx ".md".data fn.data with
    | false =>
      have hstep : mentionsDir pat ((fn, doc) :: rest)
          = mentionsDir pat rest := by
        conv_lhs => rw [mentionsDir, if_neg (by simp [hs])]
      rw [hstep, List.filter_cons, if_neg (by simp [hs])]
      exact htl
    | true =>
      have hd := h (fn, doc) (List.mem_cons_self _ _) hs
      cases ho : occursIn pat doc.data with
      | false =>
        have hstep : mentionsDir pat ((fn, doc) :: rest)
            = mentionsDir pat rest := by
          conv_lhs => rw [mentionsDir, if_pos hs, if_neg (by simp [ho])]
        rw [hstep, List.filter_cons, if_pos (by simpa using hs),
          List.filter_cons, if_neg (by simp [ho])]
        exact htl
      | true =>
        have hstep : mentionsDir pat ((fn, doc) :: rest)
            = Except.ok (decOr doc
                :: (((rest.filter fun p => hasSfx ".md".data p.1.data).filter
                  fun p => occursIn pat p.2.data).map fun p => decOr p.2)) := by
          conv_lhs => rw [mentionsDir, if_pos hs, if_pos ho, hd, htl]
          rfl
        rw [hstep, List.filter_cons, if_pos (by simpa using hs),
          List.filter_cons, if_pos (by simpa using ho), List.map_cons]

theorem mentionsAll_eq (s : State) (pat : Chars) (L : List String)
    (h : ∀ st ∈ L, ∀ p ∈ s.tasks st,
      hasSfx ".md".data p.1.data = true →
      Task.from_markdown p.2 = .ok (decOr p.2)) :
    mentionsAll s pat L
      = .ok (L.flatMap fun st =>
          (((s.tasks st).filter fun p => hasSfx ".md".data p.1.data).filter
            fun p => occursIn pat p.2.data).map fun p => decOr p.2) := by
  induction L with
  | nil => rfl
  | cons st0 L ih =>
    have hdir := mentionsDir_eq pat (s.tasks st0)
      (fun p hp hs => h st0 (List.mem_cons_self _ _) p hp hs)
    have htl := ih (fun st hst p hp hs =>
      h st (List.mem_cons_of_mem _ hst) p hp hs)
    have hstep : mentionsAll s pat (st0 :: L)
        = Except.ok ((((((s.tasks st0).filter
              fun p => hasSfx ".md".data p.1.data).filter
            fun p => occursIn pat p.2.data).map fun p => decOr p.2))
          ++ (L.flatMap fun st =>
            (((s.tasks st).filter fun p => hasSfx ".md".data p.1.data).filter
              fun p => occursIn pat p.2.data).map fun p => decOr p.2)) := by
      conv_lhs => rw [mentionsAll, hdir, htl]
      rfl
    rw [hstep, List.flatMap_cons]

theorem scanUnassignedDir_eq (d : List (String × String))
    (h : ∀ p ∈ d, hasSfx ".md".data p.1.data = true →
      Task.from_markdown p.2 = .ok (decOr p.2)) :
    scanUnassignedDir d
      = .ok (((d.filter fun p => hasSfx ".md".data p.1.data).find?
          fun p => decide ((decOr p.2).assigned = [])).map
            fun p => decOr p.2) := by
  induction d with
  | nil => rfl
  | cons q rest ih =>
    obtain ⟨fn, doc⟩ := q
    have htl := ih (fun p hp hs => h p (List.mem_cons_of_mem _ hp) hs)
    cases hs : hasSfx ".md".data fn.data with
    | false =>
      have hstep : scanUnassignedDir ((fn, doc) :: rest)
          = scanUnassignedDir rest := by
        conv_lhs => rw [scanUnassignedDir, if_neg (by simp [hs])]
      rw [hstep, List.filter_cons, if_neg (by simp [hs])]
      exact htl
    | true =>
      have hd := h (fn, doc) (List.mem_cons_self _ _) hs
      have hstep : scanUnassignedDir ((fn, doc) :: rest)
          = if (decOr doc).assigned = [] then Except.ok (some (decOr doc))
            else scanUnassignedDir rest := by
        conv_lhs => rw [scanUnassignedDir, if_pos hs, hd]
        rfl
      rw [hstep]
      by_cases hr : (decOr doc).assigned = []
      · rw [if_pos hr, List.filter_cons, if_pos (by simpa using hs),
          List.find?_cons_of_pos _ (by simpa using hr)]
        rfl
      · rw [if_neg hr, List.filter_cons, if_pos (by simpa using hs),
          List.find?_cons_of_neg _ (by simpa using hr)]
        exact htl

theorem find_work_spec {s : State} (role : String) (h : AllDecode s) :
    find_work s role = .ok (findWorkSpec s role) := by
  have h1 : scanAssigned s role statuses
      = .ok (((allMdFiles s).find?
          (fun f => decide (role ∈ (decOr f.2.2).assigned))).map
            fun f => decOr f.2.2) :=
    scanAssigned_eq s role statuses h
  cases hf1 : (allMdFiles s).find?
      (fun f => decide (role ∈ (decOr f.2.2).assigned)) with
  | some f =>
    rw [hf1] at h1
    have hL : find_work s role = .ok (some (decOr f.2.2)) := by
      conv_lhs => rw [find_work, h1]
      rfl
    have hR : findWorkSpec s role = some (decOr f.2.2) := by
      conv_lhs => rw [findWorkSpec, hf1]
    rw [hL, hR]
  | none =>
    rw [hf1] at h1
    simp only [Option.map_none'] at h1
    have h2 : find_mentions s role
        = .ok (((allMdFiles s).filter
            fun f => occursIn ('@' :: role.data) f.2.2.data).map
              fun f => decOr f.2.2) := by
      have hm := mentionsAll_eq s ('@' :: role.data) statuses h
      rw [show find_mentions s role
          = mentionsAll s ('@' :: role.data) statuses from rfl, hm]
      unfold allMdFiles
      rw [filter_flatMap, map_flatMap2]
      refine congrArg _ (congrArg _ ?_)
      funext st
      rw [List.filter_map, List.map_map]
      rfl
    have hA : find_work s role
        = (find_mentions s role >>= fun ms =>
            match ms with
            | t :: _ => Except.ok (some t)
            | [] =>
              match (status_map.find? fun p => p.1 == role).map (·.2) with
              | none => Except.ok none
              | some target => scanUnassignedDir (s.tasks target)) := by
      conv_lhs => rw [find_work, h1]
      rfl
    cases hf2 : (allMdFiles s).find?
        (fun f => occursIn ('@' :: role.data) f.2.2.data) with
    | some f =>
      rw [← head_filter_eq_find] at hf2
      match hfl : (allMdFiles s).filter
          (fun f => occursIn ('@' :: role.data) f.2.2.data) with
      | [] =>
        rw [hfl] at hf2
        exact absurd hf2 (by simp)
      | g :: tl =>
        rw [hfl] at hf2
        have hgf : g = f := by simpa using hf2
        rw [hfl] at h2
        have hL : find_work s role = .ok (some (decOr g.2.2)) := by
          rw [hA]
          conv_lhs => rw [h2]
          rfl
        have hR : findWorkSpec s role = some (decOr f.2.2) := by
          conv_lhs => rw [findWorkSpec, hf1]
          rw [show ((allMdFiles s).find?
              fun f => occursIn ('@' :: role.data) f.2.2.data) = some f
            from by rw [← head_filter_eq_find, hfl]; simpa using hf2]
        rw [hL, hR, hgf]
    | none =>
      rw [← head_filter_eq_find] at hf2
      have hfl : (allMdFiles s).filter
          (fun f => occursIn ('@' :: role.data) f.2.2.data) = [] := by
        match hx : (allMdFiles s).filter
            (fun f => occursIn ('@' :: role.data) f.2.2.data) with
        | [] => exact hx
        | g :: tl =>
          rw [hx] at hf2
          exact absurd hf2 (by simp)
      rw [hfl] at h2
      have hA2 : find_work s role
          = (match (status_map.find? fun p => p.1 == role).map (·.2) with
            | none => Except.ok none
            | some target => scanUnassignedDir (s.tasks target)) := by
        rw [hA]
        conv_lhs => rw [h2]
        rfl
      have hR0 : findWorkSpec s role
          = (match (status_map.find? fun p => p.1 == role).map (·.2) with
            | none => none
            | some target =>
              match ((s.tasks target).filter fun p =>
                  hasSfx ".md".data p.1.data).find? fun p =>
                    decide ((decOr p.2).assigned = []) with
              | some p => some (decOr p.2)
              | none => none) := by
        conv_lhs => rw [findWorkSpec, hf1]
        rw [show ((allMdFiles s).find?
            fun f => occursIn ('@' :: role.data) f.2.2.data) = none
          from by rw [← head_filter_eq_find, hfl]; rfl]
      cases hq : status_map.find? fun p => p.1 == role with
      | none =>
        rw [hA2, hR0, hq]
        rfl
      | some q =>
        have hqm := List.mem_of_find?_eq_some hq
        have htgt : q.2 ∈ statuses := by
          have hall : ∀ x ∈ status_map, x.2 ∈ statuses := by decide
          exact hall q hqm
        have hdir := scanUnassignedDir_eq (s.tasks q.2)
          (fun p hp hs => h q.2 htgt p hp hs)
        rw [hA2, hR0, hq]
        simp only [Option.map_some']
        rw [hdir]
        cases hfu : ((s.tasks q.2).filter fun p =>
            hasSfx ".md".data p.1.data).find? fun p =>
              decide ((decOr p.2).assigned = []) with
        | none => rfl
        | some p => rfl

/-! ## Claim C9: the `find_work` fallback chain -/

set_option maxRecDepth 200000 in
/-- C9 (counterexample): the claim's "filename order" does not hold.  With
`inbox` listed as `task-002.md` before `task-001.md` (directory listings
are not sorted) and both tasks assigned to `engineer`, `find_work` returns
task-002, while the chain over name-sorted listings returns task-001. -/
theorem C9_counterexample :
    find_work C9s "engineer" = .ok (some C9t2)
    ∧ findWorkClaim C9s "engineer" = some C9t1
    ∧ C9t1 ≠ C9t2 := by
  refine ⟨by decide, by decide, by decide⟩

/-- C9 (amended): on a store whose `.md` records all decode, `find_work`
equals the declarative fallback chain over the raw directory listing
order (statuses in the fixed list order, then listing order, not sorted
filename order): first task with `role ∈ assigned`; else first task whose
raw text contains `@role`; else the first unassigned task of the mapped
directory; else none. -/
theorem C9_find_work (s : State) (role : String) (h : AllDecode s) :
    find_work s role = .ok (findWorkSpec s role) :=
  find_work_spec role h

set_option maxRecDepth 200000 in
theorem C9_find_work_witness :
    find_work C9s "engineer" = .ok (findWorkSpec C9s "engineer") :=
  C9_find_work C9s "engineer" (by decide)

/-! ## Splicing with `str.replace` at a unique marker -/

theorem pyReplaceF_none (n : Nat) (p r l : Chars)
    (h : findSub p l = none) : pyReplaceF n p r l = l := by
  cases n with
  | zero => rfl
  | succ m => simp only [pyReplaceF, h]

theorem findSub_eq_some_of {p l : Chars} (i : Nat)
    (h1 : hasPre p (l.drop i) = true)
    (h2 : ∀ j, j < i → hasPre p (l.drop j) = false) :
    findSub p l = some i := by
  obtain ⟨i2, hf, hle⟩ := findSub_min h1
  rcases Nat.lt_or_ge i2 i with hlt | hge
  · have h3 := (findSub_spec hf).1
    rw [h2 i2 hlt] at h3
    exact absurd h3 (by simp)
  · rw [hf, Nat.le_antisymm hle hge]

theorem noSpawn_spec {p b : Chars} (hb : noSpawn p b = true) :
    ∀ i, i < b.length →
      hasPre p (b.drop i) = false ∧ hasPre (b.drop i) p = false := by
  intro i hi
  unfold noSpawn at hb
  have h := List.all_eq_true.1 hb i (List.mem_range.2 hi)
  simp only [Bool.and_eq_true, Bool.not_eq_true'] at h
  exact h

theorem findSub_none_of_noSpawn {p b rest : Chars}
    (hb : noSpawn p b = true) (hrest : findSub p rest = none) :
    findSub p (b ++ rest) = none := by
  match hf : findSub p (b ++ rest) with
  | none => rfl
  | some i =>
    exfalso
    have hhp := (findSub_spec hf).1
    rcases Nat.lt_or_ge i b.length with hlt | hge
    · have hdrop : (b ++ rest).drop i = b.drop i ++ rest :=
        List.drop_append_of_le_length (by omega)
      rw [hdrop] at hhp
      obtain ⟨hb1, hb2⟩ := noSpawn_spec hb i hlt
      rcases le_or_lt p.length (b.drop i).length with hl1 | hl1
      · rw [hasPre_append_eq rest hl1, hb1] at hhp
        exact absurd hhp (by simp)
      · have htake := hasPre_iff.1 hhp
        have hbd : p.take (b.drop i).length = b.drop i := by
          have h4 : ((b.drop i ++ rest).take p.length).take
              (b.drop i).length = p.take (b.drop i).length := by
            rw [htake]
          rw [List.take_take, min_eq_left (by omega),
            List.take_append_of_le_length (le_refl _),
            List.take_length] at h4
          exact h4.symm
        have h5 : hasPre (b.drop i) p = true := hasPre_iff.2 hbd
        rw [hb2] at h5
        exact absurd h5 (by simp)
    · obtain ⟨k, rfl⟩ : ∃ k, i = b.length + k := ⟨i - b.length, by omega⟩
      have hdrop : (b ++ rest).drop (b.length + k) = rest.drop k := by
        rw [← List.drop_drop, List.drop_left]
      rw [hdrop] at hhp
      have h6 := findSub_none hrest k
      rw [hhp] at h6
      exact absurd h6 (by simp)

theorem findSub_first_at {P A : Chars} (X : Chars)
    (hA : findSub P (A ++ P) = some A.length) :
    findSub P (A ++ P ++ X) = some A.length := by
  have hmin := (findSub_spec hA).2
  refine findSub_eq_some_of A.length ?_ ?_
  · rw [show (A ++ P ++ X).drop A.length = P ++ X from by
      rw [List.append_assoc]
      exact List.drop_left A (P ++ X)]
    exact hasPre_append_self P X
  · intro j hj
    have hlenA := findSub_le_length hA
    simp only [List.length_append] at hlenA
    have hdrop : (A ++ P ++ X).drop j = (A ++ P).drop j ++ X :=
      List.drop_append_of_le_length (by simp; omega)
    rw [hdrop, hasPre_append_eq X ?hl]
    · exact hmin j hj
    case hl =>
      have hp1 := hasPre_length (findSub_spec hA).1
      simp only [List.length_drop, List.length_append] at hp1 ⊢
      omega

theorem pyReplace_splice {P A X B : Chars}
    (hA : findSub P (A ++ P) = some A.length)
    (hX : findSub P X = none) :
    pyReplace P (P ++ B) (A ++ P ++ X) = A ++ P ++ (B ++ X) := by
  have hf := findSub_first_at X hA
  unfold pyReplace
  simp only [pyReplaceF, hf]
  rw [show (A ++ P ++ X).take A.length = A from by
      rw [List.append_assoc, List.take_append_of_le_length (le_refl _),
        List.take_length],
    show (A ++ P ++ X).drop (A.length + P.length) = X from by
      rw [← List.length_append]
      exact List.drop_left (A ++ P) X]
  rw [pyReplaceF_none _ _ _ _ hX]
  simp [List.append_assoc]

theorem fold_splice (P : Chars) (Bf : String → Chars) :
    ∀ (ags : List String) (A F R : Chars),
      findSub P (A ++ P) = some A.length →
      findSub P (F ++ R) = none →
      (∀ ag ∈ ags, noSpawn P (Bf ag) = true) →
      ags.foldl (fun c ag => pyReplace P (P ++ Bf ag) c) (A ++ P ++ (F ++ R))
        = A ++ P ++ ((ags.foldl (fun f ag => Bf ag ++ f) F) ++ R) := by
  intro ags
  induction ags with
  | nil =>
    intro A F R _ _ _
    rfl
  | cons ag ags ih =>
    intro A F R hA hFR hB
    rw [List.foldl_cons, List.foldl_cons]
    have hstep : pyReplace P (P ++ Bf ag) (A ++ P ++ (F ++ R))
        = A ++ P ++ ((Bf ag ++ F) ++ R) := by
      rw [pyReplace_splice hA hFR]
      simp [List.append_assoc]
    rw [hstep]
    exact ih A (Bf ag ++ F) R hA
      (by
        rw [List.append_assoc]
        exact findSub_none_of_noSpawn
          (hB ag (List.mem_cons_self ag ags)) hFR)
      (fun a ha => hB a (List.mem_cons_of_mem ag ha))

theorem notify_content {s : State} {now : String} {t : Task}
    {commenter msg : String} {A R : Chars}
    (hc : (s.notif.getD defaultLedger).data
      = A ++ "## Pending\n\n".data ++ R)
    (hA : findSub "## Pending\n\n".data (A ++ "## Pending\n\n".data)
      = some A.length)
    (hR : findSub "## Pending\n\n".data R = none)
    (hB : ∀ ag ∈ t.subscribers.filter (fun a => a != commenter),
      noSpawn "## Pending\n\n".data
        (notifBlock now t commenter msg ag) = true)
    (hne : t.subscribers.filter (fun a => a != commenter) ≠ []) :
    notify_subscribers s now t commenter msg
      = { s with notif := some ⟨A ++ "## Pending\n\n".data
          ++ (((t.subscribers.filter fun a => a != commenter).foldl
            (fun f ag => notifBlock now t commenter msg ag ++ f) [])
            ++ R)⟩ } := by
  have hfold : (t.subscribers.filter fun a => a != commenter).foldl
      (fun c ag => pyReplace "## Pending\n\n".data
        ("## Pending\n\n".data ++ notifBlock now t commenter msg ag) c)
      ((s.notif.getD defaultLedger).data)
      = A ++ "## Pending\n\n".data
        ++ (((t.subscribers.filter fun a => a != commenter).foldl
          (fun f ag => notifBlock now t commenter msg ag ++ f) []) ++ R) := by
    rw [hc]
    exact fold_splice "## Pending\n\n".data
      (notifBlock now t commenter msg)
      (t.subscribers.filter fun a => a != commenter) A [] R hA hR hB
  simp only [notify_subscribers]
  rw [if_neg hne, hfold]

/-! ## Claim C5: notification fan-out -/

set_option maxRecDepth 200000 in
/-- C5 (counterexample): a comment whose message contains the Pending
header breaks the "exactly one new entry per subscriber" promise.
`str.replace` replaces every occurrence, and each spliced block is itself
rescanned by the replaces of later subscribers: after
`add_comment(task-001, "a", "## Pending\n\n")` on a task subscribed by
`b` and `c`, agent `c` has two pending entries. -/
theorem C5_counterexample :
    pendingCount C5s.notif "c" = 0
    ∧ pendingCount (add_comment C5s "2026-01-02T00:00" "task-001" "a"
        C5msg).2.notif "c" = 2 := by
  refine ⟨by decide, by decide⟩

/-- C5 (amended): on a successful comment, when the ledger contains
exactly one occurrence of `## Pending\n\n` (split as `A ++ marker ++ R`
with the first occurrence at `A.length` and none in `R`) and no
notification block can spawn a new occurrence, the new ledger is exactly
the old one with one block per non-commenting subscriber spliced after
the marker; the commenter is not among the notified agents, every other
subscriber is (exactly once when `subscribers` has no duplicates), and
each block's message is the comment truncated to 100 characters, with an
ellipsis exactly when the message is longer. -/
theorem C5_fan_out (s : State) (now id agent msg st doc : String)
    (t : Task) (A R : Chars)
    (h1 : findTaskDir s id = some st)
    (h2 : readF s st (taskFileName id) = some doc)
    (h3 : Task.from_markdown doc = .ok t)
    (hc : (s.notif.getD defaultLedger).data
      = A ++ "## Pending\n\n".data ++ R)
    (hA : findSub "## Pending\n\n".data (A ++ "## Pending\n\n".data)
      = some A.length)
    (hR : findSub "## Pending\n\n".data R = none)
    (hB : ∀ ag ∈ (acTask t now agent msg).subscribers.filter
        (fun a => a != agent),
      noSpawn "## Pending\n\n".data
        (notifBlock now (acTask t now agent msg) agent msg ag) = true)
    (hne : (acTask t now agent msg).subscribers.filter
        (fun a => a != agent) ≠ []) :
    (add_comment s now id agent msg).2.notif
      = some ⟨A ++ "## Pending\n\n".data
          ++ ((((acTask t now agent msg).subscribers.filter
              fun a => a != agent).foldl
            (fun f ag => notifBlock now (acTask t now agent msg) agent msg ag
              ++ f) []) ++ R)⟩
    ∧ agent ∉ (acTask t now agent msg).subscribers.filter
        (fun a => a != agent)
    ∧ (∀ ag ∈ (acTask t now agent msg).subscribers, ag ≠ agent →
        ag ∈ (acTask t now agent msg).subscribers.filter
          (fun a => a != agent))
    ∧ ((acTask t now agent msg).subscribers.Nodup →
        ((acTask t now agent msg).subscribers.filter
          (fun a => a != agent)).Nodup)
    ∧ (msg.data.length ≤ 100 → truncMsg msg = msg.data)
    ∧ (100 < msg.data.length →
        truncMsg msg = msg.data.take 100 ++ "...".data) := by
  refine ⟨?_, ?_, ?_, ?_, ?_, ?_⟩
  · obtain ⟨s2, hac, hnotif⟩ : ∃ s2 : State,
        (add_comment s now id agent msg).2
          = notify_subscribers s2 now (acTask t now agent msg) agent msg
        ∧ s2.notif = s.notif := by
      refine ⟨{ writeF s st (taskFileName id) (Task.to_markdown (acTask t now agent msg)) with log := (writeF s st (taskFileName id) (Task.to_markdown (acTask t now agent msg))).log ++ [now ++ " | " ++ agent ++ " | Commented on " ++ id] }, ?_, ?_⟩
      · simp only [add_comment, h1, h2, h3]
      · rfl
    have hc2 : (s2.notif.getD defaultLedger).data
        = A ++ "## Pending\n\n".data ++ R := by
      rw [hnotif]
      exact hc
    rw [hac, notify_content hc2 hA hR hB hne]
  · intro hmem
    have hneq := (List.mem_filter.1 hmem).2
    simp at hneq
  · intro ag hag hneq
    exact List.mem_filter.2 ⟨hag, by simpa using hneq⟩
  · intro hnd
    exact hnd.filter _
  · intro hle
    unfold truncMsg
    rw [if_neg (by omega), List.append_nil, List.take_of_length_le hle]
  · intro hlt
    unfold truncMsg
    rw [if_pos hlt]

set_option maxRecDepth 200000 in
theorem C5_fan_out_witness :
    (add_comment C5ws "2026-01-02T00:00" "task-001" "alice"
        "looks good").2.notif
      = some ⟨"# Notifications\n\n".data ++ "## Pending\n\n".data
          ++ ((((acTask C5wt "2026-01-02T00:00" "alice"
                "looks good").subscribers.filter
              fun a => a != "alice").foldl
            (fun f ag => notifBlock "2026-01-02T00:00"
              (acTask C5wt "2026-01-02T00:00" "alice" "looks good")
              "alice" "looks good" ag ++ f) []) ++ [])⟩ :=
  (C5_fan_out C5ws "2026-01-02T00:00" "task-001" "alice" "looks good"
    "inbox" (Task.to_markdown C5wt) C5wt "# Notifications\n\n".data []
    (by decide) (by decide) (by decide) (by decide) (by decide)
    (by decide) (by decide) (by decide)).1

end TaskBoard
